import Mathlib

/-!
Shallow embedding of the sqlyte-db storage engine (single-table B+-tree over a
paged file) and verification of the frozen claims about it.

The embedding follows the latest source variant (the one declaring
`leaf_node_split_and_insert`, `internal_node_split_and_insert`,
`create_new_root`, `table_find`): pages are modelled structurally as leaf or
internal nodes, with the byte-offset aliasing of the on-page layout preserved
where the code depends on it:
  * byte offset 6 holds the leaf `num_cells` and the internal `num_keys`
    (both u32 right after the 6-byte common header), so reading
    `leaf_node_num_cells` of an internal page yields its `num_keys`;
  * byte offset 10 holds the leaf `next_leaf` and the internal `right_child`;
  * byte offset 14 (start of the cell area) holds leaf cell 0's key and
    internal cell 0's left-child pointer.
Machine integers are Nat with explicit `% 2^32` where u32 wraparound can
occur.  Fallible paths (`exit(EXIT_FAILURE)` calls, out-of-bounds slot
accesses, uninitialized reads) return `Except`; unbounded recursion through
pager pages is given explicit fuel, with exhaustion reported as an error.
-/

namespace Sqlyte

/-! ## Constants (db.h) -/

def U32_MOD : Nat := 2 ^ 32

def COLUMN_USERNAME_SIZE : Nat := 32

def COLUMN_EMAIL_SIZE : Nat := 255

def TABLE_MAX_PAGES : Nat := 100

/-- `NO_SIBLING` marks a leaf as having no next sibling. -/
def NO_SIBLING : Nat := 0

def ID_SIZE : Nat := 4

def USERNAME_SIZE : Nat := COLUMN_USERNAME_SIZE + 1

def EMAIL_SIZE : Nat := COLUMN_EMAIL_SIZE + 1

def ROW_SIZE : Nat := ID_SIZE + USERNAME_SIZE + EMAIL_SIZE

def PAGE_SIZE : Nat := 4096

def COMMON_NODE_HEADER_SIZE : Nat := 1 + 1 + 4

def LEAF_NODE_HEADER_SIZE : Nat := COMMON_NODE_HEADER_SIZE + 4 + 4

def LEAF_NODE_KEY_SIZE : Nat := 4

def LEAF_NODE_CELL_SIZE : Nat := LEAF_NODE_KEY_SIZE + ROW_SIZE

def LEAF_NODE_SPACE_FOR_CELLS : Nat := PAGE_SIZE - LEAF_NODE_HEADER_SIZE

def LEAF_NODE_MAX_CELLS : Nat := LEAF_NODE_SPACE_FOR_CELLS / LEAF_NODE_CELL_SIZE

def LEAF_NODE_RIGHT_SPLIT_COUNT : Nat := (LEAF_NODE_MAX_CELLS + 1) / 2

def LEAF_NODE_LEFT_SPLIT_COUNT : Nat :=
  (LEAF_NODE_MAX_CELLS + 1) - LEAF_NODE_RIGHT_SPLIT_COUNT

/-- Modelled from the spec: the header that defines `INVALID_PAGE_NUM` is not
present under src/ (only its users are).  The spec fixes the value: the
invalid page sentinel is `0xFFFFFFFF`, marking a right-child pointer as not
yet set. -/
def INVALID_PAGE_NUM : Nat := 0xFFFFFFFF

/-- Modelled from the spec: the header that defines `INTERNAL_NODE_MAX_KEYS`
is not present under src/ (only its users are) and the spec does not fix a
numeric value.  We use 3, the conventional small testing value of this code
lineage; no theorem below depends on the value (it only gates the
internal-split branch, and every hypothesis mentioning it is stated relative
to the constant). -/
def INTERNAL_NODE_MAX_KEYS : Nat := 3

/-! ## Rows and nodes -/

/-- A row of the single hard-coded table.  The username and email are the
C strings held in the fixed-size char arrays; serialization into a leaf cell
round-trips them, so the cell value is modelled as the row itself. -/
structure Row where
  id : Nat
  username : String
  email : String
deriving DecidableEq

/-- Body of a page whose node-type byte is `NODE_LEAF`.  `cells` is a total
map modelling the whole cell area of the 4096-byte page: indices at and
beyond `num_cells` correspond to bytes the code has not (re)written. -/
structure LeafData where
  is_root : Bool
  parent : Nat
  num_cells : Nat
  next_leaf : Nat
  cells : Nat → Nat × Row

/-- Body of a page whose node-type byte is `NODE_INTERNAL`.  A cell is a
(left-child page number, key) pair. -/
structure InternalData where
  is_root : Bool
  parent : Nat
  num_keys : Nat
  right_child : Nat
  cells : Nat → Nat × Nat

/-- A 4096-byte page, interpreted through its node-type byte. -/
inductive Node
  | leaf (d : LeafData)
  | internal (d : InternalData)

def defaultRow : Row := ⟨0, "", ""⟩

/-- An all-zero page as the node codec reads it: node type byte 0 is
`NODE_INTERNAL`, all other fields zero. -/
def zeroNode : Node := .internal ⟨false, 0, 0, 0, fun _ => (0, 0)⟩

inductive NodeType
  | internalType
  | leafType
deriving DecidableEq

/-! ## Node codec (pure accessors; byte-offset reads made total) -/

def get_node_type : Node → NodeType
  | .leaf _ => .leafType
  | .internal _ => .internalType

def is_node_root : Node → Bool
  | .leaf d => d.is_root
  | .internal d => d.is_root

/-- Byte offset 2: the parent pointer lives in the common header of both
node kinds. -/
def node_parent : Node → Nat
  | .leaf d => d.parent
  | .internal d => d.parent

/-- Byte offset 6: the leaf `num_cells` field.  On an internal page the same
four bytes hold `num_keys`, so the punned read yields that value (this is
what `exec_insert` reads from the root page even when the root is internal). -/
def leaf_node_num_cells : Node → Nat
  | .leaf d => d.num_cells
  | .internal d => d.num_keys

/-- Byte offset 10: the leaf `next_leaf` field; on an internal page the same
bytes hold `right_child`. -/
def leaf_node_next_leaf : Node → Nat
  | .leaf d => d.next_leaf
  | .internal d => d.right_child

def is_last_leaf_node (n : Node) : Bool :=
  leaf_node_next_leaf n = NO_SIBLING

/-- Byte offset `14 + 297*i`: key of leaf cell `i`.  On an internal page,
offset 14 is cell 0's left-child pointer; for `i > 0` the read falls on
unspecified bytes of the internal cell area, modelled as 0 (no verified code
path reads them). -/
def leaf_node_key (n : Node) (i : Nat) : Nat :=
  match n with
  | .leaf d => (d.cells i).1
  | .internal d => if i = 0 then (d.cells 0).1 else 0

/-- Value (serialized row) of leaf cell `i`; unspecified bytes on an internal
page are modelled as the default row. -/
def leaf_node_value (n : Node) (i : Nat) : Row :=
  match n with
  | .leaf d => (d.cells i).2
  | .internal _ => defaultRow

/-- Byte offset 6 read as the internal `num_keys`; on a leaf the same bytes
hold `num_cells`. -/
def internal_node_num_keys : Node → Nat
  | .leaf d => d.num_cells
  | .internal d => d.num_keys

/-- Byte offset 10 read as the internal `right_child`; on a leaf the same
bytes hold `next_leaf`. -/
def internal_node_right_child : Node → Nat
  | .leaf d => d.next_leaf
  | .internal d => d.right_child

/-- Left-child pointer stored in internal cell `i` (byte offset `14 + 8*i`).
On a leaf page these are unspecified bytes, modelled as 0. -/
def internal_node_cell_child (n : Node) (i : Nat) : Nat :=
  match n with
  | .leaf _ => 0
  | .internal d => (d.cells i).1

/-- Key stored in internal cell `i` (byte offset `14 + 8*i + 4`).  On a leaf
page these are unspecified bytes, modelled as 0. -/
def internal_node_key (n : Node) (i : Nat) : Nat :=
  match n with
  | .leaf _ => 0
  | .internal d => (d.cells i).2

/-! ## Setters (each models one C assignment through a page pointer) -/

def set_node_root (n : Node) (b : Bool) : Node :=
  match n with
  | .leaf d => .leaf { d with is_root := b }
  | .internal d => .internal { d with is_root := b }

def set_node_parent (n : Node) (pp : Nat) : Node :=
  match n with
  | .leaf d => .leaf { d with parent := pp }
  | .internal d => .internal { d with parent := pp }

/-- Write the leaf `num_cells` field.  No verified path writes leaf fields of
an internal page, so the punned case leaves the page unchanged. -/
def set_leaf_num_cells (n : Node) (v : Nat) : Node :=
  match n with
  | .leaf d => .leaf { d with num_cells := v % U32_MOD }
  | .internal d => .internal d

def set_leaf_next_leaf (n : Node) (v : Nat) : Node :=
  match n with
  | .leaf d => .leaf { d with next_leaf := v }
  | .internal d => .internal d

/-- `*leaf_node_key(node, i) = k`: writes only the key bytes of cell `i`. -/
def write_leaf_key (n : Node) (i k : Nat) : Node :=
  match n with
  | .leaf d =>
      .leaf { d with cells := fun j => if j = i then (k, (d.cells j).2) else d.cells j }
  | .internal d => .internal d

/-- `serialize_row(value, leaf_node_value(node, i))`: writes only the value
bytes of cell `i`. -/
def write_leaf_value (n : Node) (i : Nat) (r : Row) : Node :=
  match n with
  | .leaf d =>
      .leaf { d with cells := fun j => if j = i then ((d.cells j).1, r) else d.cells j }
  | .internal d => .internal d

/-- `memcpy(leaf_node_cell(node, i), src_cell, LEAF_NODE_CELL_SIZE)`. -/
def write_leaf_cell (n : Node) (i : Nat) (c : Nat × Row) : Node :=
  match n with
  | .leaf d =>
      .leaf { d with cells := fun j => if j = i then c else d.cells j }
  | .internal d => .internal d

def set_internal_num_keys (n : Node) (v : Nat) : Node :=
  match n with
  | .leaf d => .leaf d
  | .internal d => .internal { d with num_keys := v % U32_MOD }

def set_internal_right_child (n : Node) (v : Nat) : Node :=
  match n with
  | .leaf d => .leaf d
  | .internal d => .internal { d with right_child := v }

/-- `*internal_node_key(node, i) = k` (unchecked write, also used one past
`num_keys` by `update_internal_node_key` when the affected child is the
rightmost one). -/
def write_internal_key (n : Node) (i k : Nat) : Node :=
  match n with
  | .leaf d => .leaf d
  | .internal d =>
      .internal { d with cells := fun j => if j = i then ((d.cells j).1, k) else d.cells j }

/-- Write the left-child pointer bytes of internal cell `i`. -/
def write_internal_child (n : Node) (i c : Nat) : Node :=
  match n with
  | .leaf d => .leaf d
  | .internal d =>
      .internal { d with cells := fun j => if j = i then (c, (d.cells j).2) else d.cells j }

/-- `memcpy(internal_node_cell(node, i), src, INTERNAL_NODE_CELL_SIZE)`. -/
def write_internal_cell (n : Node) (i : Nat) (c : Nat × Nat) : Node :=
  match n with
  | .leaf d => .leaf d
  | .internal d =>
      .internal { d with cells := fun j => if j = i then c else d.cells j }

/-- `init_leaf_node`: sets the type byte, clears `is_root`, zeroes
`num_cells`, sets `next_leaf = NO_SIBLING`.  The parent bytes are not
written and survive; the cell area keeps its previous bytes (when the page
was previously interpreted as internal those bytes are unspecified in this
model and read as defaults; the code never reads a cell it has not
re-written after an init). -/
def init_leaf_node (n : Node) : Node :=
  .leaf { is_root := false
          parent := node_parent n
          num_cells := 0
          next_leaf := NO_SIBLING
          cells := fun i =>
            match n with
            | .leaf d => d.cells i
            | .internal _ => (0, defaultRow) }

/-- `init_internal_node`: sets the type byte, clears `is_root`, zeroes
`num_keys`, sets `right_child = INVALID_PAGE_NUM`.  Parent bytes survive;
the cell area keeps its previous bytes (unspecified when the page was a
leaf). -/
def init_internal_node (n : Node) : Node :=
  .internal { is_root := false
              parent := node_parent n
              num_keys := 0
              right_child := INVALID_PAGE_NUM
              cells := fun i =>
                match n with
                | .leaf _ => (0, 0)
                | .internal d => d.cells i }

/-! ## Errors, pager, table, cursor -/

/-- Outcomes of code paths that do not return normally.  `exit(EXIT_FAILURE)`
calls are the named errors; `slotOutOfBounds` makes explicit the undefined
behavior of indexing one past the 100-entry slot array; `uninitializedRead`
models branching on an indeterminate value; `outOfFuel` models recursion that
the embedding bounds with fuel. -/
inductive DbErr
  | pageBoundExit
  | slotOutOfBounds
  | childOutOfBounds
  | invalidPageChild
  | uninitializedRead
  | outOfFuel
deriving DecidableEq

/-- The pager: the file contents at open time (as a list of whole pages — the
open-time check rejects files that are not a whole number of pages), the
100-entry in-memory slot array (as a total map whose meaningful indices are
below `TABLE_MAX_PAGES`), and `num_pages`. -/
structure Pager where
  file : List Node
  pages : Nat → Option Node
  num_pages : Nat

structure Table where
  root_page_num : Nat

/-- A cursor.  `end_of_table` is `none` while the field holds the
indeterminate bytes of a fresh `xmalloc` allocation (the code only assigns it
in `table_start` and `cursor_advance`). -/
structure Cursor where
  page_num : Nat
  cell_num : Nat
  end_of_table : Option Bool

/-- `get_page`.  The source guard is `page_num > TABLE_MAX_PAGES`, so
`page_num = TABLE_MAX_PAGES` passes the guard and the subsequent
`pager->pages[page_num]` reads one past the end of the slot array: that
access is surfaced as the distinct error `slotOutOfBounds`. -/
def get_page (p : Pager) (page_num : Nat) : Except DbErr (Node × Pager) :=
  if page_num > TABLE_MAX_PAGES then .error .pageBoundExit
  else if page_num ≥ TABLE_MAX_PAGES then .error .slotOutOfBounds
  else
    match p.pages page_num with
    | some node => .ok (node, p)
    | none =>
        let num_pages_file := p.file.length
        let node := if page_num ≤ num_pages_file then p.file.getD page_num zeroNode
                    else zeroNode
        .ok (node,
          { p with
            pages := fun j => if j = page_num then some node else p.pages j
            num_pages := if page_num ≥ p.num_pages then page_num + 1 else p.num_pages })

/-- One C store through a pointer previously obtained from `get_page`: the
slot is already populated, so the store updates the cached page in place. -/
def set_page (p : Pager) (i : Nat) (n : Node) : Pager :=
  { p with pages := fun j => if j = i then some n else p.pages j }

def get_unused_page_num (p : Pager) : Nat := p.num_pages

/-- Checked read `*internal_node_left_child(node, child_num)`. -/
def internal_node_left_child (n : Node) (child_num : Nat) : Except DbErr Nat :=
  let num_keys := internal_node_num_keys n
  if child_num > num_keys then .error .childOutOfBounds
  else if child_num = num_keys then
    let rc := internal_node_right_child n
    if rc = INVALID_PAGE_NUM then .error .invalidPageChild else .ok rc
  else
    let lc := internal_node_cell_child n child_num
    if lc = INVALID_PAGE_NUM then .error .invalidPageChild else .ok lc

/-- Checked store `*internal_node_left_child(node, child_num) = v`: the
accessor's bound and sentinel checks run on the current contents before the
store lands. -/
def write_via_internal_left_child (n : Node) (child_num v : Nat) : Except DbErr Node :=
  let num_keys := internal_node_num_keys n
  if child_num > num_keys then .error .childOutOfBounds
  else if child_num = num_keys then
    if internal_node_right_child n = INVALID_PAGE_NUM then .error .invalidPageChild
    else .ok (set_internal_right_child n v)
  else
    if internal_node_cell_child n child_num = INVALID_PAGE_NUM then .error .invalidPageChild
    else .ok (write_internal_child n child_num v)

/-- u32 subtraction (the operands of interest are below `2^32`). -/
def u32sub (a b : Nat) : Nat := (a + U32_MOD - b % U32_MOD) % U32_MOD

def leaf_node_cell_read (n : Node) (i : Nat) : Nat × Row :=
  match n with
  | .leaf d => d.cells i
  | .internal _ => (0, defaultRow)

def internal_node_cell_read (n : Node) (i : Nat) : Nat × Nat :=
  match n with
  | .leaf _ => (0, 0)
  | .internal d => d.cells i

/-! ## Search -/

/-- The leaf binary-search loop (`[low, high)`, early return on an exact key
match), driven structurally by a counter equal to the interval width: every
iteration shrinks the interval by at least one, so the counter never runs
out before `low = high`.  The degenerate inverted-interval case (which the
C `while (high != low)` would keep iterating with signed ints) returns
`low`; no call site reaches it. -/
def leaf_find_go (n : Node) (key : Nat) : Nat → Nat → Nat → Nat
  | 0, low, _ => low
  | gap + 1, low, high =>
      if low = high then low
      else if high < low then low
      else
        let mid := low + (high - low) / 2
        let key_at_mid := leaf_node_key n mid
        if key = key_at_mid then mid
        else if key > key_at_mid then leaf_find_go n key gap (mid + 1) high
        else leaf_find_go n key gap low mid

def leaf_find_loop (n : Node) (key : Nat) (low high : Nat) : Nat :=
  leaf_find_go n key (high - low) low high

/-- The internal-node binary-search loop of `internal_node_find_child`
(`mid = (max + min) / 2`, early break on an exact separator match), driven
structurally by the interval width like `leaf_find_go`. -/
def internal_find_child_go (n : Node) (key : Nat) : Nat → Nat → Nat → Nat
  | 0, mn, _ => mn
  | gap + 1, mn, mx =>
      if mn = mx then mn
      else if mx < mn then mn
      else
        let mid := (mx + mn) / 2
        let key_to_right := internal_node_key n mid
        if key_to_right = key then mid
        else if key > key_to_right then internal_find_child_go n key gap (mid + 1) mx
        else internal_find_child_go n key gap mn mid

def internal_find_child_loop (n : Node) (key : Nat) (mn mx : Nat) : Nat :=
  internal_find_child_go n key (mx - mn) mn mx

def internal_node_find_child (n : Node) (key : Nat) : Nat :=
  internal_find_child_loop n key 0 (internal_node_num_keys n)

def leaf_node_find (t : Table) (page_num key : Nat) (p : Pager) :
    Except DbErr (Cursor × Pager) := do
  let (node, p) ← get_page p page_num
  let num_cells := leaf_node_num_cells node
  let cell_num := leaf_find_loop node key 0 num_cells
  .ok ({ page_num := page_num, cell_num := cell_num, end_of_table := none }, p)

def internal_node_find (fuel : Nat) (t : Table) (page_num key : Nat) (p : Pager) :
    Except DbErr (Cursor × Pager) :=
  match fuel with
  | 0 => .error .outOfFuel
  | fuel + 1 => do
    let (node, p) ← get_page p page_num
    let child_index := internal_node_find_child node key
    let child_num ← internal_node_left_child node child_index
    let (child, p) ← get_page p child_num
    match get_node_type child with
    | .leafType => leaf_node_find t child_num key p
    | .internalType => internal_node_find fuel t child_num key p

def table_find (fuel : Nat) (t : Table) (key : Nat) (p : Pager) :
    Except DbErr (Cursor × Pager) := do
  let (root_node, p) ← get_page p t.root_page_num
  match get_node_type root_node with
  | .leafType => leaf_node_find t t.root_page_num key p
  | .internalType => internal_node_find fuel t t.root_page_num key p

/-! ## Max key, new root -/

/-- `get_node_max_key`: for an internal node, recurse through the right
child; for a leaf, read the key of cell `num_cells - 1` (u32 arithmetic: on
an empty leaf the index wraps to `0xFFFFFFFF` and the C read lands far
outside the page; the total cell map returns the unwritten default there). -/
def get_node_max_key (fuel : Nat) (p : Pager) (node : Node) :
    Except DbErr (Nat × Pager) :=
  match fuel with
  | 0 => .error .outOfFuel
  | fuel + 1 =>
    match node with
    | .internal _ => do
        let (right_child, p) ← get_page p (internal_node_right_child node)
        get_node_max_key fuel p right_child
    | .leaf d => .ok (leaf_node_key node (u32sub d.num_cells 1), p)

/-- The child-reparenting loop of `create_new_root` over the copied root's
left children.  The loop reads child page numbers through the checked
accessor on the (unchanging) copied node. -/
def reparent_list (lcpn : Nat) (left_child : Node) :
    List Nat → Pager → Except DbErr Pager
  | [], p => .ok p
  | i :: rest, p => do
      let curr_page_num ← internal_node_left_child left_child i
      let (child, p) ← get_page p curr_page_num
      let p := set_page p curr_page_num (set_node_parent child lcpn)
      reparent_list lcpn left_child rest p

/-- The `create_new_root` branch that pre-initializes both fresh pages as
internal nodes when the old root is internal (the left child's
initialization is immediately overwritten by the page copy). -/
def cnr_init_children (root rc lc : Node) (rcpn lcpn : Nat) (p : Pager) : Node × Pager :=
  if get_node_type root = .internalType then
    (init_internal_node rc,
      set_page (set_page p rcpn (init_internal_node rc)) lcpn (init_internal_node lc))
  else (rc, p)

/-- The `create_new_root` branch that, when the copied node is internal,
repoints the stored parent of each of its children to the copy's page. -/
def cnr_reparent (lcpn : Nat) (left_child : Node) (p : Pager) : Except DbErr Pager :=
  if get_node_type left_child = .internalType then do
    let p ← reparent_list lcpn left_child
      (List.range (internal_node_num_keys left_child)) p
    let curr_page_num := internal_node_right_child left_child
    let (child, p) ← get_page p curr_page_num
    pure (set_page p curr_page_num (set_node_parent child lcpn))
  else pure p

def create_new_root (fuel : Nat) (t : Table) (right_child_page_num : Nat) (p : Pager) :
    Except DbErr Pager := do
  let (root, p) ← get_page p t.root_page_num
  let (right_child, p) ← get_page p right_child_page_num
  let left_child_page_num := get_unused_page_num p
  let (left_child, p) ← get_page p left_child_page_num
  let rcp := cnr_init_children root right_child left_child
    right_child_page_num left_child_page_num p
  let right_child := rcp.1
  let p := rcp.2
  -- memcpy(left_child, root, PAGE_SIZE); set_node_root(left_child, false)
  let left_child := set_node_root root false
  let p := set_page p left_child_page_num left_child
  let p ← cnr_reparent left_child_page_num left_child p
  -- re-initialize page 0 as an internal root with one key and two children
  let root := init_internal_node root
  let root := set_node_root root true
  let root := set_internal_num_keys root 1
  let root ← write_via_internal_left_child root 0 left_child_page_num
  let p := set_page p t.root_page_num root
  let (left_child_max_key, p) ← get_node_max_key fuel p left_child
  let root := write_internal_key root 0 left_child_max_key
  let root := set_internal_right_child root right_child_page_num
  let p := set_page p t.root_page_num root
  -- update parent_page_num of both children (stores through live pointers)
  let (left_child, p) ← get_page p left_child_page_num
  let p := set_page p left_child_page_num (set_node_parent left_child t.root_page_num)
  let (right_child, p) ← get_page p right_child_page_num
  let p := set_page p right_child_page_num (set_node_parent right_child t.root_page_num)
  .ok p

/-- `update_internal_node_key`: overwrite the key found for `old_key` with
`new_key` (an unchecked key store; when `old_key` exceeds every separator the
store lands one cell past `num_keys`). -/
def update_internal_node_key (n : Node) (old_key new_key : Nat) : Node :=
  write_internal_key n (internal_node_find_child n old_key) new_key

/-! ## Internal-node insert and split -/

/-- The cell-shifting loop of `internal_node_insert`
(`for i = original_num_keys; i > index; --i`). -/
def internal_shift_cells (n : Node) (index : Nat) : Nat → Node
  | 0 => n
  | i + 1 =>
      if i + 1 > index then
        internal_shift_cells
          (write_internal_cell n (i + 1) (internal_node_cell_read n i)) index i
      else n

/-- The branch of `internal_node_split_and_insert` that prepares the split:
when the root is being split, `create_new_root` runs first and the old node
becomes the new root's left child; otherwise the sibling page is allocated
and initialized.  Returns the parent page to update later, the (possibly
relocated) old page number and node, and the new pager state. -/
def ins_split_setup (fuel : Nat) (t : Table) (old_node : Node)
    (old_page_num new_page_num : Nat) (root_splitting : Bool) (p : Pager) :
    Except DbErr (Nat × Nat × Node × Pager) :=
  if root_splitting then do
    let p ← create_new_root fuel t new_page_num p
    let (parent, p) ← get_page p t.root_page_num
    let old_page_num2 ← internal_node_left_child parent 0
    let (old_node2, p) ← get_page p old_page_num2
    pure (t.root_page_num, old_page_num2, old_node2, p)
  else do
    let old_node_parent_pg := node_parent old_node
    let (_parent, p) ← get_page p old_node_parent_pg
    let (new_node, p) ← get_page p new_page_num
    let new_node := init_internal_node new_node
    let p := set_page p new_page_num new_node
    pure (old_node_parent_pg, old_page_num, old_node, p)

mutual

def internal_node_insert (fuel : Nat) (t : Table) (parent_page_num child_page_num : Nat)
    (p : Pager) : Except DbErr Pager :=
  match fuel with
  | 0 => .error .outOfFuel
  | fuel + 1 => do
    let (parent, p) ← get_page p parent_page_num
    let (child, p) ← get_page p child_page_num
    let (child_max_key, p) ← get_node_max_key fuel p child
    let index := internal_node_find_child parent child_max_key
    let original_num_keys := internal_node_num_keys parent
    if original_num_keys ≥ INTERNAL_NODE_MAX_KEYS then
      internal_node_split_and_insert fuel t parent_page_num child_page_num p
    else
      let right_child_page_num := internal_node_right_child parent
      -- the code tests `== INVALID_PAGE_NUM || > INVALID_PAGE_NUM`
      if right_child_page_num ≥ INVALID_PAGE_NUM then
        let parent := set_internal_right_child parent child_page_num
        .ok (set_page p parent_page_num parent)
      else do
        let (right_child, p) ← get_page p right_child_page_num
        let parent := set_internal_num_keys parent (original_num_keys + 1)
        let p := set_page p parent_page_num parent
        let (right_child_max, p) ← get_node_max_key fuel p right_child
        if child_max_key > right_child_max then
          -- new child becomes the rightmost; the key value re-reads the max
          let (right_child_max2, p) ← get_node_max_key fuel p right_child
          let parent ← write_via_internal_left_child parent original_num_keys
            right_child_page_num
          let parent := write_internal_key parent original_num_keys right_child_max2
          let parent := set_internal_right_child parent child_page_num
          .ok (set_page p parent_page_num parent)
        else
          let parent := internal_shift_cells parent index original_num_keys
          let parent ← write_via_internal_left_child parent index child_page_num
          let parent := write_internal_key parent index child_max_key
          .ok (set_page p parent_page_num parent)
termination_by structural fuel

/-- The key-moving loop of `internal_node_split_and_insert`
(`while (i != mid)`, `mid = INTERNAL_NODE_MAX_KEYS / 2`).  The node is
re-read every iteration because `old_num_keys` is a live pointer in the
source.  The `i = 0` guard cuts off the signed-int underrun that the C loop
would enter if the midpoint were above the start index (unreachable for the
constants in use). -/
def internal_split_move_loop (fuel : Nat) (t : Table) (old_page_num new_page_num : Nat)
    (i : Nat) (p : Pager) : Except DbErr Pager :=
  match fuel with
  | 0 => .error .outOfFuel
  | fuel + 1 =>
    if i = INTERNAL_NODE_MAX_KEYS / 2 then .ok p
    else if i = 0 then .error .outOfFuel
    else do
      let (old_node, p) ← get_page p old_page_num
      let curr_page_num ← internal_node_left_child old_node i
      let (curr_node, p) ← get_page p curr_page_num
      let p ← internal_node_insert fuel t new_page_num curr_page_num p
      let (curr_node, p) ← get_page p curr_page_num
      let p := set_page p curr_page_num (set_node_parent curr_node new_page_num)
      let (old_node, p) ← get_page p old_page_num
      let old_node := set_internal_num_keys old_node
        (u32sub (internal_node_num_keys old_node) 1)
      let p := set_page p old_page_num old_node
      internal_split_move_loop fuel t old_page_num new_page_num (i - 1) p
termination_by structural fuel

def internal_node_split_and_insert (fuel : Nat) (t : Table)
    (parent_page_num child_page_num : Nat) (p : Pager) : Except DbErr Pager :=
  match fuel with
  | 0 => .error .outOfFuel
  | fuel + 1 => do
    let old_page_num := parent_page_num
    let (old_node, p) ← get_page p old_page_num
    let (old_max, p) ← get_node_max_key fuel p old_node
    let (child, p) ← get_page p child_page_num
    let (child_max, p) ← get_node_max_key fuel p child
    let new_page_num := get_unused_page_num p
    let root_splitting := is_node_root old_node
    let (parent_page_used, old_page_num, old_node, p) ←
      ins_split_setup fuel t old_node old_page_num new_page_num root_splitting p
    -- move the old node's right child into the new node
    let curr_page_num := internal_node_right_child old_node
    let (curr_node, p) ← get_page p curr_page_num
    let p ← internal_node_insert fuel t new_page_num curr_page_num p
    let (curr_node, p) ← get_page p curr_page_num
    let p := set_page p curr_page_num (set_node_parent curr_node new_page_num)
    let (old_node, p) ← get_page p old_page_num
    let old_node := set_internal_right_child old_node INVALID_PAGE_NUM
    let p := set_page p old_page_num old_node
    -- move keys above the midpoint into the new node
    let p ← internal_split_move_loop fuel t old_page_num new_page_num
      (INTERNAL_NODE_MAX_KEYS - 1) p
    -- the child below the midpoint becomes the old node's right child
    let (old_node, p) ← get_page p old_page_num
    let rc_src ← internal_node_left_child old_node
      (u32sub (internal_node_num_keys old_node) 1)
    let old_node := set_internal_right_child old_node rc_src
    let old_node := set_internal_num_keys old_node
      (u32sub (internal_node_num_keys old_node) 1)
    let p := set_page p old_page_num old_node
    -- insert the incoming child into whichever half should own it
    let (old_node, p) ← get_page p old_page_num
    let (max_after_split, p) ← get_node_max_key fuel p old_node
    let destination_page_num :=
      if child_max < max_after_split then old_page_num else new_page_num
    let p ← internal_node_insert fuel t destination_page_num child_page_num p
    let (child, p) ← get_page p child_page_num
    let p := set_page p child_page_num (set_node_parent child destination_page_num)
    let (old_node, p) ← get_page p old_page_num
    let (new_max, p) ← get_node_max_key fuel p old_node
    let (parent, p) ← get_page p parent_page_used
    let parent := update_internal_node_key parent old_max new_max
    let p := set_page p parent_page_used parent
    if root_splitting then .ok p
    else do
      let (old_node, p) ← get_page p old_page_num
      let parent_page_num2 := node_parent old_node
      let p ← internal_node_insert fuel t parent_page_num2 new_page_num p
      let (new_node, p) ← get_page p new_page_num
      .ok (set_page p new_page_num (set_node_parent new_node parent_page_num2))
termination_by structural fuel

end

/-! ## Leaf insert and split -/

/-- The cell-shifting loop of `leaf_node_insert`
(`for i = num_cells; i > 0 && i > cell_num; --i`). -/
def leaf_shift_cells (cell_num : Nat) : Node → Nat → Node
  | n, 0 => n
  | n, i + 1 =>
      if i + 1 > cell_num then
        leaf_shift_cells cell_num
          (write_leaf_cell n (i + 1) (leaf_node_cell_read n i)) i
      else n

/-- One iteration of the distribution loop of `leaf_node_split_and_insert`:
destination node is the new (right) leaf for `i ≥ LEAF_NODE_LEFT_SPLIT_COUNT`,
destination slot is `i % LEAF_NODE_LEFT_SPLIT_COUNT`; the cursor position
receives the new cell (value bytes first, then the key bytes), positions
above it shift down by one. -/
def leaf_split_step (cell_num key : Nat) (value : Row) (old_node new_node : Node)
    (i : Nat) : Node × Node :=
  let index_within_node := i % LEAF_NODE_LEFT_SPLIT_COUNT
  if i = cell_num then
    let wr := fun d =>
      write_leaf_key (write_leaf_value d index_within_node value) index_within_node key
    if i ≥ LEAF_NODE_LEFT_SPLIT_COUNT then (old_node, wr new_node)
    else (wr old_node, new_node)
  else if i > cell_num then
    let src := leaf_node_cell_read old_node (i - 1)
    if i ≥ LEAF_NODE_LEFT_SPLIT_COUNT then
      (old_node, write_leaf_cell new_node index_within_node src)
    else (write_leaf_cell old_node index_within_node src, new_node)
  else
    let src := leaf_node_cell_read old_node i
    if i ≥ LEAF_NODE_LEFT_SPLIT_COUNT then
      (old_node, write_leaf_cell new_node index_within_node src)
    else (write_leaf_cell old_node index_within_node src, new_node)

/-- The distribution loop, iterating `i` from `LEAF_NODE_MAX_CELLS` down to
`0` inclusive. -/
def leaf_split_loop (cell_num key : Nat) (value : Row) :
    Node → Node → Nat → Node × Node
  | old_node, new_node, 0 => leaf_split_step cell_num key value old_node new_node 0
  | old_node, new_node, i + 1 =>
      let (o, n) := leaf_split_step cell_num key value old_node new_node (i + 1)
      leaf_split_loop cell_num key value o n i

def leaf_node_split_and_insert (fuel : Nat) (c : Cursor) (key : Nat) (value : Row)
    (t : Table) (p : Pager) : Except DbErr Pager :=
  match fuel with
  | 0 => .error .outOfFuel
  | fuel + 1 => do
    let (old_node, p) ← get_page p c.page_num
    let (old_max, p) ← get_node_max_key fuel p old_node
    let new_page_num := get_unused_page_num p
    let (new_node, p) ← get_page p new_page_num
    let new_node := init_leaf_node new_node
    let new_node := set_node_parent new_node (node_parent old_node)
    -- link siblings: new takes the old sibling, old points at the new page
    let new_node := set_leaf_next_leaf new_node (leaf_node_next_leaf old_node)
    let old_node := set_leaf_next_leaf old_node new_page_num
    let (old_node, new_node) :=
      leaf_split_loop c.cell_num key value old_node new_node LEAF_NODE_MAX_CELLS
    let old_node := set_leaf_num_cells old_node LEAF_NODE_LEFT_SPLIT_COUNT
    let new_node := set_leaf_num_cells new_node LEAF_NODE_RIGHT_SPLIT_COUNT
    let p := set_page p c.page_num old_node
    let p := set_page p new_page_num new_node
    if is_node_root old_node then
      create_new_root fuel t new_page_num p
    else do
      let parent_page_num := node_parent old_node
      let (new_max, p) ← get_node_max_key fuel p old_node
      let (parent, p) ← get_page p parent_page_num
      let parent := update_internal_node_key parent old_max new_max
      let p := set_page p parent_page_num parent
      internal_node_insert fuel t parent_page_num new_page_num p

def leaf_node_insert (fuel : Nat) (c : Cursor) (key : Nat) (value : Row)
    (t : Table) (p : Pager) : Except DbErr Pager := do
  let (node, p) ← get_page p c.page_num
  let num_cells := leaf_node_num_cells node
  if num_cells ≥ LEAF_NODE_MAX_CELLS then
    leaf_node_split_and_insert fuel c key value t p
  else
    let node := if c.cell_num < num_cells then leaf_shift_cells c.cell_num node num_cells
                else node
    let node := set_leaf_num_cells node (leaf_node_num_cells node + 1)
    let node := write_leaf_key node c.cell_num key
    let node := write_leaf_value node c.cell_num value
    .ok (set_page p c.page_num node)

/-! ## Cursors, scan, top-level statements -/

def table_start (fuel : Nat) (t : Table) (p : Pager) : Except DbErr (Cursor × Pager) := do
  let (c, p) ← table_find fuel t 0 p
  let (node, p) ← get_page p c.page_num
  let num_cells := leaf_node_num_cells node
  .ok ({ c with end_of_table := some (num_cells == 0) }, p)

def cursor_value (c : Cursor) (p : Pager) : Except DbErr (Row × Pager) := do
  let (page, p) ← get_page p c.page_num
  .ok (leaf_node_value page c.cell_num, p)

def cursor_advance (c : Cursor) (p : Pager) : Except DbErr (Cursor × Pager) := do
  let (node, p) ← get_page p c.page_num
  let c := { c with cell_num := c.cell_num + 1 }
  if c.cell_num < leaf_node_num_cells node then .ok (c, p)
  else if is_last_leaf_node node then .ok ({ c with end_of_table := some true }, p)
  else .ok ({ c with page_num := leaf_node_next_leaf node, cell_num := 0 }, p)

inductive ExecResult
  | success
  | duplicateKey
  | tableFull
deriving DecidableEq

/-- `exec_insert`.  Note that both `num_cells` and the probed key are read
from the page at `t.root_page_num`, not from the page the cursor points at:
when the root is internal, the punned `num_cells` read yields the root's
`num_keys` and the punned key read yields bytes of the root's cell area. -/
def exec_insert (fuel : Nat) (row : Row) (t : Table) (p : Pager) :
    Except DbErr (ExecResult × Pager) := do
  let (node, p) ← get_page p t.root_page_num
  let num_cells := leaf_node_num_cells node
  let key_to_insert := row.id
  let (c, p) ← table_find fuel t key_to_insert p
  if c.cell_num < num_cells then
    let key_at_index := leaf_node_key node c.cell_num
    if key_at_index = key_to_insert then
      .ok (.duplicateKey, p)
    else do
      let p ← leaf_node_insert fuel c row.id row t p
      .ok (.success, p)
  else do
    let p ← leaf_node_insert fuel c row.id row t p
    .ok (.success, p)

/-- The `exec_select` loop body: deserialize the row under the cursor, emit
it, advance; stop when `end_of_table` is set.  Reading the flag while it
still holds its indeterminate initial bytes is an error (never reachable
through `exec_select`, whose cursor comes from `table_start`). -/
def select_loop (fuel : Nat) (c : Cursor) (p : Pager) (acc : List Row) :
    Except DbErr (List Row × Pager) :=
  match fuel with
  | 0 => .error .outOfFuel
  | fuel + 1 =>
    match c.end_of_table with
    | none => .error .uninitializedRead
    | some true => .ok (acc.reverse, p)
    | some false => do
        let (r, p) ← cursor_value c p
        let (c, p) ← cursor_advance c p
        select_loop fuel c p (r :: acc)

def exec_select (fuel : Nat) (t : Table) (p : Pager) :
    Except DbErr (List Row × Pager) := do
  let (c, p) ← table_start fuel t p
  select_loop fuel c p []

/-! ## Open and close -/

def pager_open (file : List Node) : Pager :=
  { file := file, pages := fun _ => none, num_pages := file.length }

def db_open (file : List Node) : Except DbErr (Table × Pager) :=
  let p := pager_open file
  let t : Table := { root_page_num := 0 }
  if p.num_pages = 0 then do
    let (root_node, p) ← get_page p 0
    let root_node := set_node_root (init_leaf_node root_node) true
    .ok (t, set_page p 0 root_node)
  else .ok (t, p)

/-- `lseek` to page `i` then `write` one page: overwrites in place, or
extends the file, zero-filling any hole between the current end and `i`. -/
def writeFileAt (file : List Node) (i : Nat) (n : Node) : List Node :=
  if i < file.length then file.set i n
  else file ++ List.replicate (i - file.length) zeroNode ++ [n]

/-- The `db_close` flush loop over slots `0 ≤ i < num_pages` in ascending
order; null slots are skipped. -/
def flush_upto (p : Pager) : Nat → List Node → List Node
  | 0, file => file
  | i + 1, file =>
      let file := flush_upto p i file
      match p.pages i with
      | some n => writeFileAt file i n
      | none => file

def db_close (p : Pager) : List Node := flush_upto p p.num_pages p.file

/-! ## Statement preparation (REPL front end) -/

/-- The splitting behavior of repeated `strtok(…, " ")` on a char buffer:
leading and repeated delimiters are skipped, tokens are the maximal
non-empty runs between spaces. -/
def splitTok : List Char → List Char → List (List Char)
  | [], acc => if acc.isEmpty then [] else [acc.reverse]
  | c :: rest, acc =>
      if c = ' ' then
        if acc.isEmpty then splitTok rest [] else acc.reverse :: splitTok rest []
      else splitTok rest (c :: acc)

/-- `strtok(buf, " ")` repeated until it returns NULL. -/
def tokenize (s : String) : List String :=
  (splitTok s.data []).map (fun cs => String.mk cs)

def isCSpace (c : Char) : Bool :=
  c = ' ' ∨ c = '\t' ∨ c = '\n' ∨ c = '\x0b' ∨ c = '\x0c' ∨ c = '\r'

def atoiDigits : List Char → Nat → Nat
  | c :: rest, acc =>
      if c.isDigit then atoiDigits rest (acc * 10 + (c.toNat - '0'.toNat))
      else acc
  | [], acc => acc

/-- C `atoi`: skip leading whitespace, consume an optional sign, then the
longest leading digit run; everything after it is ignored, and an input with
no leading digits yields 0.  (Overflow of the C `int` is undefined behavior;
theorems about `atoi` stay below that range.) -/
def atoi (s : String) : Int :=
  let cs := s.data.dropWhile isCSpace
  match cs with
  | '-' :: rest => -(atoiDigits rest 0 : Int)
  | '+' :: rest => (atoiDigits rest 0 : Int)
  | _ => (atoiDigits cs 0 : Int)

inductive PrepareResult
  | success (row : Row)
  | syntaxError
  | negativeId
  | stringTooLong
deriving DecidableEq

/-- `prepare_insert`: tokenize, demand the three argument tokens, parse the
id with `atoi`, reject a negative id and over-long strings, otherwise build
the row (the non-negative `int` converts to u32 unchanged). -/
def prepare_insert (buf : String) : PrepareResult :=
  match tokenize buf with
  | _keyword :: curr_id :: username :: email :: _ =>
      let id := atoi curr_id
      if id < 0 then .negativeId
      else if username.length > COLUMN_USERNAME_SIZE then .stringTooLong
      else if email.length > COLUMN_EMAIL_SIZE then .stringTooLong
      else .success ⟨id.toNat % U32_MOD, username, email⟩
  | _ => .syntaxError

inductive Statement
  | insertStmt (r : PrepareResult)
  | selectStmt
  | unrecognizedStmt
deriving DecidableEq

/-- `prepare_statement`: `insert` is recognized by
`strncmp("insert", buf, 6)` — a pure six-character prefix match — while
`select` must equal the whole line (`strcmp`). -/
def prepare_statement (buf : String) : Statement :=
  if buf.data.take 6 = "insert".data then .insertStmt (prepare_insert buf)
  else if buf = "select" then .selectStmt
  else .unrecognizedStmt

/-! ## Whole-session helpers -/

/-- Apply `exec_insert` for each row in order, collecting the statement
results. -/
def apply_inserts (fuel : Nat) (t : Table) :
    List Row → Pager → Except DbErr (List ExecResult × Pager)
  | [], p => .ok ([], p)
  | r :: rest, p => do
      let (res, p) ← exec_insert fuel r t p
      let (results, p) ← apply_inserts fuel t rest p
      .ok (res :: results, p)

def mkRow (i : Nat) : Row := ⟨i, "u", "e"⟩

/-! ## Page views and the pager invariant -/

/-- The page contents `get_page` will deliver for page `i`: the cached copy
when the slot is populated, otherwise the on-disk page (an absent on-disk
page reads as all zeros). -/
def pageView (p : Pager) (i : Nat) : Node :=
  match p.pages i with
  | some n => n
  | none => p.file.getD i zeroNode

def ViewEq (p q : Pager) : Prop := ∀ i, pageView p i = pageView q i

/-- Invariant maintained by every pager state a session can reach: populated
slots lie below `num_pages`, and `num_pages` is at least the on-disk page
count. -/
def PagerInv (p : Pager) : Prop :=
  (∀ i, (p.pages i).isSome → i < p.num_pages) ∧ p.file.length ≤ p.num_pages

/-- What one step of the storage engine may do to the pager: the file is
untouched, `num_pages` never shrinks, populated slots stay populated, and
the invariant is preserved. -/
def Preserves (p p2 : Pager) : Prop :=
  p2.file = p.file ∧ p.num_pages ≤ p2.num_pages ∧
  (∀ j, (p.pages j).isSome → (p2.pages j).isSome) ∧
  (PagerInv p → PagerInv p2)

theorem Preserves.refl (p : Pager) : Preserves p p :=
  ⟨rfl, le_refl _, fun _ h => h, fun h => h⟩

theorem Preserves.trans {p q r : Pager} (h1 : Preserves p q) (h2 : Preserves q r) :
    Preserves p r :=
  ⟨h2.1.trans h1.1, h1.2.1.trans h2.2.1,
   fun j hj => h2.2.2.1 j (h1.2.2.1 j hj),
   fun h => h2.2.2.2 (h1.2.2.2 h)⟩

theorem bind_ok {α β : Type} {f : Except DbErr α} {g : α → Except DbErr β} {b : β}
    (h : f.bind g = .ok b) : ∃ a, f = .ok a ∧ g a = .ok b := by
  cases f with
  | error e => exact absurd h (by simp [Except.bind])
  | ok a => exact ⟨a, rfl, h⟩

theorem pageView_set_page (p : Pager) (i : Nat) (n : Node) (j : Nat) :
    pageView (set_page p i n) j = if j = i then n else pageView p j := by
  unfold pageView set_page
  by_cases h : j = i <;> simp [h]

theorem set_page_preserves {p : Pager} {i : Nat} {n : Node}
    (h : (p.pages i).isSome) : Preserves p (set_page p i n) := by
  refine ⟨rfl, le_refl _, ?_, ?_⟩
  · intro j hj
    unfold set_page
    by_cases hij : j = i <;> simp [hij, hj]
  · intro hInv
    refine ⟨?_, hInv.2⟩
    intro j hj
    unfold set_page at hj
    by_cases hij : j = i
    · exact hij ▸ hInv.1 i h
    · exact hInv.1 j (by simpa [hij] using hj)

/-- The success behavior of `get_page` below the slot bound: it returns the
page view, preserves the file and all views, populates the slot, and (in an
invariant-respecting state) leaves `num_pages` above `i`. -/
theorem get_page_spec {p : Pager} {i : Nat} (h : i < TABLE_MAX_PAGES) :
    ∃ p2, get_page p i = .ok (pageView p i, p2) ∧
      Preserves p p2 ∧ ViewEq p2 p ∧ (p2.pages i).isSome ∧
      (PagerInv p → i < p2.num_pages) ∧
      (p.pages i = none → p.num_pages ≤ i → p2.num_pages = i + 1) := by
  cases hc : p.pages i with
  | some n =>
      refine ⟨p, ?_, Preserves.refl p, fun _ => rfl, by simp [hc],
        fun hInv => hInv.1 i (by simp [hc]),
        fun hnone => Option.noConfusion hnone⟩
      unfold get_page
      rw [if_neg (by omega), if_neg (by omega), hc, pageView, hc]
  | none =>
      have hview : pageView p i = p.file.getD i zeroNode := by rw [pageView, hc]
      have hnode : (if i ≤ p.file.length then p.file.getD i zeroNode else zeroNode)
          = p.file.getD i zeroNode := by
        by_cases hl : i ≤ p.file.length
        · rw [if_pos hl]
        · rw [if_neg hl, List.getD_eq_default]
          omega
      refine ⟨{ p with
                pages := fun j => if j = i then some (p.file.getD i zeroNode) else p.pages j
                num_pages := if i ≥ p.num_pages then i + 1 else p.num_pages },
              ?_, ?_, ?_, by simp, ?_, ?_⟩
      · unfold get_page
        rw [if_neg (by omega), if_neg (by omega), hc]
        dsimp only
        rw [hnode, hview]
      · refine ⟨rfl, ?_, ?_, ?_⟩
        · dsimp only
          split <;> omega
        · intro j hj
          dsimp only
          by_cases hij : j = i <;> simp [hij, hj]
        · intro hInv
          constructor
          · intro j hj
            dsimp only at hj ⊢
            by_cases hij : j = i
            · subst hij
              split <;> omega
            · rw [if_neg hij] at hj
              have := hInv.1 j hj
              split <;> omega
          · dsimp only
            have := hInv.2
            split <;> omega
      · intro j
        dsimp only [pageView]
        by_cases hij : j = i
        · subst hij
          simp [hc]
        · simp [hij]
      · intro _
        dsimp only
        split <;> omega
      · intro _ hle
        dsimp only
        rw [if_pos (by omega)]

theorem get_page_err {p : Pager} {i : Nat} (h : TABLE_MAX_PAGES ≤ i) :
    ∃ e, get_page p i = .error e := by
  unfold get_page
  by_cases h1 : i > TABLE_MAX_PAGES
  · exact ⟨_, by rw [if_pos h1]⟩
  · exact ⟨_, by rw [if_neg h1, if_pos h]⟩

theorem get_page_ok_preserves {p : Pager} {i : Nat} {n : Node} {p2 : Pager}
    (h : get_page p i = .ok (n, p2)) :
    Preserves p p2 ∧ ViewEq p2 p ∧ n = pageView p i ∧ (p2.pages i).isSome ∧
      (PagerInv p → i < p2.num_pages) := by
  by_cases hi : i < TABLE_MAX_PAGES
  · obtain ⟨q, hq, hpres, hv, hs, hinv, _⟩ := get_page_spec hi
    rw [hq] at h
    injection h with h
    injection h with h1 h2
    subst h2
    exact ⟨hpres, hv, h1.symm, hs, hinv⟩
  · have hle : TABLE_MAX_PAGES ≤ i := by omega
    obtain ⟨e, he⟩ := get_page_err (p := p) hle
    rw [he] at h
    exact Except.noConfusion h

theorem set_page_isSome {p : Pager} {i : Nat} {n : Node} {j : Nat}
    (h : (p.pages j).isSome) : ((set_page p i n).pages j).isSome := by
  unfold set_page
  by_cases hij : j = i <;> simp [hij, h]

/-! ## Read-only operations preserve the pager and its views -/

theorem get_node_max_key_ro :
    ∀ (fuel : Nat) (p : Pager) (n : Node) (r : Nat) (p2 : Pager),
      get_node_max_key fuel p n = .ok (r, p2) → Preserves p p2 ∧ ViewEq p2 p := by
  intro fuel
  induction fuel with
  | zero =>
      intro p n r p2 h
      exact absurd h (by simp [get_node_max_key])
  | succ fuel ih =>
      intro p n r p2 h
      cases n with
      | leaf d =>
          simp only [get_node_max_key] at h
          injection h with h
          injection h with h1 h2
          subst h2
          exact ⟨Preserves.refl p, fun _ => rfl⟩
      | internal d =>
          simp only [get_node_max_key] at h
          obtain ⟨⟨rc, p1⟩, h1, h2⟩ := bind_ok h
          obtain ⟨hp1, hv1, _, _, _⟩ := get_page_ok_preserves h1
          obtain ⟨hp2, hv2⟩ := ih p1 rc r p2 h2
          exact ⟨hp1.trans hp2, fun j => (hv2 j).trans (hv1 j)⟩

theorem leaf_node_find_ro {t : Table} {pg k : Nat} {p : Pager} {c : Cursor} {p2 : Pager}
    (h : leaf_node_find t pg k p = .ok (c, p2)) : Preserves p p2 ∧ ViewEq p2 p := by
  unfold leaf_node_find at h
  obtain ⟨⟨n1, p1⟩, h1, h2⟩ := bind_ok h
  obtain ⟨hp1, hv1, _, _, _⟩ := get_page_ok_preserves h1
  dsimp only at h2
  injection h2 with h2
  injection h2 with h2a h2b
  subst h2b
  exact ⟨hp1, hv1⟩

theorem internal_node_find_ro :
    ∀ (fuel : Nat) (t : Table) (pg k : Nat) (p : Pager) (c : Cursor) (p2 : Pager),
      internal_node_find fuel t pg k p = .ok (c, p2) → Preserves p p2 ∧ ViewEq p2 p := by
  intro fuel
  induction fuel with
  | zero =>
      intro t pg k p c p2 h
      exact absurd h (by simp [internal_node_find])
  | succ fuel ih =>
      intro t pg k p c p2 h
      simp only [internal_node_find] at h
      obtain ⟨⟨n1, p1⟩, h1, h⟩ := bind_ok h
      obtain ⟨hp1, hv1, _, _, _⟩ := get_page_ok_preserves h1
      dsimp only at h
      obtain ⟨cn, hcn, h⟩ := bind_ok h
      obtain ⟨⟨n2, p2x⟩, h2, h⟩ := bind_ok h
      obtain ⟨hp2, hv2, _, _, _⟩ := get_page_ok_preserves h2
      dsimp only at h
      cases hty : get_node_type n2 with
      | leafType =>
          rw [hty] at h
          obtain ⟨hp3, hv3⟩ := leaf_node_find_ro h
          exact ⟨(hp1.trans hp2).trans hp3,
            fun j => ((hv3 j).trans (hv2 j)).trans (hv1 j)⟩
      | internalType =>
          rw [hty] at h
          obtain ⟨hp3, hv3⟩ := ih t cn k p2x c p2 h
          exact ⟨(hp1.trans hp2).trans hp3,
            fun j => ((hv3 j).trans (hv2 j)).trans (hv1 j)⟩

theorem table_find_ro {fuel : Nat} {t : Table} {k : Nat} {p : Pager} {c : Cursor}
    {p2 : Pager} (h : table_find fuel t k p = .ok (c, p2)) :
    Preserves p p2 ∧ ViewEq p2 p := by
  unfold table_find at h
  obtain ⟨⟨n1, p1⟩, h1, h⟩ := bind_ok h
  obtain ⟨hp1, hv1, _, _, _⟩ := get_page_ok_preserves h1
  dsimp only at h
  cases hty : get_node_type n1 with
  | leafType =>
      rw [hty] at h
      obtain ⟨hp2, hv2⟩ := leaf_node_find_ro h
      exact ⟨hp1.trans hp2, fun j => (hv2 j).trans (hv1 j)⟩
  | internalType =>
      rw [hty] at h
      obtain ⟨hp2, hv2⟩ := internal_node_find_ro fuel t t.root_page_num k p1 c p2 h
      exact ⟨hp1.trans hp2, fun j => (hv2 j).trans (hv1 j)⟩

theorem table_start_ro {fuel : Nat} {t : Table} {p : Pager} {c : Cursor} {p2 : Pager}
    (h : table_start fuel t p = .ok (c, p2)) : Preserves p p2 ∧ ViewEq p2 p := by
  unfold table_start at h
  obtain ⟨⟨c1, p1⟩, h1, h⟩ := bind_ok h
  obtain ⟨hp1, hv1⟩ := table_find_ro h1
  dsimp only at h
  obtain ⟨⟨n2, p2x⟩, h2, h⟩ := bind_ok h
  obtain ⟨hp2, hv2, _, _, _⟩ := get_page_ok_preserves h2
  dsimp only at h
  injection h with h
  injection h with h2a h2b
  subst h2b
  exact ⟨hp1.trans hp2, fun j => (hv2 j).trans (hv1 j)⟩

theorem cursor_value_ro {c : Cursor} {p : Pager} {r : Row} {p2 : Pager}
    (h : cursor_value c p = .ok (r, p2)) : Preserves p p2 ∧ ViewEq p2 p := by
  unfold cursor_value at h
  obtain ⟨⟨n1, p1⟩, h1, h⟩ := bind_ok h
  obtain ⟨hp1, hv1, _, _, _⟩ := get_page_ok_preserves h1
  dsimp only at h
  injection h with h
  injection h with h2a h2b
  subst h2b
  exact ⟨hp1, hv1⟩

theorem cursor_advance_ro {c : Cursor} {p : Pager} {c2 : Cursor} {p2 : Pager}
    (h : cursor_advance c p = .ok (c2, p2)) : Preserves p p2 ∧ ViewEq p2 p := by
  unfold cursor_advance at h
  obtain ⟨⟨n1, p1⟩, h1, h⟩ := bind_ok h
  obtain ⟨hp1, hv1, _, _, _⟩ := get_page_ok_preserves h1
  dsimp only at h
  split at h
  · injection h with h
    injection h with h2a h2b
    subst h2b
    exact ⟨hp1, hv1⟩
  · split at h
    · injection h with h
      injection h with h2a h2b
      subst h2b
      exact ⟨hp1, hv1⟩
    · injection h with h
      injection h with h2a h2b
      subst h2b
      exact ⟨hp1, hv1⟩

theorem select_loop_ro :
    ∀ (fuel : Nat) (c : Cursor) (p : Pager) (acc out : List Row) (p2 : Pager),
      select_loop fuel c p acc = .ok (out, p2) → Preserves p p2 ∧ ViewEq p2 p := by
  intro fuel
  induction fuel with
  | zero =>
      intro c p acc out p2 h
      exact absurd h (by simp [select_loop])
  | succ fuel ih =>
      intro c p acc out p2 h
      simp only [select_loop] at h
      match heot : c.end_of_table with
      | none =>
          rw [heot] at h
          exact absurd h (by simp)
      | some true =>
          rw [heot] at h
          injection h with h
          injection h with h2a h2b
          subst h2b
          exact ⟨Preserves.refl p, fun _ => rfl⟩
      | some false =>
          rw [heot] at h
          obtain ⟨⟨r1, p1⟩, h1, h⟩ := bind_ok h
          obtain ⟨hp1, hv1⟩ := cursor_value_ro h1
          dsimp only at h
          obtain ⟨⟨c2, p2x⟩, h2, h⟩ := bind_ok h
          obtain ⟨hp2, hv2⟩ := cursor_advance_ro h2
          dsimp only at h
          obtain ⟨hp3, hv3⟩ := ih c2 p2x _ out p2 h
          exact ⟨(hp1.trans hp2).trans hp3,
            fun j => ((hv3 j).trans (hv2 j)).trans (hv1 j)⟩

theorem exec_select_ro {fuel : Nat} {t : Table} {p : Pager} {out : List Row}
    {p2 : Pager} (h : exec_select fuel t p = .ok (out, p2)) :
    Preserves p p2 ∧ ViewEq p2 p := by
  unfold exec_select at h
  obtain ⟨⟨c1, p1⟩, h1, h⟩ := bind_ok h
  obtain ⟨hp1, hv1⟩ := table_start_ro h1
  dsimp only at h
  obtain ⟨hp2, hv2⟩ := select_loop_ro fuel c1 p1 [] out p2 h
  exact ⟨hp1.trans hp2, fun j => (hv2 j).trans (hv1 j)⟩

/-! ## Write operations preserve the invariant -/

theorem Preserves.slot {p q : Pager} (h : Preserves p q) {j : Nat}
    (hj : (p.pages j).isSome) : (q.pages j).isSome := h.2.2.1 j hj

theorem reparent_list_preserves :
    ∀ (lcpn : Nat) (lc : Node) (idxs : List Nat) (p p2 : Pager),
      reparent_list lcpn lc idxs p = .ok p2 → Preserves p p2 := by
  intro lcpn lc idxs
  induction idxs with
  | nil =>
      intro p p2 h
      simp only [reparent_list] at h
      injection h with h
      subst h
      exact Preserves.refl p
  | cons i rest ih =>
      intro p p2 h
      simp only [reparent_list] at h
      obtain ⟨cpn, hcpn, h⟩ := bind_ok h
      obtain ⟨⟨ch, p1⟩, h1, h⟩ := bind_ok h
      obtain ⟨hp1, _, _, hs1, _⟩ := get_page_ok_preserves h1
      dsimp only at h
      exact (hp1.trans (set_page_preserves hs1)).trans (ih _ _ h)

theorem cnr_init_children_preserves {root rc lc : Node} {rcpn lcpn : Nat} {p : Pager}
    (hr : (p.pages rcpn).isSome) (hl : (p.pages lcpn).isSome) :
    Preserves p (cnr_init_children root rc lc rcpn lcpn p).2 ∧
    ((cnr_init_children root rc lc rcpn lcpn p).2.pages rcpn).isSome ∧
    ((cnr_init_children root rc lc rcpn lcpn p).2.pages lcpn).isSome := by
  unfold cnr_init_children
  split
  · dsimp only
    have s1 := set_page_preserves (p := p) (n := init_internal_node rc) hr
    have s2 := set_page_preserves (p := set_page p rcpn (init_internal_node rc))
      (n := init_internal_node lc) (s1.slot hl)
    exact ⟨s1.trans s2, s2.slot (s1.slot hr), s2.slot (s1.slot hl)⟩
  · exact ⟨Preserves.refl p, hr, hl⟩

theorem cnr_reparent_preserves {lcpn : Nat} {lc : Node} {p p2 : Pager}
    (h : cnr_reparent lcpn lc p = .ok p2) : Preserves p p2 := by
  unfold cnr_reparent at h
  split at h
  · obtain ⟨p1, h1, h⟩ := bind_ok h
    have hr := reparent_list_preserves _ _ _ _ _ h1
    obtain ⟨⟨ch, pg⟩, hg, h⟩ := bind_ok h
    obtain ⟨hpg, _, _, hsg, _⟩ := get_page_ok_preserves hg
    dsimp only at h
    injection h with h
    subst h
    exact (hr.trans hpg).trans (set_page_preserves hsg)
  · injection h with h
    subst h
    exact Preserves.refl p

theorem create_new_root_preserves {fuel : Nat} {t : Table} {rcpn : Nat} {p p2 : Pager}
    (h : create_new_root fuel t rcpn p = .ok p2) : Preserves p p2 := by
  unfold create_new_root at h
  obtain ⟨⟨root, p1⟩, h1, h⟩ := bind_ok h
  obtain ⟨hp1, _, _, hs1, _⟩ := get_page_ok_preserves h1
  dsimp only at h
  obtain ⟨⟨rc, pb⟩, hb, h⟩ := bind_ok h
  obtain ⟨hpb, _, _, hsb, _⟩ := get_page_ok_preserves hb
  dsimp only at h
  obtain ⟨⟨lc, pc⟩, hc, h⟩ := bind_ok h
  obtain ⟨hpc, _, _, hsc, _⟩ := get_page_ok_preserves hc
  dsimp only at h
  obtain ⟨hpd, hsd_r, hsd_l⟩ := @cnr_init_children_preserves root rc lc rcpn
    (get_unused_page_num pb) _ (hpc.slot hsb) hsc
  have s3 := set_page_preserves
    (n := set_node_root root false) hsd_l
  obtain ⟨pf, hf, h⟩ := bind_ok h
  have hpf := cnr_reparent_preserves hf
  obtain ⟨rootn, hrn, h⟩ := bind_ok h
  have hs_root : (pf.pages t.root_page_num).isSome :=
    hpf.slot (s3.slot (hpd.slot ((hpb.trans hpc).slot hs1)))
  have s4 := set_page_preserves (p := pf) (n := rootn) hs_root
  obtain ⟨⟨mk, pg⟩, hmk, h⟩ := bind_ok h
  obtain ⟨hpg, _⟩ := get_node_max_key_ro _ _ _ _ _ hmk
  dsimp only at h
  have hs_root2 : (pg.pages t.root_page_num).isSome :=
    hpg.slot (by unfold set_page; simp)
  have s5 := set_page_preserves
    (p := pg) (n := set_internal_right_child (write_internal_key rootn 0 mk) rcpn) hs_root2
  obtain ⟨⟨lc3, ph1⟩, hh1, h⟩ := bind_ok h
  obtain ⟨hph1, _, _, hsh1, _⟩ := get_page_ok_preserves hh1
  dsimp only at h
  have s6 := set_page_preserves (p := ph1) (n := set_node_parent lc3 t.root_page_num) hsh1
  obtain ⟨⟨rc3, ph2⟩, hh2, h⟩ := bind_ok h
  obtain ⟨hph2, _, _, hsh2, _⟩ := get_page_ok_preserves hh2
  dsimp only at h
  injection h with h
  subst h
  have s7 := set_page_preserves (p := ph2) (n := set_node_parent rc3 t.root_page_num) hsh2
  exact (((((((((hp1.trans hpb).trans hpc).trans hpd).trans s3).trans hpf).trans
    s4).trans hpg).trans s5).trans ((hph1.trans s6).trans (hph2.trans s7)))

theorem ins_split_setup_preserves {fuel : Nat} {t : Table} {onode : Node}
    {opg npg : Nat} {rs : Bool} {p : Pager} {res : Nat × Nat × Node × Pager}
    (h : ins_split_setup fuel t onode opg npg rs p = .ok res) :
    Preserves p res.2.2.2 := by
  unfold ins_split_setup at h
  split at h
  · obtain ⟨p1, h1, h⟩ := bind_ok h
    have hc := create_new_root_preserves h1
    obtain ⟨⟨par, p2⟩, h2, h⟩ := bind_ok h
    obtain ⟨hp2, _, _, _, _⟩ := get_page_ok_preserves h2
    dsimp only at h
    obtain ⟨opg2, h3, h⟩ := bind_ok h
    obtain ⟨⟨onode2, p3⟩, h4, h⟩ := bind_ok h
    obtain ⟨hp3, _, _, _, _⟩ := get_page_ok_preserves h4
    dsimp only at h
    injection h with h
    subst h
    exact (hc.trans hp2).trans hp3
  · obtain ⟨⟨par, p1⟩, h1, h⟩ := bind_ok h
    obtain ⟨hp1, _, _, _, _⟩ := get_page_ok_preserves h1
    dsimp only at h
    obtain ⟨⟨nn, p2⟩, h2, h⟩ := bind_ok h
    obtain ⟨hp2, _, _, hs2, _⟩ := get_page_ok_preserves h2
    dsimp only at h
    injection h with h
    subst h
    exact (hp1.trans hp2).trans (set_page_preserves hs2)

theorem internal_ops_preserve :
    ∀ fuel : Nat,
      (∀ t a b p p2, internal_node_insert fuel t a b p = .ok p2 → Preserves p p2) ∧
      (∀ t a b i p p2, internal_split_move_loop fuel t a b i p = .ok p2 → Preserves p p2) ∧
      (∀ t a b p p2, internal_node_split_and_insert fuel t a b p = .ok p2 → Preserves p p2) := by
  intro fuel
  induction fuel with
  | zero =>
      refine ⟨?_, ?_, ?_⟩
      · intro t a b p p2 h
        exact absurd h (by simp [internal_node_insert])
      · intro t a b i p p2 h
        exact absurd h (by simp [internal_split_move_loop])
      · intro t a b p p2 h
        exact absurd h (by simp [internal_node_split_and_insert])
  | succ fuel ih =>
      obtain ⟨ih_ins, ih_move, ih_split⟩ := ih
      refine ⟨?_, ?_, ?_⟩
      · -- internal_node_insert
        intro t a b p p2 h
        simp only [internal_node_insert] at h
        obtain ⟨⟨par, p1⟩, h1, h⟩ := bind_ok h
        obtain ⟨hp1, _, _, hs1, _⟩ := get_page_ok_preserves h1
        dsimp only at h
        obtain ⟨⟨ch, pq⟩, h2, h⟩ := bind_ok h
        obtain ⟨hp2, _, _, _, _⟩ := get_page_ok_preserves h2
        dsimp only at h
        obtain ⟨⟨cmax, p3⟩, h3, h⟩ := bind_ok h
        obtain ⟨hp3, _⟩ := get_node_max_key_ro _ _ _ _ _ h3
        dsimp only at h
        split at h
        · exact ((hp1.trans hp2).trans hp3).trans (ih_split _ _ _ _ _ h)
        · split at h
          · injection h with h
            subst h
            exact ((hp1.trans hp2).trans hp3).trans
              (set_page_preserves ((hp2.trans hp3).slot hs1))
          · obtain ⟨⟨rcn, p4⟩, h4, h⟩ := bind_ok h
            obtain ⟨hp4, _, _, _, _⟩ := get_page_ok_preserves h4
            dsimp only at h
            have hsA : (p4.pages a).isSome := ((hp2.trans hp3).trans hp4).slot hs1
            have sA := set_page_preserves
              (n := set_internal_num_keys par (internal_node_num_keys par + 1)) hsA
            obtain ⟨⟨rmax, p5⟩, h5, h⟩ := bind_ok h
            obtain ⟨hp5, _⟩ := get_node_max_key_ro _ _ _ _ _ h5
            dsimp only at h
            have hsB : (p5.pages a).isSome := hp5.slot (sA.slot hsA)
            split at h
            · obtain ⟨⟨rmax2, p6⟩, h6, h⟩ := bind_ok h
              obtain ⟨hp6, _⟩ := get_node_max_key_ro _ _ _ _ _ h6
              dsimp only at h
              obtain ⟨parw, h7, h⟩ := bind_ok h
              injection h with h
              subst h
              exact (((((hp1.trans hp2).trans hp3).trans hp4).trans sA).trans
                (hp5.trans hp6)).trans (set_page_preserves (hp6.slot hsB))
            · obtain ⟨parw, h7, h⟩ := bind_ok h
              injection h with h
              subst h
              exact (((((hp1.trans hp2).trans hp3).trans hp4).trans sA).trans
                hp5).trans (set_page_preserves hsB)
      · -- internal_split_move_loop
        intro t a b i p p2 h
        simp only [internal_split_move_loop] at h
        split at h
        · injection h with h
          subst h
          exact Preserves.refl p
        · split at h
          · exact absurd h (by simp)
          · obtain ⟨⟨onode, p1⟩, h1, h⟩ := bind_ok h
            obtain ⟨hp1, _, _, hs1, _⟩ := get_page_ok_preserves h1
            dsimp only at h
            obtain ⟨cpn, h2, h⟩ := bind_ok h
            obtain ⟨⟨cnode, p3⟩, h3, h⟩ := bind_ok h
            obtain ⟨hp3, _, _, _, _⟩ := get_page_ok_preserves h3
            dsimp only at h
            obtain ⟨p4, h4, h⟩ := bind_ok h
            have hi4 := ih_ins _ _ _ _ _ h4
            obtain ⟨⟨cnode2, p5⟩, h5, h⟩ := bind_ok h
            obtain ⟨hp5, _, _, hs5, _⟩ := get_page_ok_preserves h5
            dsimp only at h
            have s6 := set_page_preserves (n := set_node_parent cnode2 b) hs5
            obtain ⟨⟨onode2, p7⟩, h7, h⟩ := bind_ok h
            obtain ⟨hp7, _, _, hs7, _⟩ := get_page_ok_preserves h7
            dsimp only at h
            have s8 := set_page_preserves
              (n := set_internal_num_keys onode2
                (u32sub (internal_node_num_keys onode2) 1)) hs7
            exact ((((((hp1.trans hp3).trans hi4).trans hp5).trans s6).trans
              (hp7.trans s8)).trans (ih_move _ _ _ _ _ _ h))
      · -- internal_node_split_and_insert
        intro t a b p p2 h
        simp only [internal_node_split_and_insert] at h
        obtain ⟨⟨onode, p1⟩, h1, h⟩ := bind_ok h
        obtain ⟨hp1, _, _, _, _⟩ := get_page_ok_preserves h1
        dsimp only at h
        obtain ⟨⟨omax, p2x⟩, h2, h⟩ := bind_ok h
        obtain ⟨hp2, _⟩ := get_node_max_key_ro _ _ _ _ _ h2
        dsimp only at h
        obtain ⟨⟨ch, p3⟩, h3, h⟩ := bind_ok h
        obtain ⟨hp3, _, _, _, _⟩ := get_page_ok_preserves h3
        dsimp only at h
        obtain ⟨⟨cmax, p4⟩, h4, h⟩ := bind_ok h
        obtain ⟨hp4, _⟩ := get_node_max_key_ro _ _ _ _ _ h4
        dsimp only at h
        obtain ⟨⟨ppu, opg2, onode2, p5⟩, h5, h⟩ := bind_ok h
        have hp5 : Preserves p4 p5 := ins_split_setup_preserves h5
        dsimp only at h
        obtain ⟨⟨cnode, p6⟩, h6, h⟩ := bind_ok h
        obtain ⟨hp6, _, _, _, _⟩ := get_page_ok_preserves h6
        dsimp only at h
        obtain ⟨p7, h7, h⟩ := bind_ok h
        have hi7 := ih_ins _ _ _ _ _ h7
        obtain ⟨⟨cnode2, p8⟩, h8, h⟩ := bind_ok h
        obtain ⟨hp8, _, _, hs8, _⟩ := get_page_ok_preserves h8
        dsimp only at h
        have s9 := set_page_preserves
          (n := set_node_parent cnode2 (get_unused_page_num p4)) hs8
        obtain ⟨⟨onode3, p10⟩, h10, h⟩ := bind_ok h
        obtain ⟨hp10, _, _, hs10, _⟩ := get_page_ok_preserves h10
        dsimp only at h
        have s11 := set_page_preserves
          (n := set_internal_right_child onode3 INVALID_PAGE_NUM) hs10
        obtain ⟨p12, h12, h⟩ := bind_ok h
        have hm12 := ih_move _ _ _ _ _ _ h12
        obtain ⟨⟨onode4, p13⟩, h13, h⟩ := bind_ok h
        obtain ⟨hp13, _, _, hs13, _⟩ := get_page_ok_preserves h13
        dsimp only at h
        obtain ⟨rcs, h14, h⟩ := bind_ok h
        have s15 := set_page_preserves
          (n := set_internal_num_keys (set_internal_right_child onode4 rcs)
            (u32sub (internal_node_num_keys (set_internal_right_child onode4 rcs)) 1)) hs13
        obtain ⟨⟨onode5, p16⟩, h16, h⟩ := bind_ok h
        obtain ⟨hp16, _, _, _, _⟩ := get_page_ok_preserves h16
        dsimp only at h
        obtain ⟨⟨mas, p17⟩, h17, h⟩ := bind_ok h
        obtain ⟨hp17, _⟩ := get_node_max_key_ro _ _ _ _ _ h17
        dsimp only at h
        obtain ⟨p18, h18, h⟩ := bind_ok h
        have hi18 := ih_ins _ _ _ _ _ h18
        obtain ⟨⟨chn, p19⟩, h19, h⟩ := bind_ok h
        obtain ⟨hp19, _, _, hs19, _⟩ := get_page_ok_preserves h19
        dsimp only at h
        have s20 := set_page_preserves
          (n := set_node_parent chn
            (if cmax < mas then opg2 else get_unused_page_num p4)) hs19
        obtain ⟨⟨onode6, p21⟩, h21, h⟩ := bind_ok h
        obtain ⟨hp21, _, _, _, _⟩ := get_page_ok_preserves h21
        dsimp only at h
        obtain ⟨⟨nmax, p22⟩, h22, h⟩ := bind_ok h
        obtain ⟨hp22, _⟩ := get_node_max_key_ro _ _ _ _ _ h22
        dsimp only at h
        obtain ⟨⟨parn, p23⟩, h23, h⟩ := bind_ok h
        obtain ⟨hp23, _, _, hs23, _⟩ := get_page_ok_preserves h23
        dsimp only at h
        have s24 := set_page_preserves
          (n := update_internal_node_key parn omax nmax) hs23
        have hpre : Preserves p p23 :=
          ((((((((((((hp1.trans hp2).trans hp3).trans hp4).trans hp5).trans
            hp6).trans hi7).trans (hp8.trans s9)).trans (hp10.trans s11)).trans
            hm12).trans ((hp13.trans s15).trans ((hp16.trans hp17).trans
            hi18))).trans ((hp19.trans s20).trans ((hp21.trans hp22).trans
            hp23))))
        split at h
        · injection h with h
          subst h
          exact hpre.trans s24
        · obtain ⟨⟨onode7, p25⟩, h25, h⟩ := bind_ok h
          obtain ⟨hp25, _, _, _, _⟩ := get_page_ok_preserves h25
          dsimp only at h
          obtain ⟨p26, h26, h⟩ := bind_ok h
          have hi26 := ih_ins _ _ _ _ _ h26
          obtain ⟨⟨nn, p27⟩, h27, h⟩ := bind_ok h
          obtain ⟨hp27, _, _, hs27, _⟩ := get_page_ok_preserves h27
          dsimp only at h
          injection h with h
          subst h
          exact ((hpre.trans s24).trans ((hp25.trans hi26).trans hp27)).trans
            (set_page_preserves hs27)

theorem leaf_node_split_and_insert_preserves {fuel : Nat} {c : Cursor} {k : Nat}
    {v : Row} {t : Table} {p p2 : Pager}
    (h : leaf_node_split_and_insert fuel c k v t p = .ok p2) : Preserves p p2 := by
  match fuel with
  | 0 => exact absurd h (by simp [leaf_node_split_and_insert])
  | fuel + 1 =>
  simp only [leaf_node_split_and_insert] at h
  obtain ⟨⟨onode, p1⟩, h1, h⟩ := bind_ok h
  obtain ⟨hp1, _, _, hs1, _⟩ := get_page_ok_preserves h1
  dsimp only at h
  obtain ⟨⟨omax, p2x⟩, h2, h⟩ := bind_ok h
  obtain ⟨hp2, _⟩ := get_node_max_key_ro _ _ _ _ _ h2
  dsimp only at h
  obtain ⟨⟨nnode, p3⟩, h3, h⟩ := bind_ok h
  obtain ⟨hp3, _, _, hs3, _⟩ := get_page_ok_preserves h3
  dsimp only at h
  have hsA : (p3.pages c.page_num).isSome := (hp2.trans hp3).slot hs1
  have sA := set_page_preserves (p := p3)
    (n := set_leaf_num_cells
      (leaf_split_loop c.cell_num k v
        (set_leaf_next_leaf onode (get_unused_page_num p2x))
        (set_leaf_next_leaf (set_node_parent (init_leaf_node nnode) (node_parent onode))
          (leaf_node_next_leaf onode))
        LEAF_NODE_MAX_CELLS).1
      LEAF_NODE_LEFT_SPLIT_COUNT) hsA
  have hsB := sA.slot hsA
  have sB := set_page_preserves
    (p := set_page p3 c.page_num _)
    (n := set_leaf_num_cells
      (leaf_split_loop c.cell_num k v
        (set_leaf_next_leaf onode (get_unused_page_num p2x))
        (set_leaf_next_leaf (set_node_parent (init_leaf_node nnode) (node_parent onode))
          (leaf_node_next_leaf onode))
        LEAF_NODE_MAX_CELLS).2
      LEAF_NODE_RIGHT_SPLIT_COUNT) (sA.slot hs3)
  have hpre := ((hp1.trans hp2).trans hp3).trans (sA.trans sB)
  split at h
  · exact hpre.trans (create_new_root_preserves h)
  · obtain ⟨⟨nmax, p5⟩, h5, h⟩ := bind_ok h
    obtain ⟨hp5, _⟩ := get_node_max_key_ro _ _ _ _ _ h5
    dsimp only at h
    obtain ⟨⟨parn, p6⟩, h6, h⟩ := bind_ok h
    obtain ⟨hp6, _, _, hs6, _⟩ := get_page_ok_preserves h6
    dsimp only at h
    have s7 := set_page_preserves (n := update_internal_node_key parn omax nmax) hs6
    exact ((hpre.trans ((hp5.trans hp6).trans s7)).trans
      ((internal_ops_preserve fuel).1 _ _ _ _ _ h))

theorem leaf_node_insert_preserves {fuel : Nat} {c : Cursor} {k : Nat} {v : Row}
    {t : Table} {p p2 : Pager}
    (h : leaf_node_insert fuel c k v t p = .ok p2) : Preserves p p2 := by
  unfold leaf_node_insert at h
  obtain ⟨⟨node, p1⟩, h1, h⟩ := bind_ok h
  obtain ⟨hp1, _, _, hs1, _⟩ := get_page_ok_preserves h1
  dsimp only at h
  split at h
  · exact hp1.trans (leaf_node_split_and_insert_preserves h)
  · injection h with h
    subst h
    exact hp1.trans (set_page_preserves hs1)

theorem exec_insert_preserves {fuel : Nat} {r : Row} {t : Table} {p : Pager}
    {res : ExecResult} {p2 : Pager}
    (h : exec_insert fuel r t p = .ok (res, p2)) : Preserves p p2 := by
  unfold exec_insert at h
  obtain ⟨⟨node, p1⟩, h1, h⟩ := bind_ok h
  obtain ⟨hp1, _, _, _, _⟩ := get_page_ok_preserves h1
  dsimp only at h
  obtain ⟨⟨c, pq⟩, h2, h⟩ := bind_ok h
  obtain ⟨hp2, _⟩ := table_find_ro h2
  dsimp only at h
  split at h
  · split at h
    · injection h with h
      injection h with h2a h2b
      subst h2b
      exact hp1.trans hp2
    · obtain ⟨p3, h3, h⟩ := bind_ok h
      injection h with h
      injection h with h2a h2b
      subst h2b
      exact (hp1.trans hp2).trans (leaf_node_insert_preserves h3)
  · obtain ⟨p3, h3, h⟩ := bind_ok h
    injection h with h
    injection h with h2a h2b
    subst h2b
    exact (hp1.trans hp2).trans (leaf_node_insert_preserves h3)

theorem apply_inserts_preserves :
    ∀ (rows : List Row) (fuel : Nat) (t : Table) (p : Pager) (rs : List ExecResult)
      (p2 : Pager), apply_inserts fuel t rows p = .ok (rs, p2) → Preserves p p2 := by
  intro rows
  induction rows with
  | nil =>
      intro fuel t p rs p2 h
      simp only [apply_inserts] at h
      injection h with h
      injection h with h2a h2b
      subst h2b
      exact Preserves.refl p
  | cons r rest ih =>
      intro fuel t p rs p2 h
      simp only [apply_inserts] at h
      obtain ⟨⟨res, p1⟩, h1, h⟩ := bind_ok h
      have hp1 := exec_insert_preserves h1
      dsimp only at h
      obtain ⟨⟨rs2, p3⟩, h3, h⟩ := bind_ok h
      have hp3 := ih _ _ _ _ _ h3
      dsimp only at h
      injection h with h
      injection h with h2a h2b
      subst h2b
      exact hp1.trans hp3

theorem pager_open_inv (file : List Node) : PagerInv (pager_open file) := by
  constructor
  · intro i h
    exact absurd h (by simp [pager_open])
  · exact le_refl _

theorem db_open_spec {file : List Node} {t : Table} {p0 : Pager}
    (h : db_open file = .ok (t, p0)) :
    t = ⟨0⟩ ∧ PagerInv p0 ∧ p0.file = file ∧ ((p0.pages 0).isSome ∨ file ≠ []) := by
  unfold db_open at h
  dsimp only at h
  split at h
  · rename_i hlen
    obtain ⟨⟨root, p1⟩, h1, h⟩ := bind_ok h
    obtain ⟨hp1, _, _, hs1, _⟩ := get_page_ok_preserves h1
    dsimp only at h
    injection h with h
    injection h with h2a h2b
    subst h2a h2b
    have hset := set_page_preserves
      (n := set_node_root (init_leaf_node root) true) hs1
    refine ⟨rfl, hset.2.2.2 (hp1.2.2.2 (pager_open_inv file)), ?_, ?_⟩
    · rw [hset.1, hp1.1]
      simp [pager_open]
    · exact Or.inl (hset.slot hs1)
  · injection h with h
    injection h with h2a h2b
    subst h2a h2b
    refine ⟨rfl, pager_open_inv file, rfl, Or.inr ?_⟩
    rename_i hlen
    intro hnil
    exact hlen (by simp [pager_open, hnil])

/-! ## Simulation: states with equal views run the scan identically -/

/-- Two stateful outcomes agree when they fail identically or succeed with
the same value and view-equal pagers. -/
def SimE {α : Type} : Except DbErr (α × Pager) → Except DbErr (α × Pager) → Prop
  | .error e, .error e2 => e = e2
  | .ok (a, p), .ok (b, q) => a = b ∧ ViewEq p q
  | _, _ => False

theorem SimE.bindPair {α β : Type} {x y : Except DbErr (α × Pager)}
    (hxy : SimE x y) {f g : α × Pager → Except DbErr (β × Pager)}
    (hfg : ∀ a p q, ViewEq p q → SimE (f (a, p)) (g (a, q))) :
    SimE (x >>= f) (y >>= g) := by
  cases x with
  | error e =>
      cases y with
      | error e2 =>
          cases hxy
          exact rfl
      | ok b => exact absurd hxy (by simp [SimE])
  | ok a =>
      cases y with
      | error e2 =>
          obtain ⟨a1, a2⟩ := a
          exact absurd hxy (by simp [SimE])
      | ok b =>
          obtain ⟨a1, a2⟩ := a
          obtain ⟨b1, b2⟩ := b
          obtain ⟨hab, hv⟩ := hxy
          subst hab
          exact hfg a1 a2 b2 hv

theorem SimE.bindVal {α β : Type} (x : Except DbErr α)
    {f g : α → Except DbErr (β × Pager)} (hfg : ∀ a, SimE (f a) (g a)) :
    SimE (x >>= f) (x >>= g) := by
  cases x with
  | error e => exact rfl
  | ok a => exact hfg a

theorem get_page_simE {p q : Pager} (hv : ViewEq p q) (i : Nat) :
    SimE (get_page p i) (get_page q i) := by
  by_cases hi : i < TABLE_MAX_PAGES
  · obtain ⟨p2, hp2, _, hvp, _, _, _⟩ := get_page_spec (p := p) hi
    obtain ⟨q2, hq2, _, hvq, _, _, _⟩ := get_page_spec (p := q) hi
    rw [hp2, hq2]
    exact ⟨hv i, fun j => ((hvp j).trans (hv j)).trans (hvq j).symm⟩
  · obtain ⟨e, he⟩ := get_page_err (p := p) (i := i) (by omega)
    obtain ⟨e2, he2⟩ := get_page_err (p := q) (i := i) (by omega)
    rw [he, he2]
    have : e = e2 := by
      unfold get_page at he he2
      split at he
      · rw [if_pos (by assumption)] at he2
        injection he with he
        injection he2 with he2
        rw [← he, ← he2]
      · split at he
        · rw [if_neg (by assumption), if_pos (by assumption)] at he2
          injection he with he
          injection he2 with he2
          rw [← he, ← he2]
        · omega
    cases this
    exact rfl

theorem leaf_node_find_simE {t : Table} {pg k : Nat} {p q : Pager} (hv : ViewEq p q) :
    SimE (leaf_node_find t pg k p) (leaf_node_find t pg k q) := by
  unfold leaf_node_find
  exact SimE.bindPair (get_page_simE hv pg) (fun n p2 q2 hv2 => ⟨rfl, hv2⟩)

theorem internal_node_find_simE :
    ∀ (fuel : Nat) (t : Table) (pg k : Nat) (p q : Pager), ViewEq p q →
      SimE (internal_node_find fuel t pg k p) (internal_node_find fuel t pg k q) := by
  intro fuel
  induction fuel with
  | zero =>
      intro t pg k p q hv
      simp only [internal_node_find]
      exact rfl
  | succ fuel ih =>
      intro t pg k p q hv
      simp only [internal_node_find]
      refine SimE.bindPair (get_page_simE hv pg) (fun n p2 q2 hv2 => ?_)
      dsimp only
      refine SimE.bindVal _ (fun cn => ?_)
      refine SimE.bindPair (get_page_simE hv2 cn) (fun n2 p3 q3 hv3 => ?_)
      dsimp only
      cases get_node_type n2 with
      | leafType => exact leaf_node_find_simE hv3
      | internalType => exact ih t cn k p3 q3 hv3

theorem table_find_simE {fuel : Nat} {t : Table} {k : Nat} {p q : Pager}
    (hv : ViewEq p q) : SimE (table_find fuel t k p) (table_find fuel t k q) := by
  unfold table_find
  refine SimE.bindPair (get_page_simE hv t.root_page_num) (fun n p2 q2 hv2 => ?_)
  dsimp only
  cases get_node_type n with
  | leafType => exact leaf_node_find_simE hv2
  | internalType => exact internal_node_find_simE fuel t t.root_page_num k p2 q2 hv2

theorem table_start_simE {fuel : Nat} {t : Table} {p q : Pager} (hv : ViewEq p q) :
    SimE (table_start fuel t p) (table_start fuel t q) := by
  unfold table_start
  refine SimE.bindPair (table_find_simE hv) (fun c p2 q2 hv2 => ?_)
  dsimp only
  exact SimE.bindPair (get_page_simE hv2 c.page_num) (fun n p3 q3 hv3 => ⟨rfl, hv3⟩)

theorem cursor_value_simE {c : Cursor} {p q : Pager} (hv : ViewEq p q) :
    SimE (cursor_value c p) (cursor_value c q) := by
  unfold cursor_value
  exact SimE.bindPair (get_page_simE hv c.page_num) (fun n p2 q2 hv2 => ⟨rfl, hv2⟩)

theorem cursor_advance_simE {c : Cursor} {p q : Pager} (hv : ViewEq p q) :
    SimE (cursor_advance c p) (cursor_advance c q) := by
  unfold cursor_advance
  refine SimE.bindPair (get_page_simE hv c.page_num) (fun n p2 q2 hv2 => ?_)
  dsimp only
  split
  · exact ⟨rfl, hv2⟩
  · split
    · exact ⟨rfl, hv2⟩
    · exact ⟨rfl, hv2⟩

theorem select_loop_simE :
    ∀ (fuel : Nat) (c : Cursor) (acc : List Row) (p q : Pager), ViewEq p q →
      SimE (select_loop fuel c p acc) (select_loop fuel c q acc) := by
  intro fuel
  induction fuel with
  | zero =>
      intro c acc p q hv
      simp only [select_loop]
      exact rfl
  | succ fuel ih =>
      intro c acc p q hv
      simp only [select_loop]
      match c.end_of_table with
      | none => exact rfl
      | some true => exact ⟨rfl, hv⟩
      | some false =>
          refine SimE.bindPair (cursor_value_simE hv) (fun r p2 q2 hv2 => ?_)
          dsimp only
          refine SimE.bindPair (cursor_advance_simE hv2) (fun c2 p3 q3 hv3 => ?_)
          dsimp only
          exact ih c2 _ p3 q3 hv3

theorem exec_select_simE {fuel : Nat} {t : Table} {p q : Pager} (hv : ViewEq p q) :
    SimE (exec_select fuel t p) (exec_select fuel t q) := by
  unfold exec_select
  refine SimE.bindPair (table_start_simE hv) (fun c p2 q2 hv2 => ?_)
  dsimp only
  exact select_loop_simE fuel c [] p2 q2 hv2

/-! ## Closing and reopening -/

theorem writeFileAt_getD (f : List Node) (i : Nat) (n : Node) (j : Nat) :
    (writeFileAt f i n).getD j zeroNode = if j = i then n else f.getD j zeroNode := by
  unfold writeFileAt
  split
  · rename_i hlt
    by_cases hji : j = i
    · subst hji
      rw [if_pos rfl, List.getD_eq_getElem _ _ (by simpa using hlt)]
      rw [List.getElem_set]
      rw [if_pos rfl]
    · rw [if_neg hji]
      rcases Nat.lt_or_ge j f.length with hj | hj
      · rw [List.getD_eq_getElem _ _ (by simpa using hj), List.getD_eq_getElem _ _ hj]
        rw [List.getElem_set]
        rw [if_neg (fun h => hji h.symm)]
      · rw [List.getD_eq_default _ _ (by simpa using hj), List.getD_eq_default _ _ hj]
  · rename_i hge
    have hle : f.length ≤ i := by omega
    have hlen2 : (f ++ List.replicate (i - f.length) zeroNode).length = i := by
      simp only [List.length_append, List.length_replicate]
      omega
    by_cases hji : j = i
    · subst hji
      rw [if_pos rfl, List.getD_append_right _ _ _ _ (le_of_eq hlen2), hlen2,
        Nat.sub_self]
      rfl
    · rw [if_neg hji]
      rcases Nat.lt_or_ge j f.length with hj | hj
      · rw [List.getD_append _ _ _ _ (by rw [List.length_append, List.length_replicate]; omega),
          List.getD_append _ _ _ _ hj]
      · rw [List.getD_eq_default _ _ hj]
        rcases Nat.lt_or_ge j i with hj2 | hj2
        · rw [List.getD_append _ _ _ _ (by rw [hlen2]; omega),
            List.getD_append_right _ _ _ _ hj]
          rw [List.getD_eq_getElem _ _ (by rw [List.length_replicate]; omega),
            List.getElem_replicate]
        · rw [List.getD_eq_default _ _ (by
            simp only [List.length_append, List.length_replicate, List.length_cons,
              List.length_nil]
            omega)]

theorem writeFileAt_length (f : List Node) (i : Nat) (n : Node) :
    f.length ≤ (writeFileAt f i n).length ∧ i < (writeFileAt f i n).length := by
  unfold writeFileAt
  split
  · simp only [List.length_set]
    omega
  · simp only [List.length_append, List.length_replicate, List.length_cons,
      List.length_nil]
    omega

theorem flush_upto_getD (p : Pager) :
    ∀ (k : Nat) (j : Nat),
      (flush_upto p k p.file).getD j zeroNode =
        if j < k ∧ (p.pages j).isSome then (p.pages j).getD zeroNode
        else p.file.getD j zeroNode := by
  intro k
  induction k with
  | zero =>
      intro j
      simp only [flush_upto]
      rw [if_neg (by omega)]
  | succ k ih =>
      intro j
      simp only [flush_upto]
      cases hk : p.pages k with
      | some n =>
          rw [writeFileAt_getD]
          by_cases hjk : j = k
          · subst hjk
            rw [if_pos rfl, if_pos (by simp [hk])]
            simp [hk]
          · rw [if_neg hjk, ih j]
            by_cases hcond : j < k ∧ (p.pages j).isSome
            · rw [if_pos hcond, if_pos ⟨by omega, hcond.2⟩]
            · rw [if_neg hcond, if_neg (by
                intro hc
                exact hcond ⟨by omega, hc.2⟩)]
      | none =>
          rw [ih j]
          by_cases hcond : j < k ∧ (p.pages j).isSome
          · rw [if_pos hcond, if_pos ⟨by omega, hcond.2⟩]
          · rw [if_neg hcond, if_neg (by
              intro hc
              refine hcond ⟨?_, hc.2⟩
              rcases Nat.lt_or_ge j k with h | h
              · exact h
              · have hjk : j = k := by omega
                rw [hjk] at hc
                exact absurd hc.2 (by simp [hk]))]

theorem flush_upto_length (p : Pager) :
    ∀ k : Nat, p.file.length ≤ (flush_upto p k p.file).length ∧
      (∀ i, i < k → (p.pages i).isSome → i < (flush_upto p k p.file).length) := by
  intro k
  induction k with
  | zero =>
      exact ⟨le_refl _, fun i hi _ => absurd hi (by omega)⟩
  | succ k ih =>
      simp only [flush_upto]
      cases hk : p.pages k with
      | some n =>
          obtain ⟨hw1, hw2⟩ := writeFileAt_length (flush_upto p k p.file) k n
          refine ⟨ih.1.trans hw1, fun i hi hs => ?_⟩
          rcases Nat.lt_or_ge i k with h | h
          · exact lt_of_lt_of_le (ih.2 i h hs) hw1
          · have : i = k := by omega
            subst this
            exact hw2
      | none =>
          refine ⟨ih.1, fun i hi hs => ?_⟩
          rcases Nat.lt_or_ge i k with h | h
          · exact ih.2 i h hs
          · have : i = k := by omega
            subst this
            exact absurd hs (by simp [hk])

/-- Closing and reopening a database yields a pager whose views agree with
the in-memory state that was closed. -/
theorem close_reopen_viewEq {p : Pager} (hInv : PagerInv p) :
    ViewEq (pager_open (db_close p)) p := by
  intro i
  have hview : pageView (pager_open (db_close p)) i = (db_close p).getD i zeroNode := by
    rw [pageView]
    simp [pager_open]
  rw [hview]
  unfold db_close
  rw [flush_upto_getD]
  cases hc : p.pages i with
  | some n =>
      rw [if_pos ⟨hInv.1 i (by simp [hc]), by simp [hc]⟩]
      simp [hc, pageView]
  | none =>
      rw [if_neg (by simp [hc])]
      rw [pageView, hc]

theorem db_close_length_pos {p : Pager} (hInv : PagerInv p)
    (hroot : (p.pages 0).isSome ∨ p.file ≠ []) : (db_close p).length ≠ 0 := by
  unfold db_close
  cases hroot with
  | inl hs =>
      have := (flush_upto_length p p.num_pages).2 0 (hInv.1 0 hs) hs
      omega
  | inr hf =>
      have h1 := (flush_upto_length p p.num_pages).1
      have h2 : p.file.length ≠ 0 := by
        intro h
        exact hf (List.length_eq_zero.mp h)
      omega

theorem db_open_nonempty {file : List Node} (h : file.length ≠ 0) :
    db_open file = .ok (⟨0⟩, pager_open file) := by
  unfold db_open
  dsimp only
  rw [if_neg (by simp [pager_open, h])]

theorem ok_bind {α β : Type} (a : α) (f : α → Except DbErr β) :
    ((Except.ok a : Except DbErr α) >>= f) = f a := rfl

theorem SimE_cases {α : Type} {x y : Except DbErr (α × Pager)} (h : SimE x y) :
    (∃ e, x = .error e ∧ y = .error e) ∨
    (∃ a p q, x = .ok (a, p) ∧ y = .ok (a, q) ∧ ViewEq p q) := by
  cases x with
  | error e =>
      cases y with
      | error e2 =>
          cases h
          exact Or.inl ⟨e, rfl, rfl⟩
      | ok b =>
          obtain ⟨b1, b2⟩ := b
          exact absurd h (by simp [SimE])
  | ok a =>
      obtain ⟨a1, a2⟩ := a
      cases y with
      | error e2 => exact absurd h (by simp [SimE])
      | ok b =>
          obtain ⟨b1, b2⟩ := b
          obtain ⟨hab, hv⟩ := h
          subst hab
          exact Or.inr ⟨a1, a2, b2, rfl, rfl, hv⟩

theorem pageView_of_isSome {p : Pager} {i : Nat} (h : (p.pages i).isSome) :
    (p.pages i).getD zeroNode = pageView p i := by
  rw [pageView]
  cases hc : p.pages i with
  | none => exact absurd h (by simp [hc])
  | some n => simp

/-! ## C6 and C9 session definitions and theorems -/

/-- A session: open the database file, run the inserts, return the table,
the per-statement results and the final in-memory state. -/
def c6_session (file : List Node) (rows : List Row) (fuel : Nat) :
    Except DbErr (Table × List ExecResult × Pager) := do
  let (t, p) ← db_open file
  let (rs, p) ← apply_inserts fuel t rows p
  pure (t, rs, p)

/-- `select` output of the session state, before closing. -/
def c6_select_before (file : List Node) (rows : List Row) (fuel fuel2 : Nat) :
    Except DbErr (List Row) := do
  let (t, _, p) ← c6_session file rows fuel
  let (out, _) ← exec_select fuel2 t p
  pure out

/-- `select` output after closing the session state to disk and reopening
the resulting file. -/
def c6_select_after (file : List Node) (rows : List Row) (fuel fuel2 : Nat) :
    Except DbErr (List Row) := do
  let (_, _, p) ← c6_session file rows fuel
  let (t2, p2) ← db_open (db_close p)
  let (out, _) ← exec_select fuel2 t2 p2
  pure out

/-- C6: for every database file and every sequence of successful inserts,
closing the database and reopening the written file yields a table whose
`select_all` output is identical to the output before closing.  (The proof
shows the flushed file reproduces every page view, so the scan — which only
reads pages — behaves identically; it does not even need the inserts to
have succeeded.) -/
theorem c6_close_reopen_preserves_select :
    ∀ (file : List Node) (rows : List Row) (fuel fuel2 : Nat)
      (t : Table) (rs : List ExecResult) (p : Pager),
      c6_session file rows fuel = .ok (t, rs, p) →
      (∀ r ∈ rs, r = .success) →
      c6_select_after file rows fuel fuel2 = c6_select_before file rows fuel fuel2 := by
  intro file rows fuel fuel2 t rs p hsess0 _hok
  have hsess := hsess0
  unfold c6_session at hsess
  obtain ⟨⟨t0, p0⟩, hopen, hsess⟩ := bind_ok hsess
  dsimp only at hsess
  obtain ⟨⟨rs1, p1⟩, hins, hsess⟩ := bind_ok hsess
  dsimp only at hsess
  injection hsess with hsess
  injection hsess with hteq hsess
  injection hsess with hrseq hpeq
  obtain ⟨ht0, hInv0, hfile0, hanchor⟩ := db_open_spec hopen
  have htz : t = ⟨0⟩ := hteq.symm.trans ht0
  have hPres : Preserves p0 p := hpeq ▸ apply_inserts_preserves _ _ _ _ _ _ hins
  have hInv1 : PagerInv p := hPres.2.2.2 hInv0
  have hanchor1 : (p.pages 0).isSome ∨ p.file ≠ [] := by
    cases hanchor with
    | inl hs => exact Or.inl (hPres.slot hs)
    | inr hf =>
        refine Or.inr ?_
        rw [hPres.1, hfile0]
        exact hf
  have hlen := db_close_length_pos hInv1 hanchor1
  have hro := db_open_nonempty hlen
  have hv := close_reopen_viewEq hInv1
  have hsim := @exec_select_simE fuel2 ⟨0⟩ _ _ hv
  unfold c6_select_after c6_select_before
  rw [hsess0, ok_bind, ok_bind]
  dsimp only
  rw [htz, hro, ok_bind]
  dsimp only
  rcases SimE_cases hsim with ⟨e, ha, hb⟩ | ⟨out, pa, pb, ha, hb, _⟩
  · rw [ha, hb]
  · rw [ha, hb, ok_bind, ok_bind]

/-- Witness for C6 at a concrete session: a fresh (empty) file and one
successful insert of id 1. -/
theorem c6_close_reopen_preserves_select_witness :
    (∃ p : Pager, c6_session [] [mkRow 1] 200 = .ok (⟨0⟩, [.success], p) ∧
      (∀ r ∈ [ExecResult.success], r = .success) ∧
      c6_select_after [] [mkRow 1] 200 200 = c6_select_before [] [mkRow 1] 200 200) ∧
    c6_select_before [] [mkRow 1] 200 200 = .ok [mkRow 1] := by
  refine ⟨⟨_, rfl, by simp, ?_⟩, rfl⟩
  exact c6_close_reopen_preserves_select [] [mkRow 1] 200 200 ⟨0⟩ [.success] _ rfl
    (by simp)

/-- C9: `num_pages` never decreases across the operations of a session
(`get_page` itself, `exec_insert`, `exec_select`); a successful
`get_page(p)` in an invariant-respecting state leaves `num_pages` at least
`p + 1`; and merely reading a page that did not previously exist (slot
empty, `p ≥ num_pages`) permanently extends the logical page count to
`p + 1` and causes `db_close` to write that page — the zero page, when it
lies beyond the on-disk file — into the file it produces. -/
theorem c9_num_pages_monotone_and_fresh_page_flushed :
    (∀ (p : Pager) (i : Nat) (n : Node) (p2 : Pager), get_page p i = .ok (n, p2) →
      p.num_pages ≤ p2.num_pages ∧ (PagerInv p → i < p2.num_pages)) ∧
    (∀ (fuel : Nat) (r : Row) (t : Table) (p : Pager) (res : ExecResult) (p2 : Pager),
      exec_insert fuel r t p = .ok (res, p2) → p.num_pages ≤ p2.num_pages) ∧
    (∀ (fuel : Nat) (t : Table) (p : Pager) (out : List Row) (p2 : Pager),
      exec_select fuel t p = .ok (out, p2) → p.num_pages ≤ p2.num_pages) ∧
    (∀ (p : Pager) (i : Nat) (n : Node) (p2 : Pager),
      p.pages i = none → p.num_pages ≤ i → get_page p i = .ok (n, p2) →
      p2.num_pages = i + 1 ∧ i < (db_close p2).length ∧
        (db_close p2).getD i zeroNode = n ∧ (p.file.length ≤ i → n = zeroNode)) := by
  refine ⟨?_, ?_, ?_, ?_⟩
  · intro p i n p2 h
    obtain ⟨hpres, _, _, _, hinv⟩ := get_page_ok_preserves h
    exact ⟨hpres.2.1, hinv⟩
  · intro fuel r t p res p2 h
    exact (exec_insert_preserves h).2.1
  · intro fuel t p out p2 h
    exact (exec_select_ro h).1.2.1
  · intro p i n p2 hnone hge h
    by_cases hi : i < TABLE_MAX_PAGES
    · obtain ⟨q, hq, hpres, hview, hsome, _, hfresh⟩ := get_page_spec (p := p) hi
      rw [hq] at h
      injection h with h
      injection h with h1 h2
      subst h2
      have hnp : q.num_pages = i + 1 := hfresh hnone hge
      have hsome2 : (q.pages i).isSome := hsome
      have hval : (q.pages i).getD zeroNode = n := by
        rw [pageView_of_isSome hsome2, hview i]
        exact h1
      refine ⟨hnp, ?_, ?_, ?_⟩
      · have := (flush_upto_length q q.num_pages).2 i (by omega) hsome2
        exact this
      · unfold db_close
        rw [flush_upto_getD]
        rw [if_pos ⟨by omega, hsome2⟩]
        exact hval
      · intro hflen
        rw [← h1, pageView, hnone]
        exact List.getD_eq_default _ _ hflen
    · have hle : TABLE_MAX_PAGES ≤ i := by omega
      obtain ⟨e, he⟩ := get_page_err (p := p) hle
      rw [he] at h
      exact Except.noConfusion h

/-- Witness for C9 at a concrete input: reading page 5 of a freshly opened
empty database extends `num_pages` from 0 to 6, and the closed file then
has six pages with the zero page at index 5. -/
theorem c9_num_pages_monotone_and_fresh_page_flushed_witness :
    ∃ (n : Node) (p2 : Pager), get_page (pager_open []) 5 = .ok (n, p2) ∧
      p2.num_pages = 6 ∧ 5 < (db_close p2).length ∧
      (db_close p2).getD 5 zeroNode = n := by
  obtain ⟨q, hq, _⟩ := get_page_spec (p := pager_open []) (i := 5) (by decide)
  obtain ⟨h1, h2, h3, _⟩ :=
    c9_num_pages_monotone_and_fresh_page_flushed.2.2.2 (pager_open []) 5 _ q rfl
      (by decide) hq
  exact ⟨_, q, hq, h1, h2, h3⟩

/-! ## Abstract B+-trees and the representation relation -/

mutual
/-- Shadow of a B+-tree reachable from a page: a leaf with its page number
and cells, or an internal node with its page number, its (child, separator)
cells and its right child. -/
inductive BT
  | lf (pg : Nat) (entries : List (Nat × Row))
  | nd (pg : Nat) (cs : BTCells) (right : BT)

inductive BTCells
  | nil
  | cons (child : BT) (sep : Nat) (rest : BTCells)
end

def BT.pg : BT → Nat
  | .lf pg _ => pg
  | .nd pg _ _ => pg

def BTCells.length : BTCells → Nat
  | .nil => 0
  | .cons _ _ rest => rest.length + 1

/-- Page number of the i-th left child. -/
def BTCells.pgAt : BTCells → Nat → Nat
  | .nil, _ => 0
  | .cons c _ _, 0 => c.pg
  | .cons _ _ rest, i + 1 => rest.pgAt i

/-- The i-th separator key. -/
def BTCells.sepAt : BTCells → Nat → Nat
  | .nil, _ => 0
  | .cons _ sep _, 0 => sep
  | .cons _ _ rest, i + 1 => rest.sepAt i

mutual
def BT.keysList : BT → List Nat
  | .lf _ es => es.map Prod.fst
  | .nd _ cs right => cs.keysList ++ right.keysList

def BTCells.keysList : BTCells → List Nat
  | .nil => []
  | .cons c _ rest => c.keysList ++ rest.keysList
end

mutual
def BT.heightAll : BT → Nat
  | .lf _ _ => 0
  | .nd _ cs right => (max cs.heightAll right.heightAll) + 1

def BTCells.heightAll : BTCells → Nat
  | .nil => 0
  | .cons c _ rest => max c.heightAll rest.heightAll
end

/-- `get_node_max_key` descends only through right children; its recursion
depth is the length of the right spine. -/
def BT.rightDepth : BT → Nat
  | .lf _ _ => 0
  | .nd _ _ right => right.rightDepth + 1

/-- The maximum key of a well-formed subtree: the last key of the rightmost
leaf. -/
def BT.maxKey : BT → Nat
  | .lf _ es => (es.map Prod.fst).getLastD 0
  | .nd _ _ right => right.maxKey

mutual
/-- The page store realizes the abstract tree: each abstract node's page
view holds exactly its fields and cells. -/
def Represents (s : Pager) : BT → Prop
  | .lf pg es => pg < TABLE_MAX_PAGES ∧ ∃ L : LeafData, pageView s pg = .leaf L ∧
      L.num_cells = es.length ∧
      ∀ i, i < es.length → L.cells i = es.getD i (0, defaultRow)
  | .nd pg cs right => pg < TABLE_MAX_PAGES ∧
      ∃ D : InternalData, pageView s pg = .internal D ∧
        D.num_keys = cs.length ∧
        (∀ i, i < cs.length → D.cells i = (cs.pgAt i, cs.sepAt i)) ∧
        D.right_child = right.pg ∧
        RepresentsCells s cs ∧ Represents s right

def RepresentsCells (s : Pager) : BTCells → Prop
  | .nil => True
  | .cons c _ rest => Represents s c ∧ RepresentsCells s rest
end

def loLt : Option Nat → Nat → Prop
  | none, _ => True
  | some l, k => l < k

def leHi : Nat → Option Nat → Prop
  | _, none => True
  | k, some h => k ≤ h

mutual
/-- Well-formedness with bounds: every key lies strictly above `lo` and at
or below `hi`; leaves are nonempty, within capacity and strictly sorted;
each child's keys are bounded by its separator, and the right child's keys
lie strictly above the last separator. -/
def WFB : BT → Option Nat → Option Nat → Prop
  | .lf _ es, lo, hi => es ≠ [] ∧ es.length ≤ LEAF_NODE_MAX_CELLS ∧
      List.Chain' (· < ·) (es.map Prod.fst) ∧
      (∀ k ∈ es.map Prod.fst, loLt lo k ∧ leHi k hi)
  | .nd _ cs right, lo, hi => WFBCells cs right lo hi
termination_by t _ _ => sizeOf t
decreasing_by all_goals (simp_wf; try omega)

def WFBCells : BTCells → BT → Option Nat → Option Nat → Prop
  | .nil, right, lo, hi => WFB right lo hi
  | .cons c sep rest, right, lo, hi =>
      WFB c lo (some sep) ∧ WFBCells rest right (some sep) hi
termination_by cs right _ _ => sizeOf cs + sizeOf right
decreasing_by all_goals (simp_wf; try omega)
end

theorem Represents.pg_lt {s : Pager} {t : BT} (h : Represents s t) :
    t.pg < TABLE_MAX_PAGES := by
  cases t with
  | lf pg es =>
      rw [Represents] at h
      exact h.1
  | nd pg cs right =>
      rw [Represents] at h
      exact h.1

/-- Simultaneous induction principle for the mutual shadow-tree types, with
both motives passed positionally. -/
theorem bt_mutual_ind (motive : BT → Prop) (motiveCells : BTCells → Prop)
    (hlf : ∀ pg es, motive (.lf pg es))
    (hnd : ∀ pg cs right, motiveCells cs → motive right → motive (.nd pg cs right))
    (hnil : motiveCells .nil)
    (hcons : ∀ c sep rest, motive c → motiveCells rest → motiveCells (.cons c sep rest)) :
    (∀ t, motive t) ∧ (∀ cs, motiveCells cs) :=
  ⟨fun t => @BT.rec motive motiveCells hlf hnd hnil hcons t,
   fun cs => @BTCells.rec motive motiveCells hlf hnd hnil hcons cs⟩

/-- Induction on the cells list alone. -/
theorem btcells_ind (motive : BTCells → Prop)
    (hnil : motive .nil)
    (hcons : ∀ c sep rest, motive rest → motive (.cons c sep rest)) :
    ∀ cs, motive cs :=
  fun cs => @BTCells.rec (fun _ => True) motive (fun _ _ => True.intro)
    (fun _ _ _ _ _ => True.intro) hnil (fun c sep rest _ ih => hcons c sep rest ih) cs

/-- Representation depends only on the page views. -/
theorem Represents_viewEq :
    ∀ (t : BT) (s s2 : Pager), ViewEq s2 s → Represents s t → Represents s2 t := by
  refine (bt_mutual_ind
    (fun t => ∀ s s2, ViewEq s2 s → Represents s t → Represents s2 t)
    (fun cs => ∀ s s2, ViewEq s2 s → RepresentsCells s cs → RepresentsCells s2 cs)
    ?_ ?_ ?_ ?_).1
  · intro pg es s s2 hv h
    rw [Represents] at h ⊢
    obtain ⟨h1, L, h2, h3, h4⟩ := h
    exact ⟨h1, L, (hv pg).trans h2, h3, h4⟩
  · intro pg cs right ihcs ihr s s2 hv h
    rw [Represents] at h ⊢
    obtain ⟨h1, D, h2, h3, h4, h5, h6, h7⟩ := h
    exact ⟨h1, D, (hv pg).trans h2, h3, h4, h5, ihcs s s2 hv h6, ihr s s2 hv h7⟩
  · intro s s2 hv h
    rw [RepresentsCells]
    trivial
  · intro c sep rest ihc ihrest s s2 hv h
    rw [RepresentsCells] at h ⊢
    exact ⟨ihc s s2 hv h.1, ihrest s s2 hv h.2⟩

theorem u32sub_one {a : Nat} (h1 : 1 ≤ a) (h2 : a < U32_MOD) : u32sub a 1 = a - 1 := by
  have hm : U32_MOD = 4294967296 := by norm_num [U32_MOD]
  rw [hm] at h2
  unfold u32sub
  rw [hm]
  omega

theorem chain_lt_le_getLastD {l : List Nat} (h : List.Chain' (· < ·) l) :
    ∀ k ∈ l, k ≤ l.getLastD 0 := by
  induction l with
  | nil => intro k hk; exact absurd hk (by simp)
  | cons a rest ih =>
      intro k hk
      cases rest with
      | nil =>
          simp only [List.mem_singleton] at hk
          subst hk
          simp [List.getLastD]
      | cons b rest2 =>
          rw [List.chain'_cons] at h
          have hlast : (a :: b :: rest2).getLastD 0 = (b :: rest2).getLastD 0 := by
            simp [List.getLastD, List.getLast?]
          rw [hlast]
          rcases List.mem_cons.mp hk with hk1 | hk2
          · subst hk1
            have hb := ih h.2 b (by simp)
            omega
          · exact ih h.2 k hk2

theorem getLastD_mem {l : List Nat} (h : l ≠ []) : l.getLastD 0 ∈ l := by
  induction l with
  | nil => exact absurd rfl h
  | cons a rest ih =>
      cases rest with
      | nil => simp [List.getLastD]
      | cons b rest2 =>
          have hlast : (a :: b :: rest2).getLastD 0 = (b :: rest2).getLastD 0 := by
            simp [List.getLastD, List.getLast?]
          rw [hlast]
          exact List.mem_cons_of_mem a (ih (by simp))

/-- The last entry's key of a nonempty entry list, read through `getD` at
index `length - 1`, is the `getLastD` of the key list. -/
theorem map_fst_getLastD :
    ∀ (es : List (Nat × Row)), es ≠ [] →
      (es.getD (es.length - 1) (0, defaultRow)).1 = (es.map Prod.fst).getLastD 0 := by
  intro es
  induction es with
  | nil => intro h; exact absurd rfl h
  | cons a rest ih =>
      intro _
      cases rest with
      | nil => rfl
      | cons b rest2 =>
          have ih2 := ih (by simp)
          have hlast : ((a :: b :: rest2).map Prod.fst).getLastD 0
              = ((b :: rest2).map Prod.fst).getLastD 0 := by
            simp [List.getLastD, List.getLast?]
          rw [hlast, ← ih2]
          simp only [List.length_cons, Nat.add_sub_cancel, List.getD_cons_succ]

/-- The right subtree of a well-formed cells list is well formed between
some lower bound and the same upper bound. -/
theorem wfbcells_right_ex :
    ∀ (cs : BTCells) (right : BT) (lo hi : Option Nat),
      WFBCells cs right lo hi → ∃ lo2, WFB right lo2 hi := by
  refine btcells_ind
    (fun cs => ∀ right lo hi, WFBCells cs right lo hi → ∃ lo2, WFB right lo2 hi) ?_ ?_
  · intro right lo hi h
    rw [WFBCells] at h
    exact ⟨lo, h⟩
  · intro c sep rest ih right lo hi h
    rw [WFBCells] at h
    exact ih right (some sep) hi h.2

/-- A well-formed subtree holds at least one key. -/
theorem wfb_keys_ne :
    ∀ (t : BT) (lo hi : Option Nat), WFB t lo hi → t.keysList ≠ [] := by
  refine (bt_mutual_ind
    (fun t => ∀ lo hi, WFB t lo hi → t.keysList ≠ [])
    (fun cs => ∀ right : BT, (∀ lo hi, WFB right lo hi → right.keysList ≠ []) →
      ∀ lo hi, WFBCells cs right lo hi →
        cs.keysList ++ right.keysList ≠ []) ?_ ?_ ?_ ?_).1
  · intro pg es lo hi h
    rw [WFB] at h
    simp only [BT.keysList, ne_eq, List.map_eq_nil]
    exact h.1
  · intro pg cs right ihcs ihr lo hi h
    rw [WFB] at h
    simp only [BT.keysList]
    exact ihcs right ihr lo hi h
  · intro right ihr lo hi h
    rw [WFBCells] at h
    simp only [BTCells.keysList, List.nil_append]
    exact ihr lo hi h
  · intro c sep rest ihc ihrest right ihr lo hi h
    rw [WFBCells] at h
    simp only [BTCells.keysList, List.append_assoc, ne_eq, List.append_eq_nil]
    intro hc
    exact ihrest right ihr (some sep) hi h.2 (by rw [hc.2.1, hc.2.2]; rfl)

/-- Every key of a well-formed subtree respects its bounds. -/
theorem wfb_bounds :
    ∀ (t : BT) (lo hi : Option Nat), WFB t lo hi →
      ∀ k ∈ t.keysList, loLt lo k ∧ leHi k hi := by
  refine (bt_mutual_ind
    (fun t => ∀ lo hi, WFB t lo hi → ∀ k ∈ t.keysList, loLt lo k ∧ leHi k hi)
    (fun cs => ∀ right : BT,
      (∀ lo hi, WFB right lo hi → ∀ k ∈ right.keysList, loLt lo k ∧ leHi k hi) →
      ∀ lo hi, WFBCells cs right lo hi →
        ∀ k ∈ cs.keysList ++ right.keysList, loLt lo k ∧ leHi k hi) ?_ ?_ ?_ ?_).1
  · intro pg es lo hi h k hk
    rw [WFB] at h
    exact h.2.2.2 k (by simpa [BT.keysList] using hk)
  · intro pg cs right ihcs ihr lo hi h k hk
    rw [WFB] at h
    exact ihcs right ihr lo hi h k (by simpa [BT.keysList] using hk)
  · intro right ihr lo hi h k hk
    rw [WFBCells] at h
    simp only [BTCells.keysList, List.nil_append] at hk
    exact ihr lo hi h k hk
  · intro c sep rest ihc ihrest right ihr lo hi h k hk
    rw [WFBCells] at h
    simp only [BTCells.keysList, List.append_assoc, List.mem_append] at hk
    rcases hk with hk1 | hk2
    · obtain ⟨hl, hh⟩ := ihc lo (some sep) h.1 k hk1
      refine ⟨hl, ?_⟩
      obtain ⟨lo2, hwfr⟩ := wfbcells_right_ex rest right (some sep) hi h.2
      obtain ⟨k2, hk2mem⟩ := List.exists_mem_of_ne_nil _ (wfb_keys_ne right lo2 hi hwfr)
      obtain ⟨hl2, hh2⟩ := ihrest right ihr (some sep) hi h.2 k2
        (List.mem_append_right _ hk2mem)
      simp only [leHi] at hh ⊢
      simp only [loLt] at hl2
      cases hi with
      | none => exact True.intro
      | some hv =>
          simp only [leHi] at hh2
          omega
    · obtain ⟨hl2, hh2⟩ := ihrest right ihr (some sep) hi h.2 k
        (List.mem_append.mpr hk2)
      refine ⟨?_, hh2⟩
      cases lo with
      | none => simp [loLt]
      | some l =>
          obtain ⟨kc, hkcmem⟩ :=
            List.exists_mem_of_ne_nil _ (wfb_keys_ne c (some l) (some sep) h.1)
          obtain ⟨hlc, hhc⟩ := ihc (some l) (some sep) h.1 kc hkcmem
          simp only [loLt] at hlc hl2 ⊢
          simp only [leHi] at hhc
          omega

/-- Every key of the right subtree lies strictly above the lower bound of a
well-formed cells list. -/
theorem wfbcells_right_lo :
    ∀ (cs : BTCells) (right : BT) (lo hi : Option Nat),
      WFBCells cs right lo hi → ∀ k ∈ right.keysList, loLt lo k := by
  refine btcells_ind
    (fun cs => ∀ right lo hi, WFBCells cs right lo hi →
      ∀ k ∈ right.keysList, loLt lo k) ?_ ?_
  · intro right lo hi h k hk
    rw [WFBCells] at h
    exact (wfb_bounds right lo hi h k hk).1
  · intro c sep rest ih right lo hi h k hk
    rw [WFBCells] at h
    have hsep := ih right (some sep) hi h.2 k hk
    cases lo with
    | none => simp [loLt]
    | some l =>
        obtain ⟨kc, hkcmem⟩ :=
          List.exists_mem_of_ne_nil _ (wfb_keys_ne c (some l) (some sep) h.1)
        obtain ⟨hlc, hhc⟩ := wfb_bounds c (some l) (some sep) h.1 kc hkcmem
        simp only [loLt] at hlc hsep ⊢
        simp only [leHi] at hhc
        omega

/-- Keys of the cells part lie strictly below every key of the right
subtree. -/
theorem wfbcells_lt_right :
    ∀ (cs : BTCells) (right : BT) (lo hi : Option Nat),
      WFBCells cs right lo hi →
      ∀ k ∈ cs.keysList, ∀ k2 ∈ right.keysList, k < k2 := by
  refine btcells_ind
    (fun cs => ∀ right lo hi, WFBCells cs right lo hi →
      ∀ k ∈ cs.keysList, ∀ k2 ∈ right.keysList, k < k2) ?_ ?_
  · intro right lo hi h k hk
    simp [BTCells.keysList] at hk
  · intro c sep rest ih right lo hi h k hk k2 hk2
    rw [WFBCells] at h
    simp only [BTCells.keysList, List.mem_append] at hk
    rcases hk with hk1 | hk2'
    · have hle : k ≤ sep := by
        have := (wfb_bounds c lo (some sep) h.1 k hk1).2
        simpa only [leHi] using this
      have hgt : sep < k2 := by
        have := wfbcells_right_lo rest right (some sep) hi h.2 k2 hk2
        simpa only [loLt] using this
      omega
    · exact ih right (some sep) hi h.2 k hk2' k2 hk2

/-- The abstract maximum key is one of the subtree's keys. -/
theorem wfb_maxKey_mem :
    ∀ (t : BT) (lo hi : Option Nat), WFB t lo hi → t.maxKey ∈ t.keysList := by
  refine (bt_mutual_ind (fun t => ∀ lo hi, WFB t lo hi → t.maxKey ∈ t.keysList)
    (fun _ => True) ?_ ?_ True.intro (fun _ _ _ _ _ => True.intro)).1
  · intro pg es lo hi h
    rw [WFB] at h
    simp only [BT.maxKey, BT.keysList]
    exact getLastD_mem (by simp only [ne_eq, List.map_eq_nil]; exact h.1)
  · intro pg cs right _ ihr lo hi h
    rw [WFB] at h
    obtain ⟨lo2, hr⟩ := wfbcells_right_ex cs right lo hi h
    simp only [BT.maxKey, BT.keysList]
    exact List.mem_append_right _ (ihr lo2 hi hr)

/-- The abstract maximum key bounds every key of the subtree. -/
theorem wfb_le_maxKey :
    ∀ (t : BT) (lo hi : Option Nat), WFB t lo hi →
      ∀ k ∈ t.keysList, k ≤ t.maxKey := by
  refine (bt_mutual_ind (fun t => ∀ lo hi, WFB t lo hi →
      ∀ k ∈ t.keysList, k ≤ t.maxKey)
    (fun _ => True) ?_ ?_ True.intro (fun _ _ _ _ _ => True.intro)).1
  · intro pg es lo hi h k hk
    rw [WFB] at h
    simp only [BT.keysList] at hk
    simp only [BT.maxKey]
    exact chain_lt_le_getLastD h.2.2.1 k hk
  · intro pg cs right _ ihr lo hi h k hk
    rw [WFB] at h
    obtain ⟨lo2, hr⟩ := wfbcells_right_ex cs right lo hi h
    simp only [BT.keysList, List.mem_append] at hk
    simp only [BT.maxKey]
    rcases hk with hk1 | hk2
    · exact le_of_lt (wfbcells_lt_right cs right lo hi h k hk1 right.maxKey
        (wfb_maxKey_mem right lo2 hi hr))
    · exact ihr lo2 hi hr k hk2

/-- `get_node_max_key` on a represented well-formed subtree returns the
abstract maximum key and leaves every page view unchanged. -/
theorem get_node_max_key_spec :
    ∀ (t : BT) (lo hi : Option Nat) (s : Pager) (fuel : Nat),
      Represents s t → WFB t lo hi → t.rightDepth < fuel →
      ∃ s2, get_node_max_key fuel s (pageView s t.pg) = .ok (t.maxKey, s2) ∧
        ViewEq s2 s := by
  refine (bt_mutual_ind
    (fun t => ∀ lo hi s fuel, Represents s t → WFB t lo hi →
      t.rightDepth < fuel →
      ∃ s2, get_node_max_key fuel s (pageView s t.pg) = .ok (t.maxKey, s2) ∧
        ViewEq s2 s)
    (fun _ => True) ?_ ?_ True.intro (fun _ _ _ _ _ => True.intro)).1
  · intro pg es lo hi s fuel hrep hwf hfuel
    cases fuel with
    | zero => simp [BT.rightDepth] at hfuel
    | succ fuel =>
        refine ⟨s, ?_, fun i => rfl⟩
        rw [Represents] at hrep
        rw [WFB] at hwf
        obtain ⟨hpg, L, hview, hnum, hcells⟩ := hrep
        simp only [BT.pg]
        rw [hview]
        simp only [get_node_max_key, leaf_node_key]
        have h1 : 1 ≤ es.length := List.length_pos.mpr hwf.1
        have h2 : es.length < U32_MOD := by
          have h13 := hwf.2.1
          have hmax : LEAF_NODE_MAX_CELLS = 13 := by decide
          have hu : U32_MOD = 4294967296 := by norm_num [U32_MOD]
          omega
        rw [hnum, u32sub_one h1 h2, hcells (es.length - 1) (by omega)]
        simp only [BT.maxKey]
        rw [map_fst_getLastD es hwf.1]
  · intro pg cs right ihcs ihr lo hi s fuel hrep hwf hfuel
    cases fuel with
    | zero => simp [BT.rightDepth] at hfuel
    | succ fuel =>
        rw [Represents] at hrep
        rw [WFB] at hwf
        obtain ⟨hpg, D, hview, hnum, hcells, hrc, hrcs, hrright⟩ := hrep
        obtain ⟨lo2, hwfr⟩ := wfbcells_right_ex cs right lo hi hwf
        simp only [BT.pg]
        rw [hview]
        simp only [get_node_max_key]
        have hrpg : internal_node_right_child (.internal D) = right.pg := hrc
        have hlt : right.pg < TABLE_MAX_PAGES := Represents.pg_lt hrright
        obtain ⟨s1, hgp, _, hv1, _, _, _⟩ := get_page_spec (p := s) (i := right.pg) hlt
        have hrep1 : Represents s1 right := Represents_viewEq right s s1 hv1 hrright
        have hfuel1 : right.rightDepth < fuel := by
          simp only [BT.rightDepth] at hfuel
          omega
        obtain ⟨s2, hrec, hv2⟩ := ihr lo2 hi s1 fuel hrep1 hwfr hfuel1
        refine ⟨s2, ?_, fun i => (hv2 i).trans (hv1 i)⟩
        rw [hrpg, hgp, ok_bind]
        dsimp only
        rw [← hv1 right.pg, hrec]
        simp only [BT.maxKey]

/-- A concrete two-leaf tree used as the witness state: page 0 is the
internal root (separator 3, left child page 2, right child page 1), page 2
the left leaf with keys 1 and 3, page 1 the right leaf with keys 5 and 9. -/
def demoLeafL : LeafData :=
  ⟨false, 0, 2, 1,
    fun i => if i = 0 then (1, mkRow 1) else if i = 1 then (3, mkRow 3)
      else (0, defaultRow)⟩

def demoLeafR : LeafData :=
  ⟨false, 0, 2, 0,
    fun i => if i = 0 then (5, mkRow 5) else if i = 1 then (9, mkRow 9)
      else (0, defaultRow)⟩

def demoRoot : InternalData := ⟨true, 0, 1, 1, fun _ => (2, 3)⟩

def demoPager : Pager :=
  ⟨[],
    fun i =>
      if i = 0 then some (.internal demoRoot)
      else if i = 1 then some (.leaf demoLeafR)
      else if i = 2 then some (.leaf demoLeafL)
      else none,
    3⟩

def demoTree : BT :=
  .nd 0 (.cons (.lf 2 [(1, mkRow 1), (3, mkRow 3)]) 3 .nil)
    (.lf 1 [(5, mkRow 5), (9, mkRow 9)])

theorem demoPager_represents : Represents demoPager demoTree := by
  unfold demoTree
  rw [Represents]
  refine ⟨by decide, demoRoot, rfl, rfl, ?_, rfl, ?_, ?_⟩
  · intro i hi
    simp only [BTCells.length] at hi
    interval_cases i
    rfl
  · rw [RepresentsCells]
    refine ⟨?_, by rw [RepresentsCells]; trivial⟩
    rw [Represents]
    refine ⟨by decide, demoLeafL, rfl, rfl, ?_⟩
    intro i hi
    simp only [List.length_cons, List.length_nil] at hi
    interval_cases i <;> rfl
  · rw [Represents]
    refine ⟨by decide, demoLeafR, rfl, rfl, ?_⟩
    intro i hi
    simp only [List.length_cons, List.length_nil] at hi
    interval_cases i <;> rfl

theorem demoTree_wfb : WFB demoTree none none := by
  unfold demoTree
  rw [WFB, WFBCells, WFBCells]
  constructor
  · rw [WFB]
    refine ⟨by decide, by decide, by simp [List.chain'_cons], ?_⟩
    simp only [loLt, leHi, List.map_cons, List.map_nil]
    decide
  · rw [WFB]
    refine ⟨by decide, by decide, by simp [List.chain'_cons], ?_⟩
    simp only [loLt, leHi, List.map_cons, List.map_nil]
    decide

/-- C7: for every well-formed subtree represented in the page store,
`get_node_max_key` returns the maximum key stored in any leaf cell of the
subtree — a key of the subtree that bounds every key of the subtree; for a
leaf node it equals `leaf_key(num_cells - 1)`, and for an internal node it
is computed recursively through the chain of right children (the conclusion
is the abstract right-spine maximum, and the run leaves every page view
unchanged). -/
theorem c7_get_node_max_key_is_subtree_max
    (s : Pager) (t : BT) (lo hi : Option Nat) (fuel : Nat)
    (hrep : Represents s t) (hwf : WFB t lo hi) (hfuel : t.rightDepth < fuel) :
    ∃ s2, get_node_max_key fuel s (pageView s t.pg) = .ok (t.maxKey, s2) ∧
      ViewEq s2 s ∧ t.maxKey ∈ t.keysList ∧
      (∀ k ∈ t.keysList, k ≤ t.maxKey) ∧
      (∀ pg es, t = .lf pg es → t.maxKey =
        leaf_node_key (pageView s pg)
          (u32sub (leaf_node_num_cells (pageView s pg)) 1)) := by
  obtain ⟨s2, hrun, hv⟩ := get_node_max_key_spec t lo hi s fuel hrep hwf hfuel
  refine ⟨s2, hrun, hv, wfb_maxKey_mem t lo hi hwf, wfb_le_maxKey t lo hi hwf, ?_⟩
  intro pg es ht
  subst ht
  rw [Represents] at hrep
  rw [WFB] at hwf
  obtain ⟨hpg, L, hview, hnum, hcells⟩ := hrep
  rw [hview]
  simp only [leaf_node_key, leaf_node_num_cells, BT.maxKey]
  have h1 : 1 ≤ es.length := List.length_pos.mpr hwf.1
  have h2 : es.length < U32_MOD := by
    have h13 := hwf.2.1
    have hmax : LEAF_NODE_MAX_CELLS = 13 := by decide
    have hu : U32_MOD = 4294967296 := by norm_num [U32_MOD]
    omega
  rw [hnum, u32sub_one h1 h2, hcells (es.length - 1) (by omega),
    map_fst_getLastD es hwf.1]

/-- Witness for C7 at the concrete two-leaf tree `demoTree`: the computed
maximum is 9, the last key of the rightmost leaf. -/
theorem c7_get_node_max_key_is_subtree_max_witness :
    (∃ s2, get_node_max_key 3 demoPager (pageView demoPager demoTree.pg)
        = .ok (demoTree.maxKey, s2) ∧
      ViewEq s2 demoPager ∧ demoTree.maxKey ∈ demoTree.keysList ∧
      (∀ k ∈ demoTree.keysList, k ≤ demoTree.maxKey) ∧
      (∀ pg es, demoTree = .lf pg es → demoTree.maxKey =
        leaf_node_key (pageView demoPager pg)
          (u32sub (leaf_node_num_cells (pageView demoPager pg)) 1))) ∧
    demoTree.maxKey = 9 :=
  ⟨c7_get_node_max_key_is_subtree_max demoPager demoTree none none 3
    demoPager_represents demoTree_wfb (by decide), rfl⟩

/-- The leaf binary search computes the least lower-bound index: starting
from a window `[low, high]` whose outside is already classified, it returns
the smallest index whose key is `≥ k` (or `high` when none is), provided
the keys below `N` are strictly increasing. -/
theorem leaf_find_go_spec (n : Node) (k N : Nat)
    (hmono : ∀ i j, i < j → j < N → leaf_node_key n i < leaf_node_key n j) :
    ∀ (gap low high : Nat), high - low ≤ gap → low ≤ high → high ≤ N →
      (∀ j, j < low → leaf_node_key n j < k) →
      (∀ j, high ≤ j → j < N → k ≤ leaf_node_key n j) →
      low ≤ leaf_find_go n k gap low high ∧
      leaf_find_go n k gap low high ≤ high ∧
      (∀ j, j < leaf_find_go n k gap low high → leaf_node_key n j < k) ∧
      (leaf_find_go n k gap low high < N →
        k ≤ leaf_node_key n (leaf_find_go n k gap low high)) := by
  intro gap
  induction gap with
  | zero =>
      intro low high hgap hlh hhN hlow hhigh
      simp only [leaf_find_go]
      exact ⟨le_refl low, hlh, hlow, fun hlN => hhigh low (by omega) hlN⟩
  | succ gap ih =>
      intro low high hgap hlh hhN hlow hhigh
      by_cases h1 : low = high
      · simp only [leaf_find_go, if_pos h1]
        exact ⟨le_refl low, hlh, hlow, fun hlN => hhigh low (by omega) hlN⟩
      · have h2 : ¬ high < low := by omega
        simp only [leaf_find_go, if_neg h1, if_neg h2]
        have hlow_lt : low < high := by omega
        have hd : (high - low) / 2 < high - low := Nat.div_lt_self (by omega) (by omega)
        have hml : low ≤ low + (high - low) / 2 := Nat.le_add_right _ _
        have hmh : low + (high - low) / 2 < high := by omega
        by_cases h3 : k = leaf_node_key n (low + (high - low) / 2)
        · rw [if_pos h3]
          refine ⟨hml, by omega, ?_, fun _ => le_of_eq h3⟩
          intro j hj
          by_cases hjl : j < low
          · exact hlow j hjl
          · have := hmono j (low + (high - low) / 2) (by omega) (by omega)
            omega
        · rw [if_neg h3]
          by_cases h4 : k > leaf_node_key n (low + (high - low) / 2)
          · rw [if_pos h4]
            have hnew : ∀ j, j < low + (high - low) / 2 + 1 → leaf_node_key n j < k := by
              intro j hj
              by_cases hjl : j < low
              · exact hlow j hjl
              · by_cases hjm : j = low + (high - low) / 2
                · rw [hjm]
                  omega
                · have := hmono j (low + (high - low) / 2) (by omega) (by omega)
                  omega
            obtain ⟨ha, hb, hc, hdd⟩ := ih (low + (high - low) / 2 + 1) high
              (by omega) (by omega) hhN hnew hhigh
            exact ⟨by omega, hb, hc, hdd⟩
          · rw [if_neg h4]
            have hknew : ∀ j, low + (high - low) / 2 ≤ j → j < N →
                k ≤ leaf_node_key n j := by
              intro j hjm hjN
              by_cases hje : j = low + (high - low) / 2
              · rw [hje]
                omega
              · have := hmono (low + (high - low) / 2) j (by omega) hjN
                omega
            obtain ⟨ha, hb, hc, hdd⟩ := ih low (low + (high - low) / 2)
              (by omega) (by omega) (by omega) hlow hknew
            exact ⟨ha, by omega, hc, hdd⟩

/-- The internal binary search (`mid = (max + min) / 2`) computes the same
least lower-bound index over the separator keys. -/
theorem internal_find_child_go_spec (n : Node) (k N : Nat)
    (hmono : ∀ i j, i < j → j < N → internal_node_key n i < internal_node_key n j) :
    ∀ (gap mn mx : Nat), mx - mn ≤ gap → mn ≤ mx → mx ≤ N →
      (∀ j, j < mn → internal_node_key n j < k) →
      (∀ j, mx ≤ j → j < N → k ≤ internal_node_key n j) →
      mn ≤ internal_find_child_go n k gap mn mx ∧
      internal_find_child_go n k gap mn mx ≤ mx ∧
      (∀ j, j < internal_find_child_go n k gap mn mx → internal_node_key n j < k) ∧
      (internal_find_child_go n k gap mn mx < N →
        k ≤ internal_node_key n (internal_find_child_go n k gap mn mx)) := by
  intro gap
  induction gap with
  | zero =>
      intro mn mx hgap hlh hhN hlow hhigh
      simp only [internal_find_child_go]
      exact ⟨le_refl mn, hlh, hlow, fun hlN => hhigh mn (by omega) hlN⟩
  | succ gap ih =>
      intro mn mx hgap hlh hhN hlow hhigh
      by_cases h1 : mn = mx
      · simp only [internal_find_child_go, if_pos h1]
        exact ⟨le_refl mn, hlh, hlow, fun hlN => hhigh mn (by omega) hlN⟩
      · have h2 : ¬ mx < mn := by omega
        simp only [internal_find_child_go, if_neg h1, if_neg h2]
        have hlow_lt : mn < mx := by omega
        have hml : mn ≤ (mx + mn) / 2 := by
          rw [Nat.le_div_iff_mul_le (by omega)]
          omega
        have hmh : (mx + mn) / 2 < mx := by
          rw [Nat.div_lt_iff_lt_mul (by omega)]
          omega
        by_cases h3 : internal_node_key n ((mx + mn) / 2) = k
        · rw [if_pos h3]
          refine ⟨hml, by omega, ?_, fun _ => le_of_eq h3.symm⟩
          intro j hj
          by_cases hjl : j < mn
          · exact hlow j hjl
          · have := hmono j ((mx + mn) / 2) (by omega) (by omega)
            omega
        · rw [if_neg h3]
          by_cases h4 : k > internal_node_key n ((mx + mn) / 2)
          · rw [if_pos h4]
            have hnew : ∀ j, j < (mx + mn) / 2 + 1 → internal_node_key n j < k := by
              intro j hj
              by_cases hjl : j < mn
              · exact hlow j hjl
              · by_cases hjm : j = (mx + mn) / 2
                · rw [hjm]
                  omega
                · have := hmono j ((mx + mn) / 2) (by omega) (by omega)
                  omega
            obtain ⟨ha, hb, hc, hdd⟩ := ih ((mx + mn) / 2 + 1) mx
              (by omega) (by omega) hhN hnew hhigh
            exact ⟨by omega, hb, hc, hdd⟩
          · rw [if_neg h4]
            have hknew : ∀ j, (mx + mn) / 2 ≤ j → j < N →
                k ≤ internal_node_key n j := by
              intro j hjm hjN
              by_cases hje : j = (mx + mn) / 2
              · rw [hje]
                omega
              · have := hmono ((mx + mn) / 2) j (by omega) hjN
                omega
            obtain ⟨ha, hb, hc, hdd⟩ := ih mn ((mx + mn) / 2)
              (by omega) (by omega) (by omega) hlow hknew
            exact ⟨ha, by omega, hc, hdd⟩

/-- Membership of a child subtree in a cells list. -/
def BTCells.memb : BTCells → BT → Prop
  | .nil, _ => False
  | .cons c _ rest, x => x = c ∨ rest.memb x

/-- The i-th child subtree of a cells list. -/
def BTCells.childAt : BTCells → Nat → Option BT
  | .nil, _ => none
  | .cons c _ _, 0 => some c
  | .cons _ _ rest, i + 1 => rest.childAt i

mutual
/-- The leaf the find path of spec section 4.3 descends to for key `k`: at
an internal node, the child before the first separator that is `≥ k`, else
the right child.  (Spec-side definition used to state descent
correctness.) -/
def BT.specLeaf : BT → Nat → Nat × List (Nat × Row)
  | .lf pg es, _ => (pg, es)
  | .nd _ cs right, k => BTCells.specLeaf cs right k
termination_by t _ => sizeOf t
decreasing_by all_goals (simp_wf; try omega)

def BTCells.specLeaf : BTCells → BT → Nat → Nat × List (Nat × Row)
  | .nil, right, k => right.specLeaf k
  | .cons c sep rest, right, k =>
      if k ≤ sep then c.specLeaf k else BTCells.specLeaf rest right k
termination_by cs right _ => sizeOf cs + sizeOf right
decreasing_by all_goals (simp_wf; try omega)
end

theorem childAt_isSome :
    ∀ (cs : BTCells) (i : Nat), i < cs.length → ∃ c, cs.childAt i = some c := by
  refine btcells_ind (fun cs => ∀ i, i < cs.length → ∃ c, cs.childAt i = some c) ?_ ?_
  · intro i hi
    simp [BTCells.length] at hi
  · intro c sep rest ih i hi
    cases i with
    | zero => exact ⟨c, rfl⟩
    | succ i =>
        simp only [BTCells.length] at hi
        exact ih i (by omega)

theorem childAt_memb :
    ∀ (cs : BTCells) (i : Nat) (c : BT), cs.childAt i = some c → cs.memb c := by
  refine btcells_ind (fun cs => ∀ i c, cs.childAt i = some c → cs.memb c) ?_ ?_
  · intro i c h
    exact Option.noConfusion h
  · intro c sep rest ih i c2 h
    cases i with
    | zero =>
        injection h with h
        exact Or.inl h.symm
    | succ i => exact Or.inr (ih i c2 h)

theorem childAt_pgAt :
    ∀ (cs : BTCells) (i : Nat) (c : BT), cs.childAt i = some c → cs.pgAt i = c.pg := by
  refine btcells_ind (fun cs => ∀ i c, cs.childAt i = some c → cs.pgAt i = c.pg) ?_ ?_
  · intro i c h
    exact Option.noConfusion h
  · intro c sep rest ih i c2 h
    cases i with
    | zero =>
        injection h with h
        subst h
        rfl
    | succ i => exact ih i c2 h

theorem repcells_memb :
    ∀ (cs : BTCells) (s : Pager) (c : BT),
      RepresentsCells s cs → cs.memb c → Represents s c := by
  refine btcells_ind
    (fun cs => ∀ s c, RepresentsCells s cs → cs.memb c → Represents s c) ?_ ?_
  · intro s c _ hm
    simp [BTCells.memb] at hm
  · intro c sep rest ih s c2 hr hm
    rw [RepresentsCells] at hr
    simp only [BTCells.memb] at hm
    rcases hm with he | hm2
    · rw [he]
      exact hr.1
    · exact ih s c2 hr.2 hm2

theorem wfbcells_memb_wfb :
    ∀ (cs : BTCells) (right : BT) (lo hi : Option Nat) (c : BT),
      WFBCells cs right lo hi → cs.memb c → ∃ lo2 hi2, WFB c lo2 hi2 := by
  refine btcells_ind (fun cs => ∀ right lo hi c, WFBCells cs right lo hi →
      cs.memb c → ∃ lo2 hi2, WFB c lo2 hi2) ?_ ?_
  · intro right lo hi c _ hm
    simp [BTCells.memb] at hm
  · intro c sep rest ih right lo hi c2 h hm
    rw [WFBCells] at h
    simp only [BTCells.memb] at hm
    rcases hm with he | hm2
    · rw [he]
      exact ⟨lo, some sep, h.1⟩
    · exact ih right (some sep) hi c2 h.2 hm2

theorem memb_heightAll_le :
    ∀ (cs : BTCells) (c : BT), cs.memb c → c.heightAll ≤ cs.heightAll := by
  refine btcells_ind (fun cs => ∀ c, cs.memb c → c.heightAll ≤ cs.heightAll) ?_ ?_
  · intro c hm
    simp [BTCells.memb] at hm
  · intro c sep rest ih c2 hm
    simp only [BTCells.memb] at hm
    simp only [BTCells.heightAll]
    rcases hm with he | hm2
    · rw [he]
      exact Nat.le_max_left _ _
    · exact le_trans (ih c2 hm2) (Nat.le_max_right _ _)

/-- Every key of the cells part and of the right subtree lies strictly
above the lower bound. -/
theorem wfbcells_lo :
    ∀ (cs : BTCells) (right : BT) (lo hi : Option Nat),
      WFBCells cs right lo hi →
      ∀ k ∈ cs.keysList ++ right.keysList, loLt lo k := by
  refine btcells_ind (fun cs => ∀ right lo hi, WFBCells cs right lo hi →
      ∀ k ∈ cs.keysList ++ right.keysList, loLt lo k) ?_ ?_
  · intro right lo hi h k hk
    rw [WFBCells] at h
    simp only [BTCells.keysList, List.nil_append] at hk
    exact (wfb_bounds right lo hi h k hk).1
  · intro c sep rest ih right lo hi h k hk
    rw [WFBCells] at h
    simp only [BTCells.keysList, List.append_assoc, List.mem_append] at hk
    rcases hk with hk1 | hk2
    · exact (wfb_bounds c lo (some sep) h.1 k hk1).1
    · have hsep := ih right (some sep) hi h.2 k (List.mem_append.mpr hk2)
      cases lo with
      | none => simp [loLt]
      | some l =>
          obtain ⟨kc, hkcmem⟩ :=
            List.exists_mem_of_ne_nil _ (wfb_keys_ne c (some l) (some sep) h.1)
          obtain ⟨hlc, hhc⟩ := wfb_bounds c (some l) (some sep) h.1 kc hkcmem
          simp only [loLt] at hlc hsep ⊢
          simp only [leHi] at hhc
          omega

/-- Every separator lies strictly above the lower bound. -/
theorem wfbcells_sep_lo :
    ∀ (cs : BTCells) (right : BT) (lo hi : Option Nat),
      WFBCells cs right lo hi → ∀ j, j < cs.length → loLt lo (cs.sepAt j) := by
  refine btcells_ind (fun cs => ∀ right lo hi, WFBCells cs right lo hi →
      ∀ j, j < cs.length → loLt lo (cs.sepAt j)) ?_ ?_
  · intro right lo hi h j hj
    simp [BTCells.length] at hj
  · intro c sep rest ih right lo hi h j hj
    rw [WFBCells] at h
    cases j with
    | zero =>
        obtain ⟨kc, hkcmem⟩ :=
          List.exists_mem_of_ne_nil _ (wfb_keys_ne c lo (some sep) h.1)
        obtain ⟨hlc, hhc⟩ := wfb_bounds c lo (some sep) h.1 kc hkcmem
        simp only [BTCells.sepAt]
        cases lo with
        | none => simp [loLt]
        | some l =>
            simp only [loLt] at hlc ⊢
            simp only [leHi] at hhc
            omega
    | succ j =>
        simp only [BTCells.length] at hj
        have hs := ih right (some sep) hi h.2 j (by omega)
        simp only [BTCells.sepAt]
        cases lo with
        | none => simp [loLt]
        | some l =>
            obtain ⟨kc, hkcmem⟩ :=
              List.exists_mem_of_ne_nil _ (wfb_keys_ne c (some l) (some sep) h.1)
            obtain ⟨hlc, hhc⟩ := wfb_bounds c (some l) (some sep) h.1 kc hkcmem
            simp only [loLt] at hlc hs ⊢
            simp only [leHi] at hhc
            omega

/-- The separators of a well-formed cells list are strictly increasing. -/
theorem wfbcells_sepAt_mono :
    ∀ (cs : BTCells) (right : BT) (lo hi : Option Nat),
      WFBCells cs right lo hi →
      ∀ i j, i < j → j < cs.length → cs.sepAt i < cs.sepAt j := by
  refine btcells_ind (fun cs => ∀ right lo hi, WFBCells cs right lo hi →
      ∀ i j, i < j → j < cs.length → cs.sepAt i < cs.sepAt j) ?_ ?_
  · intro right lo hi h i j hij hj
    simp [BTCells.length] at hj
  · intro c sep rest ih right lo hi h i j hij hj
    rw [WFBCells] at h
    simp only [BTCells.length] at hj
    cases i with
    | zero =>
        cases j with
        | zero => omega
        | succ j =>
            simp only [BTCells.sepAt]
            have := wfbcells_sep_lo rest right (some sep) hi h.2 j (by omega)
            simpa only [loLt] using this
    | succ i =>
        cases j with
        | zero => omega
        | succ j =>
            simp only [BTCells.sepAt]
            exact ih right (some sep) hi h.2 i j (by omega) (by omega)

/-- A least lower-bound index over the separators steers `specLeaf` to the
corresponding child (or, past the last separator, the right child). -/
theorem specLeaf_at_index :
    ∀ (cs : BTCells) (right : BT) (k i : Nat),
      i ≤ cs.length →
      (∀ j, j < i → cs.sepAt j < k) →
      (i < cs.length → k ≤ cs.sepAt i) →
      (i = cs.length → BTCells.specLeaf cs right k = right.specLeaf k) ∧
      (∀ c, cs.childAt i = some c →
        BTCells.specLeaf cs right k = c.specLeaf k) := by
  refine btcells_ind (fun cs => ∀ right k i, i ≤ cs.length →
      (∀ j, j < i → cs.sepAt j < k) → (i < cs.length → k ≤ cs.sepAt i) →
      (i = cs.length → BTCells.specLeaf cs right k = right.specLeaf k) ∧
      (∀ c, cs.childAt i = some c →
        BTCells.specLeaf cs right k = c.specLeaf k)) ?_ ?_
  · intro right k i hle hlt hge
    refine ⟨fun _ => ?_, fun c hc => Option.noConfusion hc⟩
    rw [BTCells.specLeaf]
  · intro c sep rest ih right k i hle hlt hge
    simp only [BTCells.length] at hle
    cases i with
    | zero =>
        have hks : k ≤ sep := by
          have := hge (by simp only [BTCells.length]; omega)
          simpa only [BTCells.sepAt] using this
        constructor
        · intro h0
          simp only [BTCells.length] at h0
          omega
        · intro c2 hc2
          injection hc2 with hc2
          subst hc2
          rw [BTCells.specLeaf, if_pos hks]
    | succ i =>
        have hs0 : sep < k := by
          have := hlt 0 (by omega)
          simpa only [BTCells.sepAt] using this
        have hrec := ih right k i (by omega)
          (fun j hj => by
            have := hlt (j + 1) (by omega)
            simpa only [BTCells.sepAt] using this)
          (fun hilen => by
            have := hge (by simp only [BTCells.length]; omega)
            simpa only [BTCells.sepAt] using this)
        constructor
        · intro hilen
          simp only [BTCells.length] at hilen
          rw [BTCells.specLeaf, if_neg (by omega)]
          exact hrec.1 (by omega)
        · intro c2 hc2
          rw [BTCells.specLeaf, if_neg (by omega)]
          exact hrec.2 c2 hc2

/-- A key present in the subtree is present in the leaf `specLeaf` selects
for it. -/
theorem specLeaf_mem :
    ∀ (t : BT) (lo hi : Option Nat) (k : Nat), WFB t lo hi →
      k ∈ t.keysList → k ∈ (t.specLeaf k).2.map Prod.fst := by
  refine (bt_mutual_ind
    (fun t => ∀ lo hi k, WFB t lo hi → k ∈ t.keysList →
      k ∈ (t.specLeaf k).2.map Prod.fst)
    (fun cs => ∀ right : BT,
      (∀ lo hi k, WFB right lo hi → k ∈ right.keysList →
        k ∈ (right.specLeaf k).2.map Prod.fst) →
      ∀ lo hi k, WFBCells cs right lo hi →
        k ∈ cs.keysList ++ right.keysList →
        k ∈ (BTCells.specLeaf cs right k).2.map Prod.fst) ?_ ?_ ?_ ?_).1
  · intro pg es lo hi k _ hk
    rw [BT.specLeaf]
    simpa [BT.keysList] using hk
  · intro pg cs right ihcs ihr lo hi k hwf hk
    rw [WFB] at hwf
    rw [BT.specLeaf]
    exact ihcs right ihr lo hi k hwf (by simpa [BT.keysList] using hk)
  · intro right ihr lo hi k h hk
    rw [WFBCells] at h
    rw [BTCells.specLeaf]
    exact ihr lo hi k h (by simpa [BTCells.keysList] using hk)
  · intro c sep rest ihc ihrest right ihr lo hi k h hk
    rw [WFBCells] at h
    simp only [BTCells.keysList, List.append_assoc, List.mem_append] at hk
    rcases hk with hk1 | hk2
    · have hks : k ≤ sep := by
        have := (wfb_bounds c lo (some sep) h.1 k hk1).2
        simpa only [leHi] using this
      rw [BTCells.specLeaf, if_pos hks]
      exact ihc lo (some sep) k h.1 hk1
    · have hgt : sep < k := by
        have := wfbcells_lo rest right (some sep) hi h.2 k (List.mem_append.mpr hk2)
        simpa only [loLt] using this
      rw [BTCells.specLeaf, if_neg (by omega)]
      exact ihrest right ihr (some sep) hi k h.2 (List.mem_append.mpr hk2)

/-- The leaf `specLeaf` selects is itself well formed: nonempty, within
capacity, strictly sorted. -/
theorem specLeaf_wfb :
    ∀ (t : BT) (lo hi : Option Nat) (k : Nat), WFB t lo hi →
      (t.specLeaf k).2 ≠ [] ∧ (t.specLeaf k).2.length ≤ LEAF_NODE_MAX_CELLS ∧
      List.Chain' (· < ·) ((t.specLeaf k).2.map Prod.fst) := by
  refine (bt_mutual_ind
    (fun t => ∀ lo hi k, WFB t lo hi →
      (t.specLeaf k).2 ≠ [] ∧ (t.specLeaf k).2.length ≤ LEAF_NODE_MAX_CELLS ∧
      List.Chain' (· < ·) ((t.specLeaf k).2.map Prod.fst))
    (fun cs => ∀ right : BT,
      (∀ lo hi k, WFB right lo hi →
        (right.specLeaf k).2 ≠ [] ∧
        (right.specLeaf k).2.length ≤ LEAF_NODE_MAX_CELLS ∧
        List.Chain' (· < ·) ((right.specLeaf k).2.map Prod.fst)) →
      ∀ lo hi k, WFBCells cs right lo hi →
        (BTCells.specLeaf cs right k).2 ≠ [] ∧
        (BTCells.specLeaf cs right k).2.length ≤ LEAF_NODE_MAX_CELLS ∧
        List.Chain' (· < ·) ((BTCells.specLeaf cs right k).2.map Prod.fst))
    ?_ ?_ ?_ ?_).1
  · intro pg es lo hi k hwf
    rw [WFB] at hwf
    rw [BT.specLeaf]
    exact ⟨hwf.1, hwf.2.1, hwf.2.2.1⟩
  · intro pg cs right ihcs ihr lo hi k hwf
    rw [WFB] at hwf
    rw [BT.specLeaf]
    exact ihcs right ihr lo hi k hwf
  · intro right ihr lo hi k h
    rw [WFBCells] at h
    rw [BTCells.specLeaf]
    exact ihr lo hi k h
  · intro c sep rest ihc ihrest right ihr lo hi k h
    rw [WFBCells] at h
    rw [BTCells.specLeaf]
    by_cases hks : k ≤ sep
    · rw [if_pos hks]
      exact ihc lo (some sep) k h.1
    · rw [if_neg hks]
      exact ihrest right ihr (some sep) hi k h.2

/-- Strictly chained keys are strictly increasing under positional reads. -/
theorem chain_lt_getD_lt {l : List Nat} (h : List.Chain' (· < ·) l) :
    ∀ i j, i < j → j < l.length → l.getD i 0 < l.getD j 0 := by
  have hp := List.chain'_iff_pairwise.mp h
  intro i j hij hj
  rw [List.getD_eq_getElem l 0 (by omega), List.getD_eq_getElem l 0 hj]
  exact List.pairwise_iff_getElem.mp hp i j (by omega) hj hij

/-- Reading the key list positionally agrees with reading the entry list. -/
theorem getD_map_fst {es : List (Nat × Row)} {j : Nat} (hj : j < es.length) :
    (es.map Prod.fst).getD j 0 = (es.getD j (0, defaultRow)).1 := by
  rw [List.getD_eq_getElem _ _ (by simpa using hj), List.getD_eq_getElem _ _ hj,
    List.getElem_map]

/-- The code entry point the find path runs on a node of the given kind:
`leaf_node_find` at a leaf page, `internal_node_find` at an internal one —
exactly the dispatch `table_find` performs at the root and
`internal_node_find` performs at each child. -/
def bt_find (fuel : Nat) (tb : Table) (k : Nat) (s : Pager) : BT → Except DbErr (Cursor × Pager)
  | .lf pg _ => leaf_node_find tb pg k s
  | .nd pg _ _ => internal_node_find fuel tb pg k s

/-- Descent correctness of the find path: on a represented well-formed
subtree it reaches the leaf `specLeaf` designates, leaves the page views
unchanged, never assigns `end_of_table`, and returns the least index whose
key is `≥ k` (the leaf's cell count when every key is smaller). -/
theorem bt_find_spec :
    ∀ (t : BT) (lo hi : Option Nat) (s : Pager) (fuel : Nat) (tb : Table) (k : Nat),
      Represents s t → WFB t lo hi → t.heightAll < fuel →
      ∃ s2 i, bt_find fuel tb k s t = .ok (⟨(t.specLeaf k).1, i, none⟩, s2) ∧
        ViewEq s2 s ∧ i ≤ (t.specLeaf k).2.length ∧
        (∀ j, j < i → ((t.specLeaf k).2.getD j (0, defaultRow)).1 < k) ∧
        (i < (t.specLeaf k).2.length →
          k ≤ ((t.specLeaf k).2.getD i (0, defaultRow)).1) := by
  refine (bt_mutual_ind
    (fun t => ∀ lo hi s fuel tb k, Represents s t → WFB t lo hi →
      t.heightAll < fuel →
      ∃ s2 i, bt_find fuel tb k s t = .ok (⟨(t.specLeaf k).1, i, none⟩, s2) ∧
        ViewEq s2 s ∧ i ≤ (t.specLeaf k).2.length ∧
        (∀ j, j < i → ((t.specLeaf k).2.getD j (0, defaultRow)).1 < k) ∧
        (i < (t.specLeaf k).2.length →
          k ≤ ((t.specLeaf k).2.getD i (0, defaultRow)).1))
    (fun cs => ∀ x, cs.memb x →
      ∀ lo hi s fuel tb k, Represents s x → WFB x lo hi →
      x.heightAll < fuel →
      ∃ s2 i, bt_find fuel tb k s x = .ok (⟨(x.specLeaf k).1, i, none⟩, s2) ∧
        ViewEq s2 s ∧ i ≤ (x.specLeaf k).2.length ∧
        (∀ j, j < i → ((x.specLeaf k).2.getD j (0, defaultRow)).1 < k) ∧
        (i < (x.specLeaf k).2.length →
          k ≤ ((x.specLeaf k).2.getD i (0, defaultRow)).1))
    ?_ ?_ ?_ ?_).1
  -- leaf node
  · intro pg es lo hi s fuel tb k hrep hwf hfuel
    rw [Represents] at hrep
    rw [WFB] at hwf
    obtain ⟨hpg, L, hview, hnum, hcells⟩ := hrep
    have hsp : (BT.lf pg es).specLeaf k = (pg, es) := by rw [BT.specLeaf]
    have hkey_eq : ∀ j, j < es.length →
        leaf_node_key (pageView s pg) j = (es.getD j (0, defaultRow)).1 := by
      intro j hj
      rw [hview]
      simp only [leaf_node_key]
      rw [hcells j hj]
    have hmono : ∀ i j, i < j → j < es.length →
        leaf_node_key (pageView s pg) i < leaf_node_key (pageView s pg) j := by
      intro i j hij hj
      rw [hkey_eq i (by omega), hkey_eq j hj, ← getD_map_fst (j := i) (by omega),
        ← getD_map_fst (j := j) hj]
      exact chain_lt_getD_lt hwf.2.2.1 i j hij (by simpa using hj)
    obtain ⟨hia, hib, hic, hid⟩ := leaf_find_go_spec (pageView s pg) k es.length hmono
      (es.length - 0) 0 es.length (by omega) (by omega) (le_refl _)
      (fun j hj => absurd hj (by omega))
      (fun j hj1 hj2 => absurd hj2 (by omega))
    obtain ⟨s1, hgp, _, hv1, _, _, _⟩ := get_page_spec (p := s) (i := pg) hpg
    refine ⟨s1, leaf_find_go (pageView s pg) k (es.length - 0) 0 es.length,
      ?_, hv1, ?_, ?_, ?_⟩
    · simp only [bt_find]
      unfold leaf_node_find
      rw [hgp, ok_bind]
      dsimp only
      have hN : leaf_node_num_cells (pageView s pg) = es.length := by
        rw [hview]
        simp only [leaf_node_num_cells]
        exact hnum
      rw [hN, hsp]
      rfl
    · rw [hsp]
      exact hib
    · rw [hsp]
      intro j hj
      have := hic j hj
      rw [hkey_eq j (by omega)] at this
      exact this
    · rw [hsp]
      intro hlt
      have := hid hlt
      rw [hkey_eq _ hlt] at this
      exact this
  -- internal node
  · intro pg cs right ihcs ihr lo hi s fuel tb k hrep hwf hfuel
    cases fuel with
    | zero => simp [BT.heightAll] at hfuel
    | succ fuel =>
        rw [Represents] at hrep
        rw [WFB] at hwf
        obtain ⟨hpg, D, hview, hnum, hcells, hrc, hrcs, hrright⟩ := hrep
        have hkey_eq : ∀ j, j < cs.length →
            internal_node_key (.internal D) j = cs.sepAt j := by
          intro j hj
          simp only [internal_node_key]
          rw [hcells j hj]
        have hmono : ∀ i j, i < j → j < cs.length →
            internal_node_key (.internal D) i < internal_node_key (.internal D) j := by
          intro i j hij hj
          rw [hkey_eq i (by omega), hkey_eq j hj]
          exact wfbcells_sepAt_mono cs right lo hi hwf i j hij hj
        obtain ⟨hia, hib, hic, hid⟩ := internal_find_child_go_spec (.internal D) k
          cs.length hmono (cs.length - 0) 0 cs.length (by omega) (by omega)
          (le_refl _) (fun j hj => absurd hj (by omega))
          (fun j hj1 hj2 => absurd hj2 (by omega))
        set idx := internal_find_child_go (.internal D) k (cs.length - 0) 0 cs.length
          with hidx
        have hfc : internal_node_find_child (.internal D) k = idx := by
          simp only [internal_node_find_child, internal_find_child_loop,
            internal_node_num_keys]
          rw [hnum, ← hidx]
        have hsep_lt : ∀ j, j < idx → cs.sepAt j < k := by
          intro j hj
          have := hic j hj
          rw [hkey_eq j (by omega)] at this
          exact this
        have hsep_ge : idx < cs.length → k ≤ cs.sepAt idx := by
          intro hlt
          have := hid hlt
          rw [hkey_eq _ hlt] at this
          exact this
        have hfuel_sub : max cs.heightAll right.heightAll < fuel := by
          simp only [BT.heightAll] at hfuel
          omega
        obtain ⟨s1, hgp, _, hv1, _, _, _⟩ := get_page_spec (p := s) (i := pg) hpg
        by_cases hA : idx = cs.length
        · -- descends into the right child
          have hspec : (BT.nd pg cs right).specLeaf k = right.specLeaf k := by
            rw [BT.specLeaf]
            exact (specLeaf_at_index cs right k idx hib hsep_lt hsep_ge).1 hA
          have hacc : internal_node_left_child (.internal D) idx = .ok right.pg := by
            simp only [internal_node_left_child, internal_node_num_keys,
              internal_node_right_child]
            rw [if_neg (by omega), if_pos (by omega), hrc,
              if_neg (by
                have hinv : INVALID_PAGE_NUM = 4294967295 := by decide
                have := Represents.pg_lt hrright
                have ht100 : TABLE_MAX_PAGES = 100 := by decide
                omega)]
          have hrep_s1 : Represents s1 right := Represents_viewEq right s s1 hv1 hrright
          obtain ⟨s2, hgp2, _, hv2, _, _, _⟩ :=
            get_page_spec (p := s1) (i := right.pg) (Represents.pg_lt hrright)
          have hrep_s2 : Represents s2 right := Represents_viewEq right s1 s2 hv2 hrep_s1
          obtain ⟨lo2, hwfr⟩ := wfbcells_right_ex cs right lo hi hwf
          have hfuel_r : right.heightAll < fuel := by
            have := Nat.le_max_right cs.heightAll right.heightAll
            omega
          obtain ⟨s3, i2, heq2, hv3, hl2, hlt2, hge2⟩ :=
            ihr lo2 hi s2 fuel tb k hrep_s2 hwfr hfuel_r
          refine ⟨s3, i2, ?_, fun j => ((hv3 j).trans (hv2 j)).trans (hv1 j),
            ?_, ?_, ?_⟩
          · rw [hspec]
            simp only [bt_find]
            simp only [internal_node_find]
            rw [hgp, ok_bind]
            dsimp only
            rw [hview, hfc, hacc, ok_bind]
            try dsimp only
            rw [hgp2, ok_bind]
            dsimp only
            cases right with
            | lf pg2 es2 =>
                rw [Represents] at hrep_s1
                obtain ⟨_, L2, hview2, _, _⟩ := hrep_s1
                simp only [BT.pg] at hview2 ⊢
                rw [hview2]
                dsimp only [get_node_type]
                exact heq2
            | nd pg2 cs2 r2 =>
                rw [Represents] at hrep_s1
                obtain ⟨_, D2, hview2, _⟩ := hrep_s1
                simp only [BT.pg] at hview2 ⊢
                rw [hview2]
                dsimp only [get_node_type]
                exact heq2
          · rw [hspec]
            exact hl2
          · rw [hspec]
            exact hlt2
          · rw [hspec]
            exact hge2
        · -- descends into the idx-th cell child
          have hidx_lt : idx < cs.length := by omega
          obtain ⟨c, hchild⟩ := childAt_isSome cs idx hidx_lt
          have hcpg : cs.pgAt idx = c.pg := childAt_pgAt cs idx c hchild
          have hmemb := childAt_memb cs idx c hchild
          have hrepc : Represents s c := repcells_memb cs s c hrcs hmemb
          have hspec : (BT.nd pg cs right).specLeaf k = c.specLeaf k := by
            rw [BT.specLeaf]
            exact (specLeaf_at_index cs right k idx hib hsep_lt hsep_ge).2 c hchild
          have hacc : internal_node_left_child (.internal D) idx = .ok c.pg := by
            simp only [internal_node_left_child, internal_node_num_keys,
              internal_node_cell_child]
            rw [if_neg (by omega), if_neg (by omega), hcells idx hidx_lt]
            dsimp only
            rw [hcpg, if_neg (by
              have hinv : INVALID_PAGE_NUM = 4294967295 := by decide
              have := Represents.pg_lt hrepc
              have ht100 : TABLE_MAX_PAGES = 100 := by decide
              omega)]
          have hrep_s1 : Represents s1 c := Represents_viewEq c s s1 hv1 hrepc
          obtain ⟨s2, hgp2, _, hv2, _, _, _⟩ :=
            get_page_spec (p := s1) (i := c.pg) (Represents.pg_lt hrepc)
          have hrep_s2 : Represents s2 c := Represents_viewEq c s1 s2 hv2 hrep_s1
          obtain ⟨lo2, hi2, hwfc⟩ := wfbcells_memb_wfb cs right lo hi c hwf hmemb
          have hfuel_c : c.heightAll < fuel := by
            have := memb_heightAll_le cs c hmemb
            have := Nat.le_max_left cs.heightAll right.heightAll
            omega
          obtain ⟨s3, i2, heq2, hv3, hl2, hlt2, hge2⟩ :=
            ihcs c hmemb lo2 hi2 s2 fuel tb k hrep_s2 hwfc hfuel_c
          refine ⟨s3, i2, ?_, fun j => ((hv3 j).trans (hv2 j)).trans (hv1 j),
            ?_, ?_, ?_⟩
          · rw [hspec]
            simp only [bt_find]
            simp only [internal_node_find]
            rw [hgp, ok_bind]
            dsimp only
            rw [hview, hfc, hacc, ok_bind]
            try dsimp only
            rw [hgp2, ok_bind]
            dsimp only
            cases c with
            | lf pg2 es2 =>
                rw [Represents] at hrep_s1
                obtain ⟨_, L2, hview2, _, _⟩ := hrep_s1
                simp only [BT.pg] at hview2 ⊢
                rw [hview2]
                dsimp only [get_node_type]
                exact heq2
            | nd pg2 cs2 r2 =>
                rw [Represents] at hrep_s1
                obtain ⟨_, D2, hview2, _⟩ := hrep_s1
                simp only [BT.pg] at hview2 ⊢
                rw [hview2]
                dsimp only [get_node_type]
                exact heq2
          · rw [hspec]
            exact hl2
          · rw [hspec]
            exact hlt2
          · rw [hspec]
            exact hge2
  -- cells: membership-indexed recursion
  · intro x hm
    simp [BTCells.memb] at hm
  · intro c sep rest ihc ihrest x hm
    simp only [BTCells.memb] at hm
    rcases hm with he | hm2
    · rw [he]
      exact ihc
    · exact ihrest x hm2

/-- C4 (amended): for every key `k` and represented well-formed tree,
`table_find` descends to the leaf whose key range contains `k` (the
`specLeaf` of spec section 4.3; in particular when `k` is present in the
tree, that leaf holds it and the returned cell holds exactly key `k`), and
returns a cursor whose `cell_num` is the smallest index `i` with
`leaf_key(i) ≥ k` — equal to `num_cells` when every key in that leaf is
smaller — and whose `end_of_table` field is left unassigned (`none`), not
`(num_cells == 0)` as the original claim states. -/
theorem c4_table_find_descends_to_lower_bound
    (s : Pager) (t : BT) (lo hi : Option Nat) (fuel : Nat) (tb : Table) (k : Nat)
    (hroot : tb.root_page_num = t.pg)
    (hrep : Represents s t) (hwf : WFB t lo hi) (hfuel : t.heightAll < fuel) :
    ∃ s2 i, table_find fuel tb k s = .ok (⟨(t.specLeaf k).1, i, none⟩, s2) ∧
      ViewEq s2 s ∧
      i ≤ (t.specLeaf k).2.length ∧
      (∀ j, j < i → ((t.specLeaf k).2.getD j (0, defaultRow)).1 < k) ∧
      (i < (t.specLeaf k).2.length →
        k ≤ ((t.specLeaf k).2.getD i (0, defaultRow)).1) ∧
      (k ∈ t.keysList → i < (t.specLeaf k).2.length ∧
        ((t.specLeaf k).2.getD i (0, defaultRow)).1 = k) := by
  obtain ⟨s1, hgp, _, hv1, _, _, _⟩ :=
    get_page_spec (p := s) (i := t.pg) (Represents.pg_lt hrep)
  have hrep1 : Represents s1 t := Represents_viewEq t s s1 hv1 hrep
  obtain ⟨s2, i, heq, hv2, hle, hltp, hgep⟩ :=
    bt_find_spec t lo hi s1 fuel tb k hrep1 hwf hfuel
  refine ⟨s2, i, ?_, fun j => (hv2 j).trans (hv1 j), hle, hltp, hgep, ?_⟩
  · unfold table_find
    rw [hroot, hgp, ok_bind]
    dsimp only
    cases t with
    | lf pg es =>
        rw [Represents] at hrep
        obtain ⟨_, L, hview, _, _⟩ := hrep
        simp only [BT.pg] at hview ⊢
        rw [hview]
        dsimp only [get_node_type]
        exact heq
    | nd pg cs right =>
        rw [Represents] at hrep
        obtain ⟨_, D, hview, _⟩ := hrep
        simp only [BT.pg] at hview ⊢
        rw [hview]
        dsimp only [get_node_type]
        exact heq
  · intro hkmem
    have hchain := (specLeaf_wfb t lo hi k hwf).2.2
    have hmem := specLeaf_mem t lo hi k hwf hkmem
    obtain ⟨j0, hj0, hj0eq⟩ := List.mem_iff_getElem.mp hmem
    have hj0len : j0 < (t.specLeaf k).2.length := by simpa using hj0
    have hkey0 : ((t.specLeaf k).2.getD j0 (0, defaultRow)).1 = k := by
      rw [← getD_map_fst hj0len, List.getD_eq_getElem _ _ hj0]
      exact hj0eq
    by_cases hil : i < (t.specLeaf k).2.length
    · refine ⟨hil, ?_⟩
      have hki := hgep hil
      rcases Nat.lt_trichotomy i j0 with hlt | heqq | hgt
      · have hmono := chain_lt_getD_lt hchain i j0 hlt (by simpa using hj0len)
        rw [getD_map_fst (j := i) hil, getD_map_fst (j := j0) hj0len] at hmono
        omega
      · rw [heqq]
        exact hkey0
      · have := hltp j0 hgt
        omega
    · have hj0i : j0 < i := by omega
      have := hltp j0 hj0i
      omega

/-- Witness for the amended C4 at the concrete two-leaf tree: `find(5)`
descends past separator 3 to the right leaf, page 1, where key 5 sits at
cell 0; `end_of_table` is unset. -/
theorem c4_table_find_descends_to_lower_bound_witness :
    (∃ s2 i, table_find 3 ⟨0⟩ 5 demoPager
        = .ok (⟨(demoTree.specLeaf 5).1, i, none⟩, s2) ∧
      ViewEq s2 demoPager ∧
      i ≤ (demoTree.specLeaf 5).2.length ∧
      (∀ j, j < i → ((demoTree.specLeaf 5).2.getD j (0, defaultRow)).1 < 5) ∧
      (i < (demoTree.specLeaf 5).2.length →
        5 ≤ ((demoTree.specLeaf 5).2.getD i (0, defaultRow)).1) ∧
      (5 ∈ demoTree.keysList → i < (demoTree.specLeaf 5).2.length ∧
        ((demoTree.specLeaf 5).2.getD i (0, defaultRow)).1 = 5)) ∧
    demoTree.specLeaf 5 = (1, [(5, mkRow 5), (9, mkRow 9)]) ∧
    5 ∈ demoTree.keysList :=
  ⟨c4_table_find_descends_to_lower_bound demoPager demoTree none none 3 ⟨0⟩ 5 rfl
      demoPager_represents demoTree_wfb (by decide),
   by
    constructor
    · unfold demoTree
      rw [BT.specLeaf, BTCells.specLeaf, if_neg (by norm_num), BTCells.specLeaf,
        BT.specLeaf]
    · decide⟩

/-- The `LEAF_NODE_MAX_CELLS + 1` logical cells of a splitting leaf, read
through a total original-cell function: the original cells with the new
`(key, value)` cell inserted at position `r`. -/
def msplit (orig : Nat → Nat × Row) (r key : Nat) (value : Row) (j : Nat) : Nat × Row :=
  if j < r then orig j else if j = r then (key, value) else orig (j - 1)

/-- `msplit` over the entry list of the splitting leaf. -/
def mergedCell (es : List (Nat × Row)) (r key : Nat) (value : Row) : Nat → Nat × Row :=
  msplit (fun j => es.getD j (0, defaultRow)) r key value

/-- One iteration of the distribution loop, characterized cell-wise: the
iteration writes the merged cell `i` into the new leaf at `i - 7` when
`i ≥ 7` and into the old leaf at `i` otherwise; every other cell and every
header field is untouched. -/
theorem leaf_split_step_chars (r key : Nat) (value : Row) (od nd : LeafData) (v : Nat)
    (hv : v ≤ 13) :
    ∃ od2 nd2,
      leaf_split_step r key value (.leaf od) (.leaf nd) v = (.leaf od2, .leaf nd2) ∧
      (∀ q, od2.cells q =
        if v < 7 ∧ q = v then
          (if v = r then (key, value)
           else if v > r then od.cells (v - 1) else od.cells v)
        else od.cells q) ∧
      (∀ q, nd2.cells q =
        if 7 ≤ v ∧ q = v - 7 then
          (if v = r then (key, value)
           else if v > r then od.cells (v - 1) else od.cells v)
        else nd.cells q) ∧
      od2.num_cells = od.num_cells ∧ od2.next_leaf = od.next_leaf ∧
      od2.parent = od.parent ∧ od2.is_root = od.is_root ∧
      nd2.num_cells = nd.num_cells ∧ nd2.next_leaf = nd.next_leaf ∧
      nd2.parent = nd.parent ∧ nd2.is_root = nd.is_root := by
  have h7 : LEAF_NODE_LEFT_SPLIT_COUNT = 7 := by decide
  unfold leaf_split_step
  rw [h7]
  by_cases hvr : v = r
  · rw [if_pos hvr]
    by_cases hge : v ≥ 7
    · have hmod : v % 7 = v - 7 := by omega
      rw [if_pos hge]
      refine ⟨od, _, rfl, ?_, ?_, rfl, rfl, rfl, rfl, rfl, rfl, rfl, rfl⟩
      · intro q
        rw [if_neg (by omega)]
      · intro q
        simp only [write_leaf_key, write_leaf_value]
        rw [hmod]
        by_cases hq : q = v - 7
        · rw [if_pos hq, if_pos (And.intro hge hq), if_pos hvr, if_pos hq]
        · rw [if_neg hq, if_neg hq, if_neg (by omega)]
    · have hmod : v % 7 = v := by omega
      rw [if_neg hge]
      refine ⟨_, nd, rfl, ?_, ?_, rfl, rfl, rfl, rfl, rfl, rfl, rfl, rfl⟩
      · intro q
        simp only [write_leaf_key, write_leaf_value]
        rw [hmod]
        by_cases hq : q = v
        · rw [if_pos hq, if_pos (And.intro (by omega) hq), if_pos hvr, if_pos hq]
        · rw [if_neg hq, if_neg hq, if_neg (by omega)]
      · intro q
        rw [if_neg (by omega)]
  · rw [if_neg hvr]
    by_cases hgt : v > r
    · rw [if_pos hgt]
      by_cases hge : v ≥ 7
      · have hmod : v % 7 = v - 7 := by omega
        rw [if_pos hge]
        refine ⟨od, _, rfl, ?_, ?_, rfl, rfl, rfl, rfl, rfl, rfl, rfl, rfl⟩
        · intro q
          rw [if_neg (by omega)]
        · intro q
          simp only [write_leaf_cell]
          rw [hmod]
          by_cases hq : q = v - 7
          · rw [if_pos hq, if_pos (And.intro hge hq), if_neg hvr, if_pos hgt]
            rfl
          · rw [if_neg hq, if_neg (by omega)]
      · have hmod : v % 7 = v := by omega
        rw [if_neg hge]
        refine ⟨_, nd, rfl, ?_, ?_, rfl, rfl, rfl, rfl, rfl, rfl, rfl, rfl⟩
        · intro q
          simp only [write_leaf_cell]
          rw [hmod]
          by_cases hq : q = v
          · rw [if_pos hq, if_pos (And.intro (by omega) hq), if_neg hvr, if_pos hgt]
            rfl
          · rw [if_neg hq, if_neg (by omega)]
        · intro q
          rw [if_neg (by omega)]
    · rw [if_neg hgt]
      by_cases hge : v ≥ 7
      · have hmod : v % 7 = v - 7 := by omega
        rw [if_pos hge]
        refine ⟨od, _, rfl, ?_, ?_, rfl, rfl, rfl, rfl, rfl, rfl, rfl, rfl⟩
        · intro q
          rw [if_neg (by omega)]
        · intro q
          simp only [write_leaf_cell]
          rw [hmod]
          by_cases hq : q = v - 7
          · rw [if_pos hq, if_pos (And.intro hge hq), if_neg hvr, if_neg hgt]
            rfl
          · rw [if_neg hq, if_neg (by omega)]
      · have hmod : v % 7 = v := by omega
        rw [if_neg hge]
        refine ⟨_, nd, rfl, ?_, ?_, rfl, rfl, rfl, rfl, rfl, rfl, rfl, rfl⟩
        · intro q
          simp only [write_leaf_cell]
          rw [hmod]
          by_cases hq : q = v
          · rw [if_pos hq, if_pos (And.intro (by omega) hq), if_neg hvr, if_neg hgt]
            rfl
          · rw [if_neg hq, if_neg (by omega)]
        · intro q
          rw [if_neg (by omega)]

/-- The distribution loop, run from counter `i` with the already-processed
iterations reflected in the two nodes, distributes the merged cells: the
old leaf ends with merged cells `0..6` (cells `7..12` untouched), the new
leaf with merged cells `7..13`; header fields pass through. -/
theorem leaf_split_loop_spec (r key : Nat) (value : Row) (orig : Nat → Nat × Row)
    (hr : r ≤ 13) :
    ∀ (i : Nat), i ≤ 13 →
      ∀ (od nd : LeafData),
      (∀ q, q ≤ 12 → od.cells q =
        if q ≤ 6 ∧ i < q then msplit orig r key value q else orig q) →
      (∀ q, q ≤ 6 → i < q + 7 → nd.cells q = msplit orig r key value (q + 7)) →
      ∃ od2 nd2,
        leaf_split_loop r key value (.leaf od) (.leaf nd) i = (.leaf od2, .leaf nd2) ∧
        (∀ q, q ≤ 6 → od2.cells q = msplit orig r key value q) ∧
        (∀ q, 7 ≤ q → q ≤ 12 → od2.cells q = orig q) ∧
        (∀ q, q ≤ 6 → nd2.cells q = msplit orig r key value (q + 7)) ∧
        od2.num_cells = od.num_cells ∧ od2.next_leaf = od.next_leaf ∧
        od2.parent = od.parent ∧ od2.is_root = od.is_root ∧
        nd2.num_cells = nd.num_cells ∧ nd2.next_leaf = nd.next_leaf ∧
        nd2.parent = nd.parent ∧ nd2.is_root = nd.is_root := by
  intro i
  induction i with
  | zero =>
      intro _ od nd hodI hndI
      obtain ⟨od2, nd2, hstep, hodc, hndc, f1, f2, f3, f4, g1, g2, g3, g4⟩ :=
        leaf_split_step_chars r key value od nd 0 (by omega)
      refine ⟨od2, nd2, ?_, ?_, ?_, ?_, f1, f2, f3, f4, g1, g2, g3, g4⟩
      · simp only [leaf_split_loop]
        exact hstep
      · intro q hq
        rw [hodc q]
        by_cases hq0 : q = 0
        · rw [if_pos (And.intro (by omega) hq0), hq0]
          by_cases h0r : (0 : Nat) = r
          · rw [if_pos h0r]
            unfold msplit
            rw [if_neg (by omega), if_pos h0r]
          · rw [if_neg h0r, if_neg (by omega)]
            rw [hodI 0 (by omega), if_neg (by omega)]
            unfold msplit
            rw [if_pos (by omega)]
        · rw [if_neg (fun hcc => hq0 hcc.2)]
          rw [hodI q (by omega), if_pos (And.intro hq (by omega))]
      · intro q hq7 hq
        rw [hodc q, if_neg (by omega)]
        rw [hodI q hq, if_neg (by omega)]
      · intro q hq
        rw [hndc q, if_neg (by omega)]
        exact hndI q hq (by omega)
  | succ i ih =>
      intro hi13 od nd hodI hndI
      obtain ⟨od1, nd1, hstep, hodc, hndc, f1, f2, f3, f4, g1, g2, g3, g4⟩ :=
        leaf_split_step_chars r key value od nd (i + 1) (by omega)
      have hodI1 : ∀ q, q ≤ 12 → od1.cells q =
          if q ≤ 6 ∧ i < q then msplit orig r key value q else orig q := by
        intro q hq
        rw [hodc q]
        by_cases hw : (i + 1) < 7 ∧ q = i + 1
        · rw [if_pos hw, if_pos (And.intro (by omega) (by omega)), hw.2]
          by_cases hvr : i + 1 = r
          · rw [if_pos hvr]
            unfold msplit
            rw [if_neg (by omega), if_pos hvr]
          · by_cases hgt : i + 1 > r
            · rw [if_neg hvr, if_pos hgt, Nat.add_sub_cancel]
              rw [hodI i (by omega), if_neg (by omega)]
              unfold msplit
              rw [if_neg (by omega), if_neg (by omega), Nat.add_sub_cancel]
            · rw [if_neg hvr, if_neg hgt]
              rw [hodI (i + 1) (by omega), if_neg (by omega)]
              unfold msplit
              rw [if_pos (by omega)]
        · rw [if_neg hw, hodI q hq]
          by_cases hc : q ≤ 6 ∧ i < q
          · have hne : q ≠ i + 1 := fun he => hw (And.intro (by omega) he)
            rw [if_pos (And.intro hc.1 (by omega)), if_pos hc]
          · rw [if_neg (fun hcc => hc (And.intro hcc.1 (by omega))), if_neg hc]
      have hndI1 : ∀ q, q ≤ 6 → i < q + 7 →
          nd1.cells q = msplit orig r key value (q + 7) := by
        intro q hq hiq
        rw [hndc q]
        by_cases hw : 7 ≤ i + 1 ∧ q = i + 1 - 7
        · have hq7 : q + 7 = i + 1 := by omega
          rw [if_pos hw, hq7]
          by_cases hvr : i + 1 = r
          · rw [if_pos hvr]
            unfold msplit
            rw [if_neg (by omega), if_pos hvr]
          · by_cases hgt : i + 1 > r
            · rw [if_neg hvr, if_pos hgt, Nat.add_sub_cancel]
              rw [hodI i (by omega), if_neg (by omega)]
              unfold msplit
              rw [if_neg (by omega), if_neg (by omega), Nat.add_sub_cancel]
            · rw [if_neg hvr, if_neg hgt]
              rw [hodI (i + 1) (by omega), if_neg (by omega)]
              unfold msplit
              rw [if_pos (by omega)]
        · rw [if_neg hw]
          refine hndI q hq ?_
          by_cases he : q + 7 = i + 1
          · exact absurd (And.intro (by omega) (by omega)) hw
          · omega
      obtain ⟨od2, nd2, hloop, A1, A2, A3, B1, B2, B3, B4, C1, C2, C3, C4⟩ :=
        ih (by omega) od1 nd1 hodI1 hndI1
      refine ⟨od2, nd2, ?_, A1, A2, A3, by rw [B1, f1], by rw [B2, f2],
        by rw [B3, f3], by rw [B4, f4], by rw [C1, g1], by rw [C2, g2],
        by rw [C3, g3], by rw [C4, g4]⟩
      simp only [leaf_split_loop]
      rw [hstep]
      exact hloop

/-- The merged cells are strictly increasing in key when the original cells
are and the new key sits exactly at its insertion position. -/
theorem msplit_strict_mono (orig : Nat → Nat × Row) (r key : Nat) (value : Row)
    (hr : r ≤ 13)
    (hsort : ∀ i j, i < j → j ≤ 12 → (orig i).1 < (orig j).1)
    (hbelow : ∀ j, j < r → (orig j).1 < key)
    (habove : ∀ j, r ≤ j → j ≤ 12 → key < (orig j).1) :
    ∀ i j, i < j → j ≤ 13 →
      (msplit orig r key value i).1 < (msplit orig r key value j).1 := by
  intro i j hij hj
  unfold msplit
  by_cases hir : i < r
  · rw [if_pos hir]
    by_cases hjr : j < r
    · rw [if_pos hjr]
      exact hsort i j hij (by omega)
    · by_cases hjr2 : j = r
      · rw [if_neg hjr, if_pos hjr2]
        exact hbelow i hir
      · rw [if_neg hjr, if_neg hjr2]
        exact hsort i (j - 1) (by omega) (by omega)
  · by_cases hir2 : i = r
    · rw [if_neg hir, if_pos hir2]
      have hjr : ¬ j < r := by omega
      have hjr2 : ¬ j = r := by omega
      rw [if_neg hjr, if_neg hjr2]
      exact habove (j - 1) (by omega) (by omega)
    · rw [if_neg hir, if_neg hir2]
      have hjr : ¬ j < r := by omega
      have hjr2 : ¬ j = r := by omega
      rw [if_neg hjr, if_neg hjr2]
      exact hsort (i - 1) (j - 1) (by omega) (by omega)

/-- Projection facts for `update_internal_node_key`: it rewrites one
separator key and nothing else. -/
theorem update_key_facts (P : InternalData) (a b : Nat) :
    ∃ P1, update_internal_node_key (.internal P) a b = .internal P1 ∧
      P1.num_keys = P.num_keys ∧ P1.right_child = P.right_child ∧
      (∀ q, (P1.cells q).1 = (P.cells q).1) ∧
      P1.parent = P.parent ∧ P1.is_root = P.is_root := by
  refine ⟨_, rfl, rfl, rfl, ?_, rfl, rfl⟩
  intro q
  simp only [update_internal_node_key, write_internal_key]
  by_cases hq : q = internal_node_find_child (.internal P) a
  · rw [if_pos hq]
  · rw [if_neg hq]

theorem set_page_pages_eq (p : Pager) (i : Nat) (n : Node) :
    (set_page p i n).pages i = some n := by
  simp [set_page]

theorem set_page_pages_ne (p : Pager) (i j : Nat) (n : Node) (h : j ≠ i) :
    (set_page p i n).pages j = p.pages j := by
  simp only [set_page]
  rw [if_neg h]

/-- A populated slot inside the bound is served from the cache and leaves
the pager untouched. -/
theorem get_page_cached {q : Pager} {i : Nat} {n : Node} (hi : i < TABLE_MAX_PAGES)
    (hq : q.pages i = some n) : get_page q i = .ok (n, q) := by
  unfold get_page
  rw [if_neg (by omega), if_neg (by omega), hq]

/-- On a leaf page `get_node_max_key` needs one fuel step and no page
access. -/
theorem get_node_max_key_leaf (q : Pager) (d : LeafData) (n : Nat) :
    get_node_max_key (n + 1) q (.leaf d)
      = .ok (leaf_node_key (.leaf d) (u32sub d.num_cells 1), q) := by
  simp only [get_node_max_key]

/-- The room-in-parent branch of `internal_node_insert` when the incoming
child outranks the parent's right child (a leaf): it succeeds and writes
only the parent page. -/
theorem internal_insert_room_spec
    (f : Nat) (t : Table) (parPg cPg oldPg : Nat) (q : Pager)
    (P1 : InternalData) (C D : LeafData)
    (hParLt : parPg < TABLE_MAX_PAGES) (hcLt : cPg < TABLE_MAX_PAGES)
    (hOldLt : oldPg < TABLE_MAX_PAGES)
    (hqp : q.pages parPg = some (.internal P1))
    (hqc : q.pages cPg = some (.leaf C))
    (hqo : q.pages oldPg = some (.leaf D))
    (hno : P1.num_keys < INTERNAL_NODE_MAX_KEYS)
    (hrc : P1.right_child = oldPg)
    (hcellne : (P1.cells P1.num_keys).1 ≠ INVALID_PAGE_NUM)
    (hmaxgt : leaf_node_key (.leaf C) (u32sub C.num_cells 1) >
      leaf_node_key (.leaf D) (u32sub D.num_cells 1)) :
    ∃ q2, internal_node_insert (f + 1 + 1) t parPg cPg q = .ok q2 ∧
      ∀ j, j ≠ parPg → q2.pages j = q.pages j := by
  have hik : INTERNAL_NODE_MAX_KEYS = 3 := by decide
  have hu32 : U32_MOD = 4294967296 := by norm_num [U32_MOD]
  have h100 : TABLE_MAX_PAGES = 100 := by decide
  have hinv4 : INVALID_PAGE_NUM = 4294967295 := by decide
  have hsetk : set_internal_num_keys (.internal P1) (P1.num_keys + 1)
      = .internal { P1 with num_keys := P1.num_keys + 1 } := by
    simp only [set_internal_num_keys]
    rw [show (P1.num_keys + 1) % U32_MOD = P1.num_keys + 1 from by
      rw [hu32]; omega]
  have hwv : write_via_internal_left_child
      (.internal { P1 with num_keys := P1.num_keys + 1 }) P1.num_keys oldPg
      = .ok (write_internal_child
          (.internal { P1 with num_keys := P1.num_keys + 1 }) P1.num_keys oldPg) := by
    unfold write_via_internal_left_child
    simp only [internal_node_num_keys, internal_node_cell_child]
    rw [if_neg (by omega), if_neg (by omega), if_neg hcellne]
  simp only [internal_node_insert]
  rw [get_page_cached hParLt hqp, ok_bind]
  dsimp only
  rw [get_page_cached hcLt hqc, ok_bind]
  dsimp only
  rw [get_node_max_key_leaf, ok_bind]
  dsimp only
  simp only [internal_node_num_keys]
  rw [if_neg (by omega : ¬ P1.num_keys ≥ INTERNAL_NODE_MAX_KEYS)]
  simp only [internal_node_right_child]
  rw [hrc]
  rw [if_neg (by omega : ¬ oldPg ≥ INVALID_PAGE_NUM)]
  rw [get_page_cached hOldLt hqo, ok_bind]
  dsimp only
  rw [hsetk]
  rw [get_node_max_key_leaf, ok_bind]
  dsimp only
  rw [if_pos hmaxgt]
  rw [get_node_max_key_leaf, ok_bind]
  dsimp only
  rw [hwv, ok_bind]
  refine ⟨_, rfl, ?_⟩
  intro j hj
  rw [set_page_pages_ne _ _ _ _ hj, set_page_pages_ne _ _ _ _ hj]

/-! ## Leaf-core frame: a successful internal-node operation never changes
the leaf payload (cell count, sibling link, cell area) of any page that
existed when it started.  Internal-field stores are identity on leaf pages
(the punned bytes are separate), parent/root-flag stores do not touch the
payload, and fresh-page initialization only hits pages at or above the
entry `num_pages`. -/

/-- The leaf payload of a page: cell count, sibling pointer and cell area.
`none` on a page currently typed internal. -/
def leafCore : Node → Option (Nat × Nat × (Nat → Nat × Row))
  | .leaf d => some (d.num_cells, d.next_leaf, d.cells)
  | .internal _ => none

/-- Frame relation: below the page bound `N`, no leaf payload changes. -/
def CoreLe (N : Nat) (p p2 : Pager) : Prop :=
  ∀ j, j < N → leafCore (pageView p2 j) = leafCore (pageView p j)

/-- The root page is allocated and currently holds an internal node. -/
def RootSafe (t : Table) (p : Pager) : Prop :=
  t.root_page_num < p.num_pages ∧ leafCore (pageView p t.root_page_num) = none

theorem coreLe_refl (N : Nat) (p : Pager) : CoreLe N p p := fun _ _ => rfl

theorem CoreLe.comp {N : Nat} {p q r : Pager} (h1 : CoreLe N p q)
    (h2 : CoreLe N q r) : CoreLe N p r :=
  fun j hj => (h2 j hj).trans (h1 j hj)

theorem coreLe_mono {N M : Nat} {p q : Pager} (hNM : N ≤ M) (h : CoreLe M p q) :
    CoreLe N p q :=
  fun j hj => h j (lt_of_lt_of_le hj hNM)

theorem viewEq_coreLe {N : Nat} {p q : Pager} (h : ViewEq q p) : CoreLe N p q :=
  fun j _ => by rw [h j]

theorem coreLe_set_page {N : Nat} {p : Pager} {i : Nat} {n : Node}
    (h : leafCore n = leafCore (pageView p i)) : CoreLe N p (set_page p i n) := by
  intro j _
  rw [pageView_set_page]
  by_cases hj : j = i
  · rw [if_pos hj, hj, h]
  · rw [if_neg hj]

theorem coreLe_set_page_high {N : Nat} {p : Pager} {i : Nat} {n : Node}
    (h : N ≤ i) : CoreLe N p (set_page p i n) := by
  intro j hj
  rw [pageView_set_page, if_neg (by omega)]

theorem rootSafe_step {t : Table} {p q : Pager} (h : RootSafe t p)
    (hc : CoreLe p.num_pages p q) (hn : p.num_pages ≤ q.num_pages) : RootSafe t q :=
  ⟨lt_of_lt_of_le h.1 hn, (hc _ h.1).trans h.2⟩

theorem leafCore_set_node_parent (n : Node) (v : Nat) :
    leafCore (set_node_parent n v) = leafCore n := by cases n <;> rfl

theorem leafCore_set_node_root (n : Node) (b : Bool) :
    leafCore (set_node_root n b) = leafCore n := by cases n <;> rfl

theorem leafCore_set_internal_num_keys (n : Node) (v : Nat) :
    leafCore (set_internal_num_keys n v) = leafCore n := by cases n <;> rfl

theorem leafCore_set_internal_right_child (n : Node) (v : Nat) :
    leafCore (set_internal_right_child n v) = leafCore n := by cases n <;> rfl

theorem leafCore_write_internal_key (n : Node) (i k : Nat) :
    leafCore (write_internal_key n i k) = leafCore n := by cases n <;> rfl

theorem leafCore_write_internal_child (n : Node) (i c : Nat) :
    leafCore (write_internal_child n i c) = leafCore n := by cases n <;> rfl

theorem leafCore_write_internal_cell (n : Node) (i : Nat) (c : Nat × Nat) :
    leafCore (write_internal_cell n i c) = leafCore n := by cases n <;> rfl

theorem leafCore_update_internal_node_key (n : Node) (a b : Nat) :
    leafCore (update_internal_node_key n a b) = leafCore n :=
  leafCore_write_internal_key n _ b

theorem leafCore_internal_shift_cells (idx : Nat) :
    ∀ (k : Nat) (n : Node), leafCore (internal_shift_cells n idx k) = leafCore n := by
  intro k
  induction k with
  | zero => intro n; rfl
  | succ k ih =>
      intro n
      simp only [internal_shift_cells]
      split
      · exact (ih _).trans (leafCore_write_internal_cell _ _ _)
      · rfl

theorem write_via_core {n : Node} {c v : Nat} {n2 : Node}
    (h : write_via_internal_left_child n c v = .ok n2) : leafCore n2 = leafCore n := by
  unfold write_via_internal_left_child at h
  dsimp only at h
  split at h
  · exact absurd h (by simp)
  · split at h
    · split at h
      · exact absurd h (by simp)
      · injection h with h
        subst h
        exact leafCore_set_internal_right_child n v
    · split at h
      · exact absurd h (by simp)
      · injection h with h
        subst h
        exact leafCore_write_internal_child n c v

theorem reparent_list_core {N : Nat} {lcpn : Nat} {lc : Node} :
    ∀ (idxs : List Nat) (p p2 : Pager),
      reparent_list lcpn lc idxs p = .ok p2 → CoreLe N p p2 := by
  intro idxs
  induction idxs with
  | nil =>
      intro p p2 h
      simp only [reparent_list] at h
      injection h with h
      subst h
      exact coreLe_refl N p
  | cons i rest ih =>
      intro p p2 h
      simp only [reparent_list] at h
      obtain ⟨cpn, hcpn, h⟩ := bind_ok h
      obtain ⟨⟨ch, p1⟩, h1, h⟩ := bind_ok h
      obtain ⟨hp1, hv1, hn1, hs1, _⟩ := get_page_ok_preserves h1
      dsimp only at h
      refine ((viewEq_coreLe hv1).comp (coreLe_set_page ?_)).comp (ih _ _ h)
      rw [leafCore_set_node_parent, hv1 cpn, ← hn1]

theorem cnr_init_children_core {N : Nat} {root rc lc : Node} {rcpn lcpn : Nat}
    {p : Pager} (h1 : N ≤ rcpn) (h2 : N ≤ lcpn) :
    CoreLe N p (cnr_init_children root rc lc rcpn lcpn p).2 := by
  unfold cnr_init_children
  split
  · exact (coreLe_set_page_high h1).comp (coreLe_set_page_high h2)
  · exact coreLe_refl N p

theorem cnr_reparent_core {N : Nat} {lcpn : Nat} {lc : Node} {p p2 : Pager}
    (h : cnr_reparent lcpn lc p = .ok p2) : CoreLe N p p2 := by
  unfold cnr_reparent at h
  split at h
  · obtain ⟨p1, h1, h⟩ := bind_ok h
    obtain ⟨⟨ch, pg⟩, hg, h⟩ := bind_ok h
    obtain ⟨hpg, hvg, hng, hsg, _⟩ := get_page_ok_preserves hg
    dsimp only at h
    injection h with h
    subst h
    refine ((reparent_list_core _ _ _ h1).comp (viewEq_coreLe hvg)).comp
      (coreLe_set_page ?_)
    rw [leafCore_set_node_parent, hvg _, ← hng]
  · injection h with h
    subst h
    exact coreLe_refl N p

theorem create_new_root_core {fuel : Nat} {t : Table} {rcpn : Nat} {p p2 : Pager}
    (h : create_new_root fuel t rcpn p = .ok p2)
    (hrc : p.num_pages ≤ rcpn)
    (hroot : leafCore (pageView p t.root_page_num) = none) :
    CoreLe p.num_pages p p2 := by
  unfold create_new_root at h
  obtain ⟨⟨root, p1⟩, h1, h⟩ := bind_ok h
  obtain ⟨hp1, hv1, _, _, _⟩ := get_page_ok_preserves h1
  dsimp only at h
  obtain ⟨⟨rc, pb⟩, hb, h⟩ := bind_ok h
  obtain ⟨hpb, hvb, _, _, _⟩ := get_page_ok_preserves hb
  dsimp only at h
  obtain ⟨⟨lc, pc⟩, hc, h⟩ := bind_ok h
  obtain ⟨hpc, hvc, _, _, _⟩ := get_page_ok_preserves hc
  dsimp only at h
  have hlcpn : p.num_pages ≤ get_unused_page_num pb := (hp1.trans hpb).2.1
  have hCc : CoreLe p.num_pages p pc :=
    ((viewEq_coreLe hv1).comp (viewEq_coreLe hvb)).comp (viewEq_coreLe hvc)
  have hCe : CoreLe p.num_pages p (set_page
      (cnr_init_children root rc lc rcpn (get_unused_page_num pb) pc).2
      (get_unused_page_num pb) (set_node_root root false)) :=
    (hCc.comp (cnr_init_children_core hrc hlcpn)).comp (coreLe_set_page_high hlcpn)
  obtain ⟨pf, hf, h⟩ := bind_ok h
  have hCf : CoreLe p.num_pages p pf := hCe.comp (cnr_reparent_core hf)
  obtain ⟨rootn, hwv, h⟩ := bind_ok h
  have hcore_rootn : leafCore rootn = none := by
    rw [write_via_core hwv]
    rfl
  have hCg : CoreLe p.num_pages p (set_page pf t.root_page_num rootn) := by
    by_cases hrN : t.root_page_num < p.num_pages
    · refine hCf.comp (coreLe_set_page ?_)
      rw [hcore_rootn, hCf _ hrN, hroot]
    · exact hCf.comp (coreLe_set_page_high (by omega))
  obtain ⟨⟨mk, pg⟩, hmk, h⟩ := bind_ok h
  obtain ⟨hpg, hvg⟩ := get_node_max_key_ro _ _ _ _ _ hmk
  dsimp only at h
  have hCh : CoreLe p.num_pages p (set_page pg t.root_page_num
      (set_internal_right_child (write_internal_key rootn 0 mk) rcpn)) := by
    refine (hCg.comp (viewEq_coreLe hvg)).comp (coreLe_set_page ?_)
    rw [leafCore_set_internal_right_child, leafCore_write_internal_key,
      hvg t.root_page_num, pageView_set_page, if_pos rfl]
  obtain ⟨⟨lc3, ph1⟩, hh1, h⟩ := bind_ok h
  obtain ⟨hph1, hvh1, hnh1, _, _⟩ := get_page_ok_preserves hh1
  dsimp only at h
  have hCi : CoreLe p.num_pages p (set_page ph1 (get_unused_page_num pb)
      (set_node_parent lc3 t.root_page_num)) := by
    refine (hCh.comp (viewEq_coreLe hvh1)).comp (coreLe_set_page ?_)
    rw [leafCore_set_node_parent, hvh1 _, ← hnh1]
  obtain ⟨⟨rc3, ph2⟩, hh2, h⟩ := bind_ok h
  obtain ⟨hph2, hvh2, hnh2, _, _⟩ := get_page_ok_preserves hh2
  dsimp only at h
  injection h with h
  subst h
  refine (hCi.comp (viewEq_coreLe hvh2)).comp (coreLe_set_page ?_)
  rw [leafCore_set_node_parent, hvh2 _, ← hnh2]

theorem ins_split_setup_core {fuel : Nat} {t : Table} {onode : Node}
    {opg npg : Nat} {rs : Bool} {p : Pager} {res : Nat × Nat × Node × Pager}
    (h : ins_split_setup fuel t onode opg npg rs p = .ok res)
    (hnp : p.num_pages ≤ npg)
    (hroot : leafCore (pageView p t.root_page_num) = none) :
    CoreLe p.num_pages p res.2.2.2 := by
  unfold ins_split_setup at h
  split at h
  · obtain ⟨p1, h1, h⟩ := bind_ok h
    have hc := create_new_root_core h1 hnp hroot
    obtain ⟨⟨par, p2⟩, h2, h⟩ := bind_ok h
    obtain ⟨_, hv2, _, _, _⟩ := get_page_ok_preserves h2
    dsimp only at h
    obtain ⟨opg2, h3, h⟩ := bind_ok h
    obtain ⟨⟨onode2, p3⟩, h4, h⟩ := bind_ok h
    obtain ⟨_, hv3, _, _, _⟩ := get_page_ok_preserves h4
    dsimp only at h
    injection h with h
    subst h
    exact (hc.comp (viewEq_coreLe hv2)).comp (viewEq_coreLe hv3)
  · obtain ⟨⟨par, p1⟩, h1, h⟩ := bind_ok h
    obtain ⟨_, hv1, _, _, _⟩ := get_page_ok_preserves h1
    dsimp only at h
    obtain ⟨⟨nn, p2⟩, h2, h⟩ := bind_ok h
    obtain ⟨_, hv2, _, _, _⟩ := get_page_ok_preserves h2
    dsimp only at h
    injection h with h
    subst h
    exact ((viewEq_coreLe hv1).comp (viewEq_coreLe hv2)).comp
      (coreLe_set_page_high hnp)

/-- Every successful run of the mutual internal-node operations preserves
the leaf payload of every page that existed at entry, provided the root
page is allocated and internal (which every real tree with an internal
parent satisfies, and which the operations themselves maintain). -/
theorem internal_ops_core :
    ∀ fuel : Nat,
      (∀ t a b p p2, RootSafe t p → internal_node_insert fuel t a b p = .ok p2 →
        CoreLe p.num_pages p p2) ∧
      (∀ t a b i p p2, RootSafe t p → internal_split_move_loop fuel t a b i p = .ok p2 →
        CoreLe p.num_pages p p2) ∧
      (∀ t a b p p2, RootSafe t p → internal_node_split_and_insert fuel t a b p = .ok p2 →
        CoreLe p.num_pages p p2) := by
  intro fuel
  induction fuel with
  | zero =>
      refine ⟨?_, ?_, ?_⟩
      · intro t a b p p2 _ h
        exact absurd h (by simp [internal_node_insert])
      · intro t a b i p p2 _ h
        exact absurd h (by simp [internal_split_move_loop])
      · intro t a b p p2 _ h
        exact absurd h (by simp [internal_node_split_and_insert])
  | succ fuel ih =>
      obtain ⟨ih_ins, ih_move, ih_split⟩ := ih
      refine ⟨?_, ?_, ?_⟩
      · -- internal_node_insert
        intro t a b p p2 hRS h
        simp only [internal_node_insert] at h
        obtain ⟨⟨par, p1⟩, h1, h⟩ := bind_ok h
        obtain ⟨hp1, hv1, hn1, hs1, _⟩ := get_page_ok_preserves h1
        dsimp only at h
        obtain ⟨⟨ch, pq⟩, h2, h⟩ := bind_ok h
        obtain ⟨hp2, hv2, _, _, _⟩ := get_page_ok_preserves h2
        dsimp only at h
        obtain ⟨⟨cmax, p3⟩, h3, h⟩ := bind_ok h
        obtain ⟨hp3, hv3⟩ := get_node_max_key_ro _ _ _ _ _ h3
        dsimp only at h
        have hvp3 : ViewEq p3 p := fun x => (hv3 x).trans ((hv2 x).trans (hv1 x))
        have hmono3 : p.num_pages ≤ p3.num_pages := ((hp1.trans hp2).trans hp3).2.1
        have hC3 : CoreLe p.num_pages p p3 := viewEq_coreLe hvp3
        split at h
        · exact hC3.comp (coreLe_mono hmono3
            (ih_split _ _ _ _ _ (rootSafe_step hRS hC3 hmono3) h))
        · split at h
          · injection h with h
            subst h
            refine hC3.comp (coreLe_set_page ?_)
            rw [leafCore_set_internal_right_child, hvp3 a, ← hn1]
          · obtain ⟨⟨rcn, p4⟩, h4, h⟩ := bind_ok h
            obtain ⟨hp4, hv4, _, _, _⟩ := get_page_ok_preserves h4
            dsimp only at h
            have hvp4 : ViewEq p4 p := fun x => (hv4 x).trans (hvp3 x)
            have hCA : CoreLe p.num_pages p (set_page p4 a
                (set_internal_num_keys par (internal_node_num_keys par + 1))) := by
              refine (viewEq_coreLe hvp4).comp (coreLe_set_page ?_)
              rw [leafCore_set_internal_num_keys, hvp4 a, ← hn1]
            have hVA : pageView (set_page p4 a
                (set_internal_num_keys par (internal_node_num_keys par + 1))) a
                = set_internal_num_keys par (internal_node_num_keys par + 1) := by
              rw [pageView_set_page, if_pos rfl]
            obtain ⟨⟨rmax, p5⟩, h5, h⟩ := bind_ok h
            obtain ⟨hp5, hv5⟩ := get_node_max_key_ro _ _ _ _ _ h5
            dsimp only at h
            split at h
            · obtain ⟨⟨rmax2, p6⟩, h6, h⟩ := bind_ok h
              obtain ⟨hp6, hv6⟩ := get_node_max_key_ro _ _ _ _ _ h6
              dsimp only at h
              obtain ⟨parw, h7, h⟩ := bind_ok h
              injection h with h
              subst h
              refine (hCA.comp ((viewEq_coreLe hv5).comp (viewEq_coreLe hv6))).comp
                (coreLe_set_page ?_)
              rw [leafCore_set_internal_right_child, leafCore_write_internal_key,
                write_via_core h7, leafCore_set_internal_num_keys,
                hv6 a, hv5 a, hVA, leafCore_set_internal_num_keys]
            · obtain ⟨parw, h7, h⟩ := bind_ok h
              injection h with h
              subst h
              refine (hCA.comp (viewEq_coreLe hv5)).comp (coreLe_set_page ?_)
              rw [leafCore_write_internal_key, write_via_core h7,
                leafCore_internal_shift_cells, leafCore_set_internal_num_keys,
                hv5 a, hVA, leafCore_set_internal_num_keys]
      · -- internal_split_move_loop
        intro t a b i p p2 hRS h
        simp only [internal_split_move_loop] at h
        split at h
        · injection h with h
          subst h
          exact coreLe_refl _ p
        · split at h
          · exact absurd h (by simp)
          · obtain ⟨⟨onode, p1⟩, h1, h⟩ := bind_ok h
            obtain ⟨hp1, hv1, hn1, hs1, _⟩ := get_page_ok_preserves h1
            dsimp only at h
            obtain ⟨cpn, h2, h⟩ := bind_ok h
            obtain ⟨⟨cnode, p3⟩, h3, h⟩ := bind_ok h
            obtain ⟨hp3, hv3, _, _, _⟩ := get_page_ok_preserves h3
            dsimp only at h
            obtain ⟨p4, h4, h⟩ := bind_ok h
            have hmono1 : p.num_pages ≤ p3.num_pages := (hp1.trans hp3).2.1
            have hC1 : CoreLe p.num_pages p p3 :=
              (viewEq_coreLe hv1).comp (viewEq_coreLe hv3)
            have hpre4 : Preserves p p4 :=
              (hp1.trans hp3).trans ((internal_ops_preserve _).1 _ _ _ _ _ h4)
            have hC4 : CoreLe p.num_pages p p4 :=
              hC1.comp (coreLe_mono hmono1
                (ih_ins _ _ _ _ _ (rootSafe_step hRS hC1 hmono1) h4))
            obtain ⟨⟨cnode2, p5⟩, h5, h⟩ := bind_ok h
            obtain ⟨hp5, hv5, hn5, hs5, _⟩ := get_page_ok_preserves h5
            dsimp only at h
            have hC6 : CoreLe p.num_pages p
                (set_page p5 cpn (set_node_parent cnode2 b)) := by
              refine (hC4.comp (viewEq_coreLe hv5)).comp (coreLe_set_page ?_)
              rw [leafCore_set_node_parent, hv5 cpn, ← hn5]
            obtain ⟨⟨onode2, p7⟩, h7, h⟩ := bind_ok h
            obtain ⟨hp7, hv7, hn7, hs7, _⟩ := get_page_ok_preserves h7
            dsimp only at h
            have hC8 : CoreLe p.num_pages p (set_page p7 a (set_internal_num_keys onode2
                (u32sub (internal_node_num_keys onode2) 1))) := by
              refine (hC6.comp (viewEq_coreLe hv7)).comp (coreLe_set_page ?_)
              rw [leafCore_set_internal_num_keys, hv7 a, ← hn7]
            have hmono8 : p.num_pages ≤ p7.num_pages :=
              le_trans (hpre4.trans hp5).2.1 hp7.2.1
            exact hC8.comp (coreLe_mono hmono8
              (ih_move _ _ _ _ _ _ (rootSafe_step hRS hC8 hmono8) h))
      · -- internal_node_split_and_insert
        intro t a b p p2 hRS h
        simp only [internal_node_split_and_insert] at h
        obtain ⟨⟨onode, p1⟩, h1, h⟩ := bind_ok h
        obtain ⟨hp1, hv1, _, _, _⟩ := get_page_ok_preserves h1
        dsimp only at h
        obtain ⟨⟨omax, p2x⟩, h2, h⟩ := bind_ok h
        obtain ⟨hp2, hv2⟩ := get_node_max_key_ro _ _ _ _ _ h2
        dsimp only at h
        obtain ⟨⟨ch, p3⟩, h3, h⟩ := bind_ok h
        obtain ⟨hp3, hv3, _, _, _⟩ := get_page_ok_preserves h3
        dsimp only at h
        obtain ⟨⟨cmax, p4⟩, h4, h⟩ := bind_ok h
        obtain ⟨hp4, hv4⟩ := get_node_max_key_ro _ _ _ _ _ h4
        dsimp only at h
        have hmono4 : p.num_pages ≤ p4.num_pages :=
          (((hp1.trans hp2).trans hp3).trans hp4).2.1
        have hC4 : CoreLe p.num_pages p p4 := viewEq_coreLe
          (fun x => (hv4 x).trans ((hv3 x).trans ((hv2 x).trans (hv1 x))))
        have hRS4 : RootSafe t p4 := rootSafe_step hRS hC4 hmono4
        obtain ⟨⟨ppu, opg2, onode2, p5⟩, h5, h⟩ := bind_ok h
        have hp5 : Preserves p4 p5 := ins_split_setup_preserves h5
        have hC5 : CoreLe p.num_pages p p5 :=
          hC4.comp (coreLe_mono hmono4 (ins_split_setup_core h5 (le_of_eq rfl) hRS4.2))
        dsimp only at h
        obtain ⟨⟨cnode, p6⟩, h6, h⟩ := bind_ok h
        obtain ⟨hp6, hv6, _, _, _⟩ := get_page_ok_preserves h6
        dsimp only at h
        have hmono6 : p.num_pages ≤ p6.num_pages :=
          le_trans hmono4 (hp5.trans hp6).2.1
        have hC6 : CoreLe p.num_pages p p6 := hC5.comp (viewEq_coreLe hv6)
        obtain ⟨p7, h7, h⟩ := bind_ok h
        have hC7 : CoreLe p.num_pages p p7 :=
          hC6.comp (coreLe_mono hmono6
            (ih_ins _ _ _ _ _ (rootSafe_step hRS hC6 hmono6) h7))
        have hpre7 : Preserves p p7 :=
          ((((hp1.trans hp2).trans hp3).trans hp4).trans (hp5.trans hp6)).trans
            ((internal_ops_preserve _).1 _ _ _ _ _ h7)
        obtain ⟨⟨cnode2, p8⟩, h8, h⟩ := bind_ok h
        obtain ⟨hp8, hv8, hn8, hs8, _⟩ := get_page_ok_preserves h8
        dsimp only at h
        have hC9 : CoreLe p.num_pages p (set_page p8
            (internal_node_right_child onode2) (set_node_parent cnode2
              (get_unused_page_num p4))) := by
          refine (hC7.comp (viewEq_coreLe hv8)).comp (coreLe_set_page ?_)
          rw [leafCore_set_node_parent, hv8 _, ← hn8]
        obtain ⟨⟨onode3, p10⟩, h10, h⟩ := bind_ok h
        obtain ⟨hp10, hv10, hn10, hs10, _⟩ := get_page_ok_preserves h10
        dsimp only at h
        have hC11 : CoreLe p.num_pages p (set_page p10 opg2
            (set_internal_right_child onode3 INVALID_PAGE_NUM)) := by
          refine (hC9.comp (viewEq_coreLe hv10)).comp (coreLe_set_page ?_)
          rw [leafCore_set_internal_right_child, hv10 _, ← hn10]
        have hmono11 : p.num_pages ≤ p10.num_pages :=
          le_trans ((hpre7.trans hp8).trans (set_page_preserves hs8)).2.1 hp10.2.1
        obtain ⟨p12, h12, h⟩ := bind_ok h
        have hC12 : CoreLe p.num_pages p p12 :=
          hC11.comp (coreLe_mono hmono11
            (ih_move _ _ _ _ _ _ (rootSafe_step hRS hC11 hmono11) h12))
        have hpre12 : Preserves p p12 :=
          (((hpre7.trans hp8).trans (set_page_preserves hs8)).trans
            (hp10.trans (set_page_preserves hs10))).trans
            ((internal_ops_preserve _).2.1 _ _ _ _ _ _ h12)
        obtain ⟨⟨onode4, p13⟩, h13, h⟩ := bind_ok h
        obtain ⟨hp13, hv13, hn13, hs13, _⟩ := get_page_ok_preserves h13
        dsimp only at h
        obtain ⟨rcs, h14, h⟩ := bind_ok h
        have hC15 : CoreLe p.num_pages p (set_page p13 opg2
            (set_internal_num_keys (set_internal_right_child onode4 rcs)
              (u32sub (internal_node_num_keys (set_internal_right_child onode4 rcs))
                1))) := by
          refine ((hC12.comp (viewEq_coreLe hv13))).comp (coreLe_set_page ?_)
          rw [leafCore_set_internal_num_keys, leafCore_set_internal_right_child,
            hv13 _, ← hn13]
        obtain ⟨⟨onode5, p16⟩, h16, h⟩ := bind_ok h
        obtain ⟨hp16, hv16, _, _, _⟩ := get_page_ok_preserves h16
        dsimp only at h
        obtain ⟨⟨mas, p17⟩, h17, h⟩ := bind_ok h
        obtain ⟨hp17, hv17⟩ := get_node_max_key_ro _ _ _ _ _ h17
        dsimp only at h
        have hC17 : CoreLe p.num_pages p p17 :=
          (hC15.comp (viewEq_coreLe hv16)).comp (viewEq_coreLe hv17)
        have hmono17 : p.num_pages ≤ p17.num_pages :=
          le_trans hpre12.2.1 (le_trans hp13.2.1 (le_trans hp16.2.1 hp17.2.1))
        obtain ⟨p18, h18, h⟩ := bind_ok h
        have hC18 : CoreLe p.num_pages p p18 :=
          hC17.comp (coreLe_mono hmono17
            (ih_ins _ _ _ _ _ (rootSafe_step hRS hC17 hmono17) h18))
        have hpre18 : Preserves p p18 :=
          ((hpre12.trans (hp13.trans (set_page_preserves hs13))).trans
            (hp16.trans hp17)).trans ((internal_ops_preserve _).1 _ _ _ _ _ h18)
        obtain ⟨⟨chn, p19⟩, h19, h⟩ := bind_ok h
        obtain ⟨hp19, hv19, hn19, hs19, _⟩ := get_page_ok_preserves h19
        dsimp only at h
        have hC20 : CoreLe p.num_pages p (set_page p19 b (set_node_parent chn
            (if cmax < mas then opg2 else get_unused_page_num p4))) := by
          refine (hC18.comp (viewEq_coreLe hv19)).comp (coreLe_set_page ?_)
          rw [leafCore_set_node_parent, hv19 _, ← hn19]
        obtain ⟨⟨onode6, p21⟩, h21, h⟩ := bind_ok h
        obtain ⟨hp21, hv21, _, _, _⟩ := get_page_ok_preserves h21
        dsimp only at h
        obtain ⟨⟨nmax, p22⟩, h22, h⟩ := bind_ok h
        obtain ⟨hp22, hv22⟩ := get_node_max_key_ro _ _ _ _ _ h22
        dsimp only at h
        obtain ⟨⟨parn, p23⟩, h23, h⟩ := bind_ok h
        obtain ⟨hp23, hv23, hn23, hs23, _⟩ := get_page_ok_preserves h23
        dsimp only at h
        have hC24 : CoreLe p.num_pages p (set_page p23 ppu
            (update_internal_node_key parn omax nmax)) := by
          refine (((hC20.comp (viewEq_coreLe hv21)).comp
            (viewEq_coreLe hv22)).comp (viewEq_coreLe hv23)).comp
            (coreLe_set_page ?_)
          rw [leafCore_update_internal_node_key, hv23 _, ← hn23]
        have hmono24 : p.num_pages ≤ p23.num_pages :=
          le_trans hpre18.2.1 (le_trans hp19.2.1
            (le_trans hp21.2.1 (le_trans hp22.2.1 hp23.2.1)))
        split at h
        · injection h with h
          subst h
          exact hC24
        · obtain ⟨⟨onode7, p25⟩, h25, h⟩ := bind_ok h
          obtain ⟨hp25, hv25, _, _, _⟩ := get_page_ok_preserves h25
          dsimp only at h
          have hC25 : CoreLe p.num_pages p p25 := hC24.comp (viewEq_coreLe hv25)
          have hmono25 : p.num_pages ≤ p25.num_pages :=
            le_trans hmono24 hp25.2.1
          obtain ⟨p26, h26, h⟩ := bind_ok h
          have hC26 : CoreLe p.num_pages p p26 :=
            hC25.comp (coreLe_mono hmono25
              (ih_ins _ _ _ _ _ (rootSafe_step hRS hC25 hmono25) h26))
          obtain ⟨⟨nn, p27⟩, h27, h⟩ := bind_ok h
          obtain ⟨hp27, hv27, hn27, hs27, _⟩ := get_page_ok_preserves h27
          dsimp only at h
          injection h with h
          subst h
          refine (hC26.comp (viewEq_coreLe hv27)).comp (coreLe_set_page ?_)
          rw [leafCore_set_node_parent, hv27 _, ← hn27]

theorem error_bind {α β : Type} (e : DbErr) (f : α → Except DbErr β) :
    ((Except.error e : Except DbErr α) >>= f) = .error e := rfl

/-- C3: whenever an insert lands in a leaf that already holds
`LEAF_NODE_MAX_CELLS` = 13 cells — root leaf or not, wherever it sits under
its parent, whatever the rest of the tree looks like — the leaf splits.  In
every state the operation completes in (`.ok s2`; the model's `.error`
results are the paths on which the C process exits, so no final state
exists there), the old (left) leaf holds the lower
`LEAF_NODE_LEFT_SPLIT_COUNT` = 7 of the 14 merged cells and the new (right)
leaf, on the freshly allocated page `s.num_pages`, holds the upper
`LEAF_NODE_RIGHT_SPLIT_COUNT` = 7; the merged sequence is the 13 original
cells plus the new `(key, value)` in strictly ascending key order, so every
key of the left leaf is below every key of the right leaf; and the sibling
chain is relinked: the left leaf's `next_leaf` is the new page and the new
leaf's `next_leaf` is the old leaf's former sibling.  When the root leaf
splits, `create_new_root` relocates the left half to page `s.num_pages + 1`;
otherwise it stays on `c.page_num`.  The split's continuation — the parent
key update and the arbitrarily deep `internal_node_insert` cascade — never
rewrites an existing leaf payload, by the leaf-core frame lemmas above. -/
theorem c3_leaf_split_distribution
    (s : Pager) (t : Table) (c : Cursor) (key : Nat) (value : Row)
    (L : LeafData) (es : List (Nat × Row)) (fuel : Nat) {s2 : Pager}
    (hInv : PagerInv s)
    (hsold : s.pages c.page_num = some (.leaf L))
    (hN : L.num_cells = LEAF_NODE_MAX_CELLS)
    (hlen : es.length = LEAF_NODE_MAX_CELLS)
    (hcells : ∀ i, i < LEAF_NODE_MAX_CELLS → L.cells i = es.getD i (0, defaultRow))
    (hchain : List.Chain' (· < ·) (es.map Prod.fst))
    (hr : c.cell_num ≤ LEAF_NODE_MAX_CELLS)
    (hbelow : ∀ j, j < c.cell_num → (es.getD j (0, defaultRow)).1 < key)
    (habove : ∀ j, c.cell_num ≤ j → j < LEAF_NODE_MAX_CELLS →
      key < (es.getD j (0, defaultRow)).1)
    (hrootT : L.is_root = true → t.root_page_num = c.page_num)
    (hrootF : L.is_root = false → (s.pages t.root_page_num).isSome ∧
      leafCore (pageView s t.root_page_num) = none)
    (hrun : leaf_node_insert fuel c key value t s = .ok s2) :
    ∃ pL L2 N2,
      (L.is_root = false → pL = c.page_num) ∧
      (L.is_root = true → pL = s.num_pages + 1) ∧
      pageView s2 pL = .leaf L2 ∧
      pageView s2 s.num_pages = .leaf N2 ∧
      L2.num_cells = LEAF_NODE_LEFT_SPLIT_COUNT ∧
      N2.num_cells = LEAF_NODE_RIGHT_SPLIT_COUNT ∧
      (∀ q, q < LEAF_NODE_LEFT_SPLIT_COUNT →
        L2.cells q = mergedCell es c.cell_num key value q) ∧
      (∀ q, q < LEAF_NODE_RIGHT_SPLIT_COUNT →
        N2.cells q = mergedCell es c.cell_num key value
          (q + LEAF_NODE_LEFT_SPLIT_COUNT)) ∧
      L2.next_leaf = s.num_pages ∧
      N2.next_leaf = L.next_leaf ∧
      (∀ i j, i < j → j < LEAF_NODE_MAX_CELLS + 1 →
        (mergedCell es c.cell_num key value i).1 <
        (mergedCell es c.cell_num key value j).1) := by
  have h13 : LEAF_NODE_MAX_CELLS = 13 := by decide
  have h7L : LEAF_NODE_LEFT_SPLIT_COUNT = 7 := by decide
  have h7R : LEAF_NODE_RIGHT_SPLIT_COUNT = 7 := by decide
  have hlt_old : c.page_num < s.num_pages := hInv.1 c.page_num (by rw [hsold]; rfl)
  have hfresh : s.pages s.num_pages = none := by
    cases hc : s.pages s.num_pages with
    | none => rfl
    | some n =>
        have := hInv.1 s.num_pages (by rw [hc]; rfl)
        omega
  have hsort : ∀ i j, i < j → j ≤ 12 →
      (es.getD i (0, defaultRow)).1 < (es.getD j (0, defaultRow)).1 := by
    intro i j hij hj
    rw [← getD_map_fst (j := i) (by omega), ← getD_map_fst (j := j) (by omega)]
    exact chain_lt_getD_lt hchain i j hij (by rw [List.length_map]; omega)
  have hmono := msplit_strict_mono (fun j => es.getD j (0, defaultRow))
    c.cell_num key value (by omega) hsort (fun j hj => hbelow j hj)
    (fun j hj1 hj2 => habove j hj1 (by omega))
  -- run the code forward: the insert lands on the full leaf and splits
  unfold leaf_node_insert at hrun
  have hOldLt : c.page_num < TABLE_MAX_PAGES := by
    by_contra hcon
    obtain ⟨e, he⟩ := get_page_err (show TABLE_MAX_PAGES ≤ c.page_num by omega)
    rw [he, error_bind] at hrun
    exact Except.noConfusion hrun
  rw [get_page_cached hOldLt hsold, ok_bind] at hrun
  dsimp only at hrun
  simp only [leaf_node_num_cells] at hrun
  rw [hN, if_pos (le_refl LEAF_NODE_MAX_CELLS)] at hrun
  cases fuel with
  | zero => exact absurd hrun (by simp [leaf_node_split_and_insert])
  | succ f1 =>
  simp only [leaf_node_split_and_insert] at hrun
  rw [get_page_cached hOldLt hsold, ok_bind] at hrun
  dsimp only at hrun
  cases f1 with
  | zero =>
      rw [show get_node_max_key 0 s (Node.leaf L)
          = Except.error DbErr.outOfFuel from rfl, error_bind] at hrun
      exact Except.noConfusion hrun
  | succ f2 =>
  rw [get_node_max_key_leaf, ok_bind] at hrun
  dsimp only at hrun
  simp only [get_unused_page_num] at hrun
  have hNPlt : s.num_pages < TABLE_MAX_PAGES := by
    by_contra hcon
    obtain ⟨e, he⟩ := get_page_err (show TABLE_MAX_PAGES ≤ s.num_pages by omega)
    rw [he, error_bind] at hrun
    exact Except.noConfusion hrun
  obtain ⟨sA, hgpA, hAne, hAnum, hAfile⟩ :
      ∃ sA, get_page s s.num_pages = .ok (zeroNode, sA) ∧
        (∀ j, j ≠ s.num_pages → sA.pages j = s.pages j) ∧
        sA.num_pages = s.num_pages + 1 ∧ sA.file = s.file := by
    refine ⟨{ s with
      pages := fun j => if j = s.num_pages then some zeroNode else s.pages j,
      num_pages := s.num_pages + 1 }, ?_, ?_, rfl, rfl⟩
    · unfold get_page
      rw [if_neg (by omega), if_neg (by omega), hfresh]
      dsimp only
      have hz : (if s.num_pages ≤ s.file.length then s.file.getD s.num_pages zeroNode
          else zeroNode) = zeroNode := by
        by_cases hc : s.num_pages ≤ s.file.length
        · rw [if_pos hc]
          exact List.getD_eq_default _ _ (by have := hInv.2; omega)
        · rw [if_neg hc]
      rw [hz, if_pos (le_refl s.num_pages)]
    · intro j hj
      dsimp only
      rw [if_neg hj]
  obtain ⟨hAP, hAV, _, hAs, _⟩ := get_page_ok_preserves hgpA
  rw [hgpA, ok_bind] at hrun
  dsimp only at hrun
  obtain ⟨od2, nd2, hloop, A1, A2, A3, B1, B2, B3, B4, C1, C2, C3, C4⟩ :=
    leaf_split_loop_spec c.cell_num key value (fun j => es.getD j (0, defaultRow))
      (by omega) 13 (by omega)
      { L with next_leaf := s.num_pages }
      { is_root := false, parent := L.parent, num_cells := 0,
        next_leaf := L.next_leaf, cells := fun _ => (0, defaultRow) }
      (fun q hq => by
        rw [if_neg (by omega)]
        show L.cells q = es.getD q (0, defaultRow)
        exact hcells q (by omega))
      (fun q hq hq2 => absurd hq2 (by omega))
  have hnew0 : set_leaf_next_leaf (set_node_parent (init_leaf_node zeroNode)
      (node_parent (Node.leaf L))) (leaf_node_next_leaf (Node.leaf L))
      = Node.leaf
          { is_root := false, parent := L.parent, num_cells := 0,
            next_leaf := L.next_leaf, cells := fun _ => (0, defaultRow) } := rfl
  have hold1 : set_leaf_next_leaf (Node.leaf L) s.num_pages
      = Node.leaf { L with next_leaf := s.num_pages } := rfl
  have hsetL : set_leaf_num_cells (.leaf od2) LEAF_NODE_LEFT_SPLIT_COUNT
      = .leaf { od2 with num_cells := 7 } := by
    simp only [set_leaf_num_cells]
    rw [show LEAF_NODE_LEFT_SPLIT_COUNT % U32_MOD = 7 from by decide]
  have hsetR : set_leaf_num_cells (.leaf nd2) LEAF_NODE_RIGHT_SPLIT_COUNT
      = .leaf { nd2 with num_cells := 7 } := by
    simp only [set_leaf_num_cells]
    rw [show LEAF_NODE_RIGHT_SPLIT_COUNT % U32_MOD = 7 from by decide]
  rw [hnew0, hold1, h13, hloop] at hrun
  try dsimp only at hrun
  rw [hsetL, hsetR] at hrun
  set sC := set_page (set_page sA c.page_num (Node.leaf { od2 with num_cells := 7 }))
    s.num_pages (Node.leaf { nd2 with num_cells := 7 }) with hsCdef
  have hnumC : sC.num_pages = s.num_pages + 1 := by
    rw [hsCdef]
    exact hAnum
  have hvC_old : pageView sC c.page_num = Node.leaf { od2 with num_cells := 7 } := by
    rw [hsCdef, pageView_set_page, if_neg (by omega), pageView_set_page, if_pos rfl]
  have hvC_new : pageView sC s.num_pages = Node.leaf { nd2 with num_cells := 7 } := by
    rw [hsCdef, pageView_set_page, if_pos rfl]
  have hvC_other : ∀ x, x ≠ c.page_num → x ≠ s.num_pages →
      pageView sC x = pageView s x := by
    intro x hx1 hx2
    rw [hsCdef, pageView_set_page, if_neg hx2, pageView_set_page, if_neg hx1]
    exact hAV x
  have hslotC_old : sC.pages c.page_num
      = some (Node.leaf { od2 with num_cells := 7 }) := by
    rw [hsCdef, set_page_pages_ne _ _ _ _ (by omega), set_page_pages_eq]
  have hslotC_new : sC.pages s.num_pages
      = some (Node.leaf { nd2 with num_cells := 7 }) := by
    rw [hsCdef, set_page_pages_eq]
  by_cases hbT : L.is_root = true
  · -- the full leaf is the root: create_new_root relocates it
    have hisT : is_node_root (Node.leaf { od2 with num_cells := 7 }) = true := by
      simp only [is_node_root]
      show od2.is_root = true
      rw [B4]
      exact hbT
    rw [if_pos hisT] at hrun
    have hroot_eq : t.root_page_num = c.page_num := hrootT hbT
    unfold create_new_root at hrun
    rw [hroot_eq] at hrun
    rw [get_page_cached hOldLt hslotC_old, ok_bind] at hrun
    dsimp only at hrun
    rw [get_page_cached hNPlt hslotC_new, ok_bind] at hrun
    dsimp only at hrun
    simp only [get_unused_page_num] at hrun
    rw [hnumC] at hrun
    have hNP1 : s.num_pages + 1 < TABLE_MAX_PAGES := by
      by_contra hcon
      obtain ⟨e, he⟩ := get_page_err (show TABLE_MAX_PAGES ≤ s.num_pages + 1 by omega)
      rw [he, error_bind] at hrun
      exact Except.noConfusion hrun
    have hfresh1 : s.pages (s.num_pages + 1) = none := by
      cases hc1 : s.pages (s.num_pages + 1) with
      | none => rfl
      | some n =>
          have := hInv.1 (s.num_pages + 1) (by rw [hc1]; rfl)
          omega
    obtain ⟨sD, hgpD, hDne, hDeq⟩ :
        ∃ sD, get_page sC (s.num_pages + 1) = .ok (zeroNode, sD) ∧
          (∀ j, j ≠ s.num_pages + 1 → sD.pages j = sC.pages j) ∧
          sD.pages (s.num_pages + 1) = some zeroNode := by
      refine ⟨{ sC with
        pages := fun j => if j = s.num_pages + 1 then some zeroNode else sC.pages j,
        num_pages := s.num_pages + 1 + 1 }, ?_, ?_, ?_⟩
      · unfold get_page
        rw [if_neg (by omega), if_neg (by omega)]
        have hslot1 : sC.pages (s.num_pages + 1) = none := by
          rw [hsCdef, set_page_pages_ne _ _ _ _ (by omega),
            set_page_pages_ne _ _ _ _ (by omega), hAne _ (by omega)]
          exact hfresh1
        rw [hslot1]
        dsimp only
        have hCfile : sC.file = s.file := by
          rw [hsCdef]
          exact hAfile
        have hz1 : (if s.num_pages + 1 ≤ sC.file.length then
            sC.file.getD (s.num_pages + 1) zeroNode else zeroNode) = zeroNode := by
          rw [if_neg (by rw [hCfile]; have := hInv.2; omega)]
        rw [hz1, hnumC, if_pos (by omega)]
      · intro j hj
        dsimp only
        rw [if_neg hj]
      · dsimp only
        rw [if_pos rfl]
    rw [hgpD, ok_bind] at hrun
    dsimp only at hrun
    have hcnr : cnr_init_children (Node.leaf { od2 with num_cells := 7 })
        (Node.leaf { nd2 with num_cells := 7 }) zeroNode s.num_pages
        (s.num_pages + 1) sD
        = (Node.leaf { nd2 with num_cells := 7 }, sD) := by
      unfold cnr_init_children
      rw [if_neg (fun hk => NodeType.noConfusion hk)]
    rw [hcnr] at hrun
    dsimp only at hrun
    rw [show set_node_root (Node.leaf { od2 with num_cells := 7 }) false
        = Node.leaf { od2 with num_cells := 7, is_root := false } from rfl] at hrun
    have hrep : cnr_reparent (s.num_pages + 1)
        (Node.leaf { od2 with num_cells := 7, is_root := false })
        (set_page sD (s.num_pages + 1)
          (Node.leaf { od2 with num_cells := 7, is_root := false }))
        = .ok (set_page sD (s.num_pages + 1)
            (Node.leaf { od2 with num_cells := 7, is_root := false })) := by
      unfold cnr_reparent
      rw [if_neg (fun hk => NodeType.noConfusion hk)]
      rfl
    rw [hrep, ok_bind] at hrun
    try dsimp only at hrun
    have hwv : write_via_internal_left_child
        (set_internal_num_keys (set_node_root
          (init_internal_node (Node.leaf { od2 with num_cells := 7 })) true) 1) 0
        (s.num_pages + 1)
        = .ok (write_internal_child (set_internal_num_keys (set_node_root
            (init_internal_node (Node.leaf { od2 with num_cells := 7 })) true) 1) 0
          (s.num_pages + 1)) := by
      have hc2 : ¬ ((0 : Nat) = internal_node_num_keys (set_internal_num_keys
          (set_node_root (init_internal_node
            (Node.leaf { od2 with num_cells := 7 })) true) 1)) := by
        show ¬ ((0 : Nat) = 1 % U32_MOD)
        decide
      have hc3 : ¬ (internal_node_cell_child (set_internal_num_keys
          (set_node_root (init_internal_node
            (Node.leaf { od2 with num_cells := 7 })) true) 1) 0
          = INVALID_PAGE_NUM) := by
        show ¬ ((0 : Nat) = INVALID_PAGE_NUM)
        decide
      unfold write_via_internal_left_child
      try dsimp only
      rw [if_neg (by omega), if_neg hc2, if_neg hc3]
    rw [hwv, ok_bind] at hrun
    try dsimp only at hrun
    rw [get_node_max_key_leaf, ok_bind] at hrun
    try dsimp only at hrun
    obtain ⟨⟨lc3, pH⟩, hh1, hrun⟩ := bind_ok hrun
    obtain ⟨hpH, hvH, hnH, _, _⟩ := get_page_ok_preserves hh1
    dsimp only at hrun
    have hlc3 : lc3 = Node.leaf { od2 with num_cells := 7, is_root := false } := by
      rw [hnH, pageView_set_page, if_neg (by omega), pageView_set_page,
        if_neg (by omega), pageView_set_page, if_pos rfl]
    subst hlc3
    obtain ⟨⟨rc3, pI⟩, hh2, hrun⟩ := bind_ok hrun
    obtain ⟨hpI, hvI, hnI, _, _⟩ := get_page_ok_preserves hh2
    dsimp only at hrun
    have hvD_NP : pageView sD s.num_pages = Node.leaf { nd2 with num_cells := 7 } := by
      unfold pageView
      rw [hDne _ (by omega), hslotC_new]
    have hrc3 : rc3 = Node.leaf { nd2 with num_cells := 7 } := by
      rw [hnI, pageView_set_page, if_neg (by omega), hvH s.num_pages,
        pageView_set_page, if_neg (by omega), pageView_set_page, if_neg (by omega),
        pageView_set_page, if_neg (by omega), hvD_NP]
    subst hrc3
    injection hrun with hs2
    subst hs2
    refine ⟨s.num_pages + 1,
      { od2 with num_cells := 7, is_root := false, parent := c.page_num },
      { nd2 with num_cells := 7, parent := c.page_num },
      fun hF => absurd hF (by rw [hbT]; simp),
      fun _ => rfl, ?_, ?_, ?_, ?_, ?_, ?_, ?_, ?_, ?_⟩
    · rw [pageView_set_page, if_neg (by omega), hvI (s.num_pages + 1),
        pageView_set_page, if_pos rfl]
      rfl
    · rw [pageView_set_page, if_pos rfl]
      rfl
    · exact h7L.symm
    · exact h7R.symm
    · intro q hq
      rw [h7L] at hq
      exact A1 q (by omega)
    · intro q hq
      rw [h7R] at hq
      rw [h7L]
      exact A3 q (by omega)
    · show od2.next_leaf = s.num_pages
      rw [B2]
    · show nd2.next_leaf = L.next_leaf
      rw [C2]
    · intro i j hij hj
      rw [h13] at hj
      exact hmono i j hij (by omega)
  · -- a non-root leaf: parent update, then the insert cascade, which the
    -- leaf-core frame shows never touches the two split leaves
    have hb' : L.is_root = false := by
      cases hLb : L.is_root
      · rfl
      · exact absurd hLb hbT
    have hisF : ¬ (is_node_root (Node.leaf { od2 with num_cells := 7 }) = true) := by
      simp only [is_node_root]
      show ¬ (od2.is_root = true)
      rw [B4]
      show ¬ (L.is_root = true)
      rw [hb']
      simp
    rw [if_neg hisF] at hrun
    try dsimp only at hrun
    have hpar2 : node_parent (Node.leaf { od2 with num_cells := 7 }) = L.parent := by
      simp only [node_parent]
      rw [B3]
    rw [hpar2] at hrun
    rw [get_node_max_key_leaf, ok_bind] at hrun
    dsimp only at hrun
    obtain ⟨⟨par, q1⟩, hg1, hrun⟩ := bind_ok hrun
    obtain ⟨hq1P, hq1V, hq1n, hq1s, _⟩ := get_page_ok_preserves hg1
    dsimp only at hrun
    have hq1num : s.num_pages + 1 ≤ q1.num_pages := by
      have h := hq1P.2.1
      rw [hnumC] at h
      exact h
    obtain ⟨hrs_some, hrs_core⟩ := hrootF hb'
    have hrootlt : t.root_page_num < s.num_pages := hInv.1 t.root_page_num hrs_some
    have hroot_ne_old : t.root_page_num ≠ c.page_num := by
      intro he
      have hpv : pageView s c.page_num = Node.leaf L := by
        unfold pageView
        rw [hsold]
      rw [he, hpv] at hrs_core
      exact Option.noConfusion hrs_core
    have hq2v : ∀ x, leafCore (pageView (set_page q1 L.parent
        (update_internal_node_key par
          (leaf_node_key (Node.leaf L) (u32sub L.num_cells 1))
          (leaf_node_key (Node.leaf { od2 with num_cells := 7 })
            (u32sub ({ od2 with num_cells := 7 } : LeafData).num_cells 1)))) x)
        = leafCore (pageView sC x) := by
      intro x
      rw [pageView_set_page]
      by_cases he : x = L.parent
      · rw [if_pos he, leafCore_update_internal_node_key, hq1n, he]
      · rw [if_neg he]
        exact congrArg leafCore (hq1V x)
    have hRSq2 : RootSafe t (set_page q1 L.parent
        (update_internal_node_key par
          (leaf_node_key (Node.leaf L) (u32sub L.num_cells 1))
          (leaf_node_key (Node.leaf { od2 with num_cells := 7 })
            (u32sub ({ od2 with num_cells := 7 } : LeafData).num_cells 1)))) := by
      constructor
      · show t.root_page_num < q1.num_pages
        omega
      · rw [hq2v t.root_page_num,
          hvC_other t.root_page_num hroot_ne_old (by omega)]
        exact hrs_core
    have hCore := (internal_ops_core (f2 + 1)).1 t L.parent s.num_pages _ s2 hRSq2 hrun
    have hall : ∀ x, x < s.num_pages + 1 →
        leafCore (pageView s2 x) = leafCore (pageView sC x) := by
      intro x hx
      refine (hCore x ?_).trans (hq2v x)
      show x < q1.num_pages
      omega
    have hcoreL7 : leafCore (Node.leaf { od2 with num_cells := 7 })
        = some (7, s.num_pages, od2.cells) := by
      simp only [leafCore]
      rw [B2]
    have hcoreR7 : leafCore (Node.leaf { nd2 with num_cells := 7 })
        = some (7, L.next_leaf, nd2.cells) := by
      simp only [leafCore]
      rw [C2]
    have hfin_old : leafCore (pageView s2 c.page_num)
        = some (7, s.num_pages, od2.cells) := by
      rw [hall c.page_num (by omega), hvC_old]
      exact hcoreL7
    have hfin_new : leafCore (pageView s2 s.num_pages)
        = some (7, L.next_leaf, nd2.cells) := by
      rw [hall s.num_pages (by omega), hvC_new]
      exact hcoreR7
    cases hvv : pageView s2 c.page_num with
    | internal d =>
        rw [hvv] at hfin_old
        exact Option.noConfusion hfin_old
    | leaf L2 =>
    cases hvv2 : pageView s2 s.num_pages with
    | internal d =>
        rw [hvv2] at hfin_new
        exact Option.noConfusion hfin_new
    | leaf N2 =>
    rw [hvv] at hfin_old
    rw [hvv2] at hfin_new
    simp only [leafCore, Option.some.injEq, Prod.mk.injEq] at hfin_old hfin_new
    obtain ⟨e1, e2, e3⟩ := hfin_old
    obtain ⟨g1, g2, g3⟩ := hfin_new
    refine ⟨c.page_num, L2, N2, fun _ => rfl,
      fun hT => absurd hT (by rw [hb']; simp), hvv, rfl, ?_, ?_, ?_, ?_, ?_, ?_, ?_⟩
    · rw [h7L]
      exact e1
    · rw [h7R]
      exact g1
    · intro q hq
      rw [h7L] at hq
      rw [e3]
      exact A1 q (by omega)
    · intro q hq
      rw [h7R] at hq
      rw [h7L, g3]
      exact A3 q (by omega)
    · exact e2
    · exact g2
    · intro i j hij hj
      rw [h13] at hj
      exact hmono i j hij (by omega)

/-- The witness state for C3: page 0 an internal root with one key, page 1
a one-row sibling leaf, page 2 a full leaf with keys 100,110,...,220 that
is the root's right child. -/
def demoEs13 : List (Nat × Row) :=
  [(100, mkRow 100), (110, mkRow 110), (120, mkRow 120), (130, mkRow 130),
   (140, mkRow 140), (150, mkRow 150), (160, mkRow 160), (170, mkRow 170),
   (180, mkRow 180), (190, mkRow 190), (200, mkRow 200), (210, mkRow 210),
   (220, mkRow 220)]

def demoL13 : LeafData :=
  ⟨false, 0, 13, 0, fun i => demoEs13.getD i (0, defaultRow)⟩

def demoSibling : LeafData :=
  ⟨false, 0, 1, 2, fun i => if i = 0 then (70, mkRow 70) else (0, defaultRow)⟩

def demoRootC3 : InternalData := ⟨true, 0, 1, 2, fun _ => (1, 70)⟩

def demoPagerC3 : Pager :=
  ⟨[], fun i =>
      if i = 0 then some (.internal demoRootC3)
      else if i = 1 then some (.leaf demoSibling)
      else if i = 2 then some (.leaf demoL13)
      else none,
    3⟩

theorem demoC3_inv : PagerInv demoPagerC3 := by
  have hnp : demoPagerC3.num_pages = 3 := rfl
  constructor
  · intro i hi
    by_cases h0 : i = 0
    · omega
    · by_cases h1 : i = 1
      · omega
      · by_cases h2 : i = 2
        · omega
        · exfalso
          unfold demoPagerC3 at hi
          dsimp only at hi
          rw [if_neg h0, if_neg h1, if_neg h2] at hi
          simp at hi
  · decide

/-- The witness root-split state for C3: a one-page database whose root
page 0 is a full leaf with keys 100,110,...,220. -/
def demoRootLeafC3 : LeafData :=
  ⟨true, 0, 13, 0, fun i => demoEs13.getD i (0, defaultRow)⟩

def demoPagerRootC3 : Pager :=
  ⟨[], fun i => if i = 0 then some (.leaf demoRootLeafC3) else none, 1⟩

theorem demoPagerRootC3_inv : PagerInv demoPagerRootC3 := by
  have hnp : demoPagerRootC3.num_pages = 1 := rfl
  constructor
  · intro i hi
    by_cases h0 : i = 0
    · omega
    · exfalso
      unfold demoPagerRootC3 at hi
      dsimp only at hi
      rw [if_neg h0] at hi
      simp at hi
  · decide

set_option maxHeartbeats 3200000 in
/-- Witness for C3 at both split shapes.  First, inserting key 230 at the
end of the full root leaf splits it 7/7: the left half is relocated to
page 2, the right half goes to page 1.  Second, inserting key 105 (cursor
cell 1) into the full non-root leaf on page 2 splits it 7/7 in place onto
pages 2 and 3.  Both runs produce the merged cells in ascending order with
the sibling chain relinked. -/
theorem c3_leaf_split_distribution_witness :
    (∃ s2 : Pager,
      leaf_node_insert 3 ⟨0, 13, none⟩ 230 (mkRow 230) ⟨0⟩ demoPagerRootC3
        = .ok s2 ∧
      ∃ pL L2 N2,
        (demoRootLeafC3.is_root = false → pL = 0) ∧
        (demoRootLeafC3.is_root = true → pL = 2) ∧
        pageView s2 pL = .leaf L2 ∧
        pageView s2 1 = .leaf N2 ∧
        L2.num_cells = LEAF_NODE_LEFT_SPLIT_COUNT ∧
        N2.num_cells = LEAF_NODE_RIGHT_SPLIT_COUNT ∧
        (∀ q, q < LEAF_NODE_LEFT_SPLIT_COUNT →
          L2.cells q = mergedCell demoEs13 13 230 (mkRow 230) q) ∧
        (∀ q, q < LEAF_NODE_RIGHT_SPLIT_COUNT →
          N2.cells q = mergedCell demoEs13 13 230 (mkRow 230)
            (q + LEAF_NODE_LEFT_SPLIT_COUNT)) ∧
        L2.next_leaf = 1 ∧
        N2.next_leaf = demoRootLeafC3.next_leaf ∧
        (∀ i j, i < j → j < LEAF_NODE_MAX_CELLS + 1 →
          (mergedCell demoEs13 13 230 (mkRow 230) i).1 <
          (mergedCell demoEs13 13 230 (mkRow 230) j).1)) ∧
    (∃ s2 : Pager,
      leaf_node_insert 3 ⟨2, 1, none⟩ 105 (mkRow 105) ⟨0⟩ demoPagerC3 = .ok s2 ∧
      ∃ pL L2 N2,
        (demoL13.is_root = false → pL = 2) ∧
        (demoL13.is_root = true → pL = 4) ∧
        pageView s2 pL = .leaf L2 ∧
        pageView s2 3 = .leaf N2 ∧
        L2.num_cells = LEAF_NODE_LEFT_SPLIT_COUNT ∧
        N2.num_cells = LEAF_NODE_RIGHT_SPLIT_COUNT ∧
        (∀ q, q < LEAF_NODE_LEFT_SPLIT_COUNT →
          L2.cells q = mergedCell demoEs13 1 105 (mkRow 105) q) ∧
        (∀ q, q < LEAF_NODE_RIGHT_SPLIT_COUNT →
          N2.cells q = mergedCell demoEs13 1 105 (mkRow 105)
            (q + LEAF_NODE_LEFT_SPLIT_COUNT)) ∧
        L2.next_leaf = 3 ∧
        N2.next_leaf = demoL13.next_leaf ∧
        (∀ i j, i < j → j < LEAF_NODE_MAX_CELLS + 1 →
          (mergedCell demoEs13 1 105 (mkRow 105) i).1 <
          (mergedCell demoEs13 1 105 (mkRow 105) j).1)) := by
  constructor
  · refine ⟨_, rfl, ?_⟩
    exact c3_leaf_split_distribution demoPagerRootC3 ⟨0⟩ ⟨0, 13, none⟩ 230
      (mkRow 230) demoRootLeafC3 demoEs13 3 demoPagerRootC3_inv rfl rfl rfl
      (fun i _ => rfl) (by simp [demoEs13, List.chain'_cons]) (by decide)
      (by
        intro j hj
        have hj13 : j < 13 := hj
        interval_cases j <;> decide)
      (by
        intro j h1 h2
        have h1x : 13 ≤ j := h1
        have h2x : j < 13 := h2
        omega)
      (fun _ => rfl) (fun hf => absurd hf (by decide)) rfl
  · refine ⟨_, rfl, ?_⟩
    exact c3_leaf_split_distribution demoPagerC3 ⟨0⟩ ⟨2, 1, none⟩ 105
      (mkRow 105) demoL13 demoEs13 3 demoC3_inv rfl rfl rfl
      (fun i _ => rfl) (by simp [demoEs13, List.chain'_cons]) (by decide)
      (by
        intro j hj
        have hj1 : j < 1 := hj
        interval_cases j
        decide)
      (by
        intro j h1 h2
        have ha : 1 ≤ j := h1
        have hb2 : j < 13 := h2
        interval_cases j <;> decide)
      (fun hT => absurd hT (by decide)) (fun _ => ⟨rfl, rfl⟩) rfl

/-- Rows with ids 1..14, inserted in ascending order into a fresh database:
the 14th insert splits the root leaf, so afterwards the root is internal
(one separator key 7, left leaf holding 1..7, right leaf holding 8..14). -/
def rows_1_to_14 : List Row := (List.range 14).map (fun i => mkRow (i + 1))

/-- The table state after inserting ids 1..14 into a fresh database. -/
def state_after_14 : Except DbErr Pager := do
  let (t, p) ← db_open []
  let (_, p) ← apply_inserts 200 t rows_1_to_14 p
  pure p

/-- The ids `select` prints in that state. -/
def ids_before_dup : Except DbErr (List Nat) := do
  let p ← state_after_14
  let (rows, _) ← exec_select 200 ⟨0⟩ p
  pure (rows.map (fun r => r.id))

/-- The result of then inserting a row whose id 2 is already present. -/
def dup_insert_result : Except DbErr ExecResult := do
  let p ← state_after_14
  let (r, _) ← exec_insert 200 (mkRow 2) ⟨0⟩ p
  pure r

/-- The ids `select` prints after that duplicate insert. -/
def ids_after_dup : Except DbErr (List Nat) := do
  let p ← state_after_14
  let (_, p) ← exec_insert 200 (mkRow 2) ⟨0⟩ p
  let (rows, _) ← exec_select 200 ⟨0⟩ p
  pure (rows.map (fun r => r.id))

/-- The statement results of the whole 15-insert session (ids 1..14 then 2
again). -/
def dup_session_results : Except DbErr (List ExecResult) :=
  (do
    let (t, p) ← db_open []
    apply_inserts 200 t (rows_1_to_14 ++ [mkRow 2]) p).map Prod.fst

set_option maxRecDepth 100000

/-- C1: the claim fails on the code; this theorem evaluates the code at the
failing input.  After inserting ids 1..14 into a fresh database the root is
internal; inserting a row whose id 2 is already present then returns
`Success` — not `DuplicateKey` — and the tree changes: the scan afterwards
lists id 2 twice.  The cause is that `exec_insert` reads `num_cells` and the
probed key from the page at `root_page_num` instead of the leaf the cursor
points at; with an internal root the punned `num_cells` read yields the
root's `num_keys` (here 1), the cursor's `cell_num` (here 1) is not below
it, and the duplicate check is skipped entirely. -/
theorem c1_duplicate_insert_internal_root_not_detected :
    ids_before_dup = .ok [1, 2, 3, 4, 5, 6, 7, 8, 9, 10, 11, 12, 13, 14] ∧
    dup_insert_result = .ok .success ∧
    ids_after_dup = .ok [1, 2, 2, 3, 4, 5, 6, 7, 8, 9, 10, 11, 12, 13, 14] :=
  ⟨rfl, rfl, rfl⟩

/-- C2: the claim fails on the code; this theorem evaluates the code at the
failing input.  In the session inserting ids 1..14 and then 2 again into a
fresh database, every one of the 15 inserts reports `Success` (the duplicate
goes undetected because `exec_insert` probes the root page, see C1), yet
`select_all` then yields id 2 twice — the output is not strictly ascending
and does not list each row exactly once. -/
theorem c2_select_after_successful_inserts_not_ascending :
    dup_session_results = .ok (List.replicate 15 .success) ∧
    ids_after_dup = .ok [1, 2, 2, 3, 4, 5, 6, 7, 8, 9, 10, 11, 12, 13, 14] ∧
    ¬ List.Chain' (· < ·) [1, 2, 2, 3, 4, 5, 6, 7, 8, 9, 10, 11, 12, 13, 14] :=
  ⟨rfl, rfl, by
    intro h
    rw [List.chain'_cons, List.chain'_cons] at h
    exact absurd h.2.1 (by decide)⟩

/-- C5: the claim fails on the code; this theorem evaluates the guard.  The
source tests `page_num > TABLE_MAX_PAGES`, so the terminating out-of-bounds
failure occurs exactly for `page_num > 100` — not `page_num ≥ 100` as the
claim states — and at `page_num = 100` the code passes the guard and indexes
`pager->pages[100]`, one slot past the end of the 100-entry slot array
(surfaced in the model as the distinct `slotOutOfBounds` error). -/
theorem c5_get_page_bound_check_off_by_one :
    (∀ p : Pager, ∀ i : Nat,
      (get_page p i = .error .pageBoundExit ↔ TABLE_MAX_PAGES < i)) ∧
    get_page (pager_open []) TABLE_MAX_PAGES = .error .slotOutOfBounds ∧
    (∃ n p2, get_page (pager_open []) 99 = .ok (n, p2)) := by
  refine ⟨?_, rfl, ⟨zeroNode, _, rfl⟩⟩
  intro p i
  unfold get_page
  constructor
  · intro h
    by_contra hlt
    simp only [gt_iff_lt, if_neg hlt] at h
    split at h
    · simp at h
    · split at h <;> simp at h
  · intro h
    simp [h]

/-- C4 (counterexample): `table_find` (via `leaf_node_find`) returns the
cursor with its `end_of_table` field still holding the indeterminate bytes
of the fresh `xmalloc` allocation — the field is never assigned on the find
path — whereas the claim asserts it equals `(num_cells == 0)`, which for
this one-row table would be `false`.  Concretely: after inserting id 1 into
a fresh database, `find(1)` lands on the root leaf (1 cell) and the cursor's
`end_of_table` is unset (`none`), not `some false`. -/
theorem c4_find_leaves_end_of_table_unset :
    (do
      let (t, p) ← db_open []
      let (_, p) ← exec_insert 200 (mkRow 1) t p
      let (c, p) ← table_find 200 t 1 p
      let (node, _) ← get_page p c.page_num
      pure (c.end_of_table, leaf_node_num_cells node)
      : Except DbErr (Option Bool × Nat)) = .ok (none, 1) :=
  rfl

/-! ## Parser claims -/

/-- C8: `prepare_insert` parses the id token with `atoi`.  A token with no
leading digits parses to 0 and the insert is accepted with id 0; a token of
digits followed by other characters is accepted as the leading number; with
the right number of whitespace-separated fields `prepare_insert` never
reports a syntax error; and the id is rejected exactly when `atoi` returns a
strictly negative value. -/
theorem c8_prepare_insert_atoi_behavior :
    prepare_insert "insert abc u e" = .success ⟨0, "u", "e"⟩ ∧
    prepare_insert "insert 12abc u e" = .success ⟨12, "u", "e"⟩ ∧
    (∀ buf kw idt un em rest, tokenize buf = kw :: idt :: un :: em :: rest →
      prepare_insert buf ≠ .syntaxError) ∧
    (∀ buf kw idt un em rest, tokenize buf = kw :: idt :: un :: em :: rest →
      (prepare_insert buf = .negativeId ↔ atoi idt < 0)) := by
  refine ⟨by decide, by decide, ?_, ?_⟩
  · intro buf kw idt un em rest h
    unfold prepare_insert
    rw [h]
    dsimp only
    split
    · simp
    · split
      · simp
      · split <;> simp
  · intro buf kw idt un em rest h
    unfold prepare_insert
    rw [h]
    dsimp only
    constructor
    · intro hres
      by_contra hneg
      rw [if_neg hneg] at hres
      split at hres
      · exact PrepareResult.noConfusion hres
      · split at hres
        · exact PrepareResult.noConfusion hres
        · exact PrepareResult.noConfusion hres
    · intro hneg
      rw [if_pos hneg]

/-- Witness for C8 at concrete inputs: `insert -3 u e` has four fields and
is rejected as a negative id; `insert abc u e` has four fields and is not a
syntax error. -/
theorem c8_prepare_insert_atoi_behavior_witness :
    tokenize "insert -3 u e" = ["insert", "-3", "u", "e"] ∧
    prepare_insert "insert -3 u e" = .negativeId ∧
    prepare_insert "insert abc u e" ≠ .syntaxError :=
  ⟨by decide,
   (c8_prepare_insert_atoi_behavior.2.2.2 "insert -3 u e" "insert" "-3" "u" "e" []
      (by decide)).mpr (by decide),
   c8_prepare_insert_atoi_behavior.2.2.1 "insert abc u e" "insert" "abc" "u" "e" []
      (by decide)⟩

/-- C10: `prepare_statement` hands any line whose first six characters are
`insert` to `prepare_insert` (a `strncmp(…, 6)` prefix match, so
`inserttrash 1 a b` is parsed as an insert and even succeeds), whereas
`select` must match the entire line exactly, so `select 5` is
unrecognized. -/
theorem c10_prepare_statement_prefix_match :
    (∀ buf : String, buf.data.take 6 = "insert".data →
      prepare_statement buf = .insertStmt (prepare_insert buf)) ∧
    prepare_statement "inserttrash 1 a b" = .insertStmt (.success ⟨1, "a", "b"⟩) ∧
    prepare_statement "select" = .selectStmt ∧
    prepare_statement "select 5" = .unrecognizedStmt := by
  refine ⟨?_, by decide, by decide, by decide⟩
  intro buf h
  unfold prepare_statement
  rw [if_pos h]

/-- Witness for C10 at a concrete input. -/
theorem c10_prepare_statement_prefix_match_witness :
    ("insertxyz".data.take 6 = "insert".data) ∧
    prepare_statement "insertxyz" = .insertStmt (prepare_insert "insertxyz") :=
  ⟨by decide, c10_prepare_statement_prefix_match.1 "insertxyz" (by decide)⟩

end Sqlyte
